import Mathlib

/-!
# Sieve_size: a size-aware SIEVE eviction policy

Shallow embedding of `libCacheSim/cache/eviction/Sieve_size.c`.

Representation.  A record (`cache_obj_t`) is identified by its address.  The
intrusive doubly linked queue is kept as the list of its records in *scan
order*: the oldest record (`q_tail`) comes first and the newest (`q_head`)
last, so that following `queue.prev` (tail towards head) is moving one place
to the right in the list and following `queue.next` one place to the left.
A pointer is an `Option Nat` (`none` is `NULL`).  Reading through `NULL` or
through a pointer to a record that is not queued is the fault `bad_pointer`.
Loops whose termination is not structural take a fuel argument and return the
fault `out_of_fuel` when it is used up.
-/

namespace SieveSize

/-! ## Data model -/

/-- Ways in which a run of the embedded code can fail to produce a value. -/
inductive Fault where
  | bad_pointer
  | out_of_fuel
deriving DecidableEq, Repr

/-- Object record: the fields of `cache_obj_t` read or written by the policy.
`addr` is the identity of the record (its address), `freq` is
`sieve_size.freq`. -/
structure cache_obj_t where
  addr : Nat
  obj_id : Nat
  obj_size : Nat
  freq : Int
deriving DecidableEq, Repr

/-- The fields of a request used when a record is created. -/
structure request_t where
  obj_id : Nat
  obj_size : Nat
deriving DecidableEq, Repr

/-- The field of `common_cache_params_t` read by `Sieve_size_init`. -/
structure common_cache_params_t where
  consider_obj_metadata : Bool
deriving DecidableEq, Repr

/-- Policy instance: `Sieve_size_params_t` (`q`, `pointer`,
`eviction_window_size`) together with the parts of `cache_t` owned by the
runtime that the policy reads: the object index (`hashtable`, entries
`(obj_id, addr)`, newest first), the totals `n_obj` and `occupied_byte`, the
per-object metadata size and the allocator's next free address. -/
structure cache_t where
  q : List cache_obj_t
  pointer : Option Nat
  eviction_window_size : Int
  obj_md_size : Nat
  hashtable : List (Nat × Nat)
  n_obj : Int
  occupied_byte : Int
  next_addr : Nat
deriving DecidableEq, Repr

/-! ## Queue primitives -/

/-- The field `q_tail`: oldest record, `NULL` when the queue is empty. -/
def q_tail (c : cache_t) : Option Nat := c.q.head?.map (·.addr)

/-- The field `q_head`: newest record, `NULL` when the queue is empty. -/
def q_head (c : cache_t) : Option Nat := c.q.getLast?.map (·.addr)

/-- Read of the record behind a pointer. -/
def deref (c : cache_t) : Option Nat → Except Fault cache_obj_t
  | none => .error .bad_pointer
  | some p =>
    match c.q.find? (fun o => o.addr == p) with
    | some o => .ok o
    | none => .error .bad_pointer

/-- Right neighbour, in a list of records, of the record at address `p`
(`some none` when that record is the last one, `none` when no record has
address `p`). -/
def link_after : List cache_obj_t → Nat → Option (Option Nat)
  | [], _ => none
  | o :: rest, p =>
    if o.addr = p then some (rest.head?.map (·.addr)) else link_after rest p

/-- Read of `obj->queue.prev`: the neighbour towards the head. -/
def queue_prev (c : cache_t) : Option Nat → Except Fault (Option Nat)
  | none => .error .bad_pointer
  | some p =>
    match link_after c.q p with
    | some r => .ok r
    | none => .error .bad_pointer

/-- Read of `obj->queue.next`: the neighbour towards the tail. -/
def queue_next (c : cache_t) : Option Nat → Except Fault (Option Nat)
  | none => .error .bad_pointer
  | some p =>
    match link_after c.q.reverse p with
    | some r => .ok r
    | none => .error .bad_pointer

/-- Write `obj->sieve_size.freq = v` through a pointer to a queued record. -/
def set_freq (c : cache_t) (obj : Option Nat) (v : Int) : cache_t :=
  match obj with
  | none => c
  | some p =>
    { c with q := c.q.map (fun o => if o.addr = p then { o with freq := v } else o) }

/-- Modelled from the spec: `prepend_obj_to_head` (§4.1 `prepend(record)`,
"makes `record` the new head"); its source is not part of the module. -/
def prepend_obj_to_head (c : cache_t) (obj : cache_obj_t) : cache_t :=
  { c with q := c.q ++ [obj] }

/-- Modelled from the spec: `remove_obj_from_list` (§4.1 `unlink(record)`,
"given the record is currently queued, removes it and repairs neighboring
links, updating head/tail if the record was an endpoint"; it may not be called
with a record that is not queued); its source is not part of the module. -/
def remove_obj_from_list (c : cache_t) (obj : Option Nat) : Except Fault cache_t :=
  match deref c obj with
  | .error e => .error e
  | .ok o => .ok { c with q := c.q.filter (fun x => x.addr != o.addr) }

/-! ## Runtime hooks and index -/

/-- Modelled from the spec: `hashtable_find_obj_id` (§6 `find_by_id(id) ->
record | absent`); the index is external to the module. -/
def hashtable_find_obj_id (c : cache_t) (obj_id : Nat) : Option Nat :=
  (c.hashtable.find? (fun e => e.1 == obj_id)).map (·.2)

/-- Modelled from the spec: `cache_insert_base` (§6 `on_insert(record)`: the
runtime creates the record, adds it to the index and to the object-count and
occupied-byte totals); its source is not part of the module.  The new record
gets the next free address.  The spec does not say what the runtime leaves in
the record's `sieve_size.freq`, so that content, `fresh_freq`, is an argument
and can be any value. -/
def cache_insert_base (c : cache_t) (req : request_t) (fresh_freq : Int) :
    cache_obj_t × cache_t :=
  let obj : cache_obj_t :=
    { addr := c.next_addr, obj_id := req.obj_id, obj_size := req.obj_size,
      freq := fresh_freq }
  (obj, { c with hashtable := (obj.obj_id, obj.addr) :: c.hashtable,
                 n_obj := c.n_obj + 1,
                 occupied_byte := c.occupied_byte + obj.obj_size,
                 next_addr := c.next_addr + 1 })

/-- Modelled from the spec: `cache_evict_base` (§6 `on_evict(record)`: takes
the record out of the index and of the totals); its source is not part of the
module. -/
def cache_evict_base (c : cache_t) (obj : cache_obj_t) : cache_t :=
  { c with hashtable := c.hashtable.filter (fun e => e.2 != obj.addr),
           n_obj := c.n_obj - 1,
           occupied_byte := c.occupied_byte - obj.obj_size }

/-- Modelled from the spec: `cache_remove_obj_base` (§6 `on_remove(record)`:
takes the record out of the index and of the totals); its source is not part of
the module. -/
def cache_remove_obj_base (c : cache_t) (obj : cache_obj_t) : cache_t :=
  { c with hashtable := c.hashtable.filter (fun e => e.2 != obj.addr),
           n_obj := c.n_obj - 1,
           occupied_byte := c.occupied_byte - obj.obj_size }

/-- Modelled from the spec: `cache_find_base` (§4.4 lookup "delegates record
retrieval to the external index"); its source is not part of the module. -/
def cache_find_base (c : cache_t) (req : request_t) (_update_cache : Bool) :
    Option Nat × cache_t :=
  (hashtable_find_obj_id c req.obj_id, c)

/-! ## Policy operations -/

/-- `Sieve_size_init`: empty queue, no cursor, window size 100.  The
configuration string is handed to `cache_struct_init` only. -/
def Sieve_size_init (ccache_params : common_cache_params_t)
    (_cache_specific_params : Option String) : cache_t :=
  { q := [],
    pointer := none,
    eviction_window_size := 100,
    obj_md_size := if ccache_params.consider_obj_metadata then 1 else 0,
    hashtable := [],
    n_obj := 0,
    occupied_byte := 0,
    next_addr := 0 }

/-- `Sieve_size_find`. -/
def Sieve_size_find (c : cache_t) (req : request_t) (update_cache : Bool) :
    Option Nat × cache_t :=
  let (cache_obj, c1) := cache_find_base c req update_cache
  if cache_obj ≠ none ∧ update_cache = true then
    (cache_obj, set_freq c1 cache_obj 1)
  else
    (cache_obj, c1)

/-- `Sieve_size_insert`; `fresh_freq` is what the `freq` field of the record
made by `cache_insert_base` holds before line 151 writes it. -/
def Sieve_size_insert (c : cache_t) (req : request_t) (fresh_freq : Int) :
    Option Nat × cache_t :=
  let (obj, c1) := cache_insert_base c req fresh_freq
  let c2 := prepend_obj_to_head c1 obj
  let c3 := set_freq c2 (some obj.addr) 0
  (some obj.addr, c3)

/-- The two `while (pointer != NULL && pointer->sieve_size.freq >
to_evict_freq)` loops of `Sieve_size_to_evict_with_freq`. -/
def skip_loop (c : cache_t) (to_evict_freq : Int) :
    Nat → Option Nat → Except Fault (Option Nat)
  | 0, _ => .error .out_of_fuel
  | _ + 1, none => .ok none
  | fuel + 1, some p =>
    match deref c (some p) with
    | .error e => .error e
    | .ok o =>
      if o.freq > to_evict_freq then
        match queue_prev c (some p) with
        | .error e => .error e
        | .ok prev => skip_loop c to_evict_freq fuel prev
      else .ok (some p)

/-- `Sieve_size_to_evict_with_freq`. -/
def Sieve_size_to_evict_with_freq (fuel : Nat) (c : cache_t) (to_evict_freq : Int) :
    Except Fault (Option Nat × cache_t) :=
  let pointer := c.pointer
  let pointer := if pointer = none then q_tail c else pointer
  match skip_loop c to_evict_freq fuel pointer with
  | .error e => .error e
  | .ok pointer =>
    if pointer = none then
      match skip_loop c to_evict_freq fuel (q_tail c) with
      | .error e => .error e
      | .ok pointer => .ok (pointer, c)
    else .ok (pointer, c)

/-- The loop `while (window_remainder-- > 0)` of
`Sieve_size_evict_largest_from_window`, on the locals `pointer` and
`eviction_candidate`. -/
def window_loop (c : cache_t) : Nat → Option Nat → Option Nat → Except Fault (Option Nat)
  | 0, _, eviction_candidate => .ok eviction_candidate
  | window_remainder + 1, pointer, eviction_candidate =>
    let pointer := if pointer = none then q_tail c else pointer
    let larger : Except Fault Bool :=
      match eviction_candidate with
      | none => .ok true
      | some e =>
        match deref c pointer, deref c (some e) with
        | .ok po, .ok eo => .ok (decide (po.obj_size > eo.obj_size))
        | .error err, _ => .error err
        | _, .error err => .error err
    match larger with
    | .error err => .error err
    | .ok b =>
      let eviction_candidate := if b then pointer else eviction_candidate
      match queue_prev c pointer with
      | .error err => .error err
      | .ok prev => window_loop c window_remainder prev eviction_candidate

/-- `Sieve_size_evict_largest_from_window`. -/
def Sieve_size_evict_largest_from_window (c : cache_t) (first_obj_in_window : Option Nat)
    (_to_evict_freq : Int) : Except Fault (Option Nat × cache_t) :=
  match window_loop c c.eviction_window_size.toNat first_obj_in_window
      first_obj_in_window with
  | .error e => .error e
  | .ok eviction_candidate => .ok (eviction_candidate, c)

/-- The loop `while (obj_to_evict == NULL)` of `Sieve_size_to_evict`; `inner` is
the fuel handed to each call of `Sieve_size_to_evict_with_freq`. -/
def escalate_loop (inner : Nat) :
    Nat → cache_t → Int → Option Nat → Except Fault (Option Nat × Int × cache_t)
  | 0, _, _, _ => .error .out_of_fuel
  | fuel + 1, c, to_evict_freq, obj_to_evict =>
    if obj_to_evict = none then
      let to_evict_freq := to_evict_freq + 1
      match Sieve_size_to_evict_with_freq inner c to_evict_freq with
      | .error e => .error e
      | .ok (obj_to_evict, c1) => escalate_loop inner fuel c1 to_evict_freq obj_to_evict
    else .ok (obj_to_evict, to_evict_freq, c)

/-- `Sieve_size_to_evict` (peek_victim). -/
def Sieve_size_to_evict (fuel : Nat) (c : cache_t) : Except Fault (Option Nat × cache_t) :=
  let to_evict_freq : Int := 0
  match Sieve_size_to_evict_with_freq fuel c to_evict_freq with
  | .error e => .error e
  | .ok (obj_to_evict, c1) =>
    match escalate_loop fuel fuel c1 to_evict_freq obj_to_evict with
    | .error e => .error e
    | .ok (obj_to_evict, to_evict_freq, c2) =>
      Sieve_size_evict_largest_from_window c2 obj_to_evict to_evict_freq

/-- The aging loop `while (obj->sieve_size.freq > 0)` of `Sieve_size_evict`;
returns the cache after the decrements and the record the loop stopped at. -/
def aging_loop : Nat → cache_t → Option Nat → Except Fault (cache_t × Option Nat)
  | 0, _, _ => .error .out_of_fuel
  | fuel + 1, c, obj =>
    match deref c obj with
    | .error e => .error e
    | .ok o =>
      if o.freq > 0 then
        let c1 := set_freq c obj (o.freq - 1)
        match queue_prev c1 obj with
        | .error e => .error e
        | .ok prev => aging_loop fuel c1 (if prev = none then q_tail c1 else prev)
      else .ok (c, obj)

/-- The pointer the aging loop of `Sieve_size_evict` starts from:
`params->pointer == NULL ? params->q_tail : params->pointer`. -/
def scan_start (c : cache_t) : Option Nat :=
  if c.pointer = none then q_tail c else c.pointer

/-- `Sieve_size_evict`.  The record of the victim is read before the unlink,
since the queue list is where the embedding keeps the records; the unlink does
not change the fields that `cache_evict_base` uses. -/
def Sieve_size_evict (fuel : Nat) (c : cache_t) : Except Fault cache_t :=
  let obj := scan_start c
  match aging_loop fuel c obj with
  | .error e => .error e
  | .ok (c1, obj) =>
    match Sieve_size_evict_largest_from_window c1 obj 0 with
    | .error e => .error e
    | .ok (obj_to_evict, c2) =>
      let new_pointer : Except Fault (Option Nat) :=
        if obj_to_evict = obj then queue_prev c2 obj else .ok obj
      match new_pointer with
      | .error e => .error e
      | .ok np =>
        let c3 := { c2 with pointer := np }
        match deref c3 obj_to_evict with
        | .error e => .error e
        | .ok victim =>
          match remove_obj_from_list c3 obj_to_evict with
          | .error e => .error e
          | .ok c4 => .ok (cache_evict_base c4 victim)

/-- `Sieve_size_remove_obj` (the `DEBUG_ASSERT` is the `bad_pointer` fault of
the reads through `obj_to_remove`).  As in `Sieve_size_evict` the record is
read before the unlink. -/
def Sieve_size_remove_obj (c : cache_t) (obj_to_remove : Option Nat) : Except Fault cache_t :=
  let new_pointer : Except Fault (Option Nat) :=
    if obj_to_remove = c.pointer then queue_prev c obj_to_remove else .ok c.pointer
  match new_pointer with
  | .error e => .error e
  | .ok np =>
    let c1 := { c with pointer := np }
    match deref c1 obj_to_remove with
    | .error e => .error e
    | .ok removed =>
      match remove_obj_from_list c1 obj_to_remove with
      | .error e => .error e
      | .ok c2 => .ok (cache_remove_obj_base c2 removed)

/-- `Sieve_size_remove`. -/
def Sieve_size_remove (c : cache_t) (obj_id : Nat) : Except Fault (Bool × cache_t) :=
  let obj := hashtable_find_obj_id c obj_id
  if obj = none then .ok (false, c)
  else
    match Sieve_size_remove_obj c obj with
    | .error e => .error e
    | .ok c1 => .ok (true, c1)

/-- The loop `while (obj != NULL)` of `Sieve_size_verify`; the Boolean tells
whether the assertion in its body held at every record. -/
def verify_loop (c : cache_t) : Nat → Option Nat → Int → Int → Except Fault (Bool × Int × Int)
  | 0, _, _, _ => .error .out_of_fuel
  | _ + 1, none, n_obj, n_byte => .ok (true, n_obj, n_byte)
  | fuel + 1, some p, n_obj, n_byte =>
    match deref c (some p) with
    | .error e => .error e
    | .ok o =>
      if hashtable_find_obj_id c o.obj_id = none then .ok (false, n_obj, n_byte)
      else
        match queue_next c (some p) with
        | .error e => .error e
        | .ok next => verify_loop c fuel next (n_obj + 1) (n_byte + o.obj_size)

/-- `Sieve_size_verify`: `true` when no assertion fails. -/
def Sieve_size_verify (fuel : Nat) (c : cache_t) : Except Fault Bool :=
  match verify_loop c fuel (q_head c) 0 0 with
  | .error e => .error e
  | .ok (held, n_obj, n_byte) =>
    .ok (held && decide (n_obj = c.n_obj) && decide (n_byte = c.occupied_byte))

/-! ## Notions used in the statements -/

/-- Addresses of the queued records, in scan order (tail first). -/
def addrs (c : cache_t) : List Nat := c.q.map (·.addr)

/-- Representation invariant of the queue: queued records have pairwise
distinct addresses. -/
def wf (c : cache_t) : Prop := (addrs c).Nodup

instance (c : cache_t) : Decidable (wf c) := by unfold wf; infer_instance

/-- The cursor is absent or refers to a queued record. -/
def cursor_ok (c : cache_t) : Prop :=
  match c.pointer with
  | none => True
  | some a => a ∈ addrs c

instance (c : cache_t) : Decidable (cursor_ok c) := by
  unfold cursor_ok; split <;> infer_instance

/-- Address of the first record of a list, as a pointer. -/
def hd (r : List cache_obj_t) : Option Nat := r.head?.map (·.addr)

/-- Cyclic scan order of the queue from the record at pointer `p`: that record
first, then the records towards the head, then (wrapping from the head) the
records from the tail up to the one before `p`.  Empty for `NULL`. -/
def scan_order (c : cache_t) : Option Nat → List cache_obj_t
  | none => []
  | some a => c.q.dropWhile (fun o => o.addr != a) ++ c.q.takeWhile (fun o => o.addr != a)

/-- The first `n` records met when walking a cycle `r` round and round. -/
def cyc_take : Nat → List cache_obj_t → List cache_obj_t
  | 0, _ => []
  | _ + 1, [] => []
  | n + 1, o :: rest => o :: cyc_take n (rest ++ [o])

/-- The records examined by a window of `W` positions that starts at `p`. -/
def window_records (c : cache_t) (p : Option Nat) (W : Nat) : List cache_obj_t :=
  cyc_take W (scan_order c p)

/-- A record with its `freq` lowered by `k`. -/
def aged (k : Nat) (o : cache_obj_t) : cache_obj_t := { o with freq := o.freq - k }

/-- The larger of a running candidate and a record, the candidate winning ties. -/
def larger_of (best x : cache_obj_t) : cache_obj_t :=
  if x.obj_size > best.obj_size then x else best

/-- Sum of the (non-negative parts of the) `freq` values of the queue. -/
def freq_total (c : cache_t) : Nat := (c.q.map (fun o => o.freq.toNat)).sum

/-- Fuel that is enough for every loop of one `Sieve_size_evict` or
`Sieve_size_to_evict` call. -/
def enough_fuel (c : cache_t) : Nat := c.q.length + freq_total c + 1

/-- The list `r` is the queue read as a cycle from some queued record. -/
def CycView (c : cache_t) (r : List cache_obj_t) : Prop :=
  ∃ l1 o l2, c.q = l1 ++ o :: l2 ∧ r = o :: l2 ++ l1

/-- Two caches that differ at most in the `freq` fields of their records. -/
def Frame (c c1 : cache_t) : Prop :=
  c1 = { c with q := c1.q } ∧
    c1.q.map (fun o => { o with freq := 0 }) = c.q.map (fun o => { o with freq := 0 })

instance (c c1 : cache_t) : Decidable (Frame c c1) := by unfold Frame; infer_instance

/-- The index agrees with the queue (invariant I1): every queued record has its
entry and every entry is that of a queued record. -/
def index_ok (c : cache_t) : Prop :=
  (∀ o ∈ c.q, (o.obj_id, o.addr) ∈ c.hashtable) ∧
    (∀ e ∈ c.hashtable, ∃ o ∈ c.q, e = (o.obj_id, o.addr))

instance (c : cache_t) : Decidable (index_ok c) := by unfold index_ok; infer_instance

/-- The totals agree with the queue (invariant I2). -/
def totals_ok (c : cache_t) : Prop :=
  c.n_obj = c.q.length ∧ c.occupied_byte = ((c.q.map (fun o => (o.obj_size : Int))).sum)

instance (c : cache_t) : Decidable (totals_ok c) := by unfold totals_ok; infer_instance

/-- Queue invariant: distinct addresses, a cursor that is absent or queued
(invariant I3), and every queued address below the allocator's next one. -/
def queue_inv (c : cache_t) : Prop :=
  wf c ∧ cursor_ok c ∧ ∀ a ∈ addrs c, a < c.next_addr

instance (c : cache_t) : Decidable (queue_inv c) := by unfold queue_inv; infer_instance

/-- The calls the runtime makes on a policy instance; an insert comes with the
content of the new record's `freq` field as the runtime leaves it. -/
inductive Op where
  | insert (req : request_t) (fresh_freq : Int)
  | lookup (req : request_t) (update_cache : Bool)
  | evict
  | remove (obj_id : Nat)
deriving DecidableEq, Repr

/-- Effect of one call on the cache. -/
def apply_op (fuel : Nat) (c : cache_t) : Op → Except Fault cache_t
  | .insert req fresh_freq => .ok (Sieve_size_insert c req fresh_freq).2
  | .lookup req update_cache => .ok (Sieve_size_find c req update_cache).2
  | .evict => Sieve_size_evict fuel c
  | .remove obj_id =>
    match Sieve_size_remove c obj_id with
    | .error e => .error e
    | .ok (_, c1) => .ok c1

/-- States reached from `Sieve_size_init` by calls that return (an eviction on
an empty queue reads through `NULL` and does not return). -/
inductive Reachable : cache_t → Prop where
  | start (ccache_params : common_cache_params_t) (cache_specific_params : Option String) :
      Reachable (Sieve_size_init ccache_params cache_specific_params)
  | step {c c1 : cache_t} (fuel : Nat) (op : Op) :
      Reachable c → apply_op fuel c op = .ok c1 → Reachable c1

/-! ## Example states -/

/-- An empty cache whose window size is 2. -/
def ex_empty_w2 : cache_t :=
  { Sieve_size_init { consider_obj_metadata := false } none with eviction_window_size := 2 }

/-- Records A (id 1, size 10), B (id 2, size 50), C (id 3, size 10) inserted in
that order into `ex_empty_w2`; the runtime leaves 7, -2 and 1 in their `freq`
fields. -/
def ex_abc : cache_t :=
  (Sieve_size_insert
    (Sieve_size_insert
      (Sieve_size_insert ex_empty_w2 { obj_id := 1, obj_size := 10 } 7).2
      { obj_id := 2, obj_size := 50 } (-2)).2
    { obj_id := 3, obj_size := 10 } 1).2

/-- Records A, B, C as in `ex_abc`, inserted into a cache with the window size
100 that `Sieve_size_init` sets. -/
def ex_abc_w100 : cache_t :=
  (Sieve_size_insert
    (Sieve_size_insert
      (Sieve_size_insert (Sieve_size_init { consider_obj_metadata := false } none)
        { obj_id := 1, obj_size := 10 } 7).2
      { obj_id := 2, obj_size := 50 } (-2)).2
    { obj_id := 3, obj_size := 10 } 1).2

/-- The state `ex_abc` after a promoting lookup of each of A, B, C. -/
def ex_abc_visited : cache_t :=
  (Sieve_size_find
    (Sieve_size_find
      (Sieve_size_find ex_abc { obj_id := 1, obj_size := 10 } true).2
      { obj_id := 2, obj_size := 50 } true).2
    { obj_id := 3, obj_size := 10 } true).2

/-- A run of calls, stopping at the first one that does not return. -/
def run_ops (fuel : Nat) : cache_t → List Op → Except Fault cache_t
  | c, [] => .ok c
  | c, op :: ops =>
    match apply_op fuel c op with
    | .error e => .error e
    | .ok c1 => run_ops fuel c1 ops

/-- A run from `Sieve_size_init`: insert A, B, C, look A up, evict, remove C,
insert D, evict. -/
def ex_ops : List Op :=
  [.insert { obj_id := 1, obj_size := 10 } 7, .insert { obj_id := 2, obj_size := 50 } (-2),
   .insert { obj_id := 3, obj_size := 10 } 1, .lookup { obj_id := 1, obj_size := 10 } true,
   .evict, .remove 3, .insert { obj_id := 4, obj_size := 7 } 5, .evict]

/-- The state at the end of the run `ex_ops`. -/
def ex_run : cache_t :=
  match run_ops 8 (Sieve_size_init { consider_obj_metadata := false } none) ex_ops with
  | .ok c => c
  | .error _ => Sieve_size_init { consider_obj_metadata := false } none

/-- The head-to-tail walk of the queue: from `q_head` along `queue.next` until
`NULL`, as the loop of `Sieve_size_verify` does it, collecting the records. -/
def walk_loop (c : cache_t) : Nat → Option Nat → Except Fault (List cache_obj_t)
  | 0, _ => .error .out_of_fuel
  | _ + 1, none => .ok []
  | fuel + 1, some p =>
    match deref c (some p) with
    | .error e => .error e
    | .ok o =>
      match queue_next c (some p) with
      | .error e => .error e
      | .ok next =>
        match walk_loop c fuel next with
        | .error e => .error e
        | .ok rest => .ok (o :: rest)

/-- The records met on the head-to-tail walk. -/
def head_to_tail (fuel : Nat) (c : cache_t) : Except Fault (List cache_obj_t) :=
  walk_loop c fuel (q_head c)

/-- Insertion of a list of requests, first request first; each request comes
with the content the runtime leaves in the new record's `freq` field. -/
def insert_all (c : cache_t) : List (request_t × Int) → cache_t
  | [] => c
  | (req, fresh_freq) :: reqs => insert_all (Sieve_size_insert c req fresh_freq).2 reqs

/-- Requests r1 (id 1, size 10), r2 (id 2, size 50), r3 (id 3, size 10), with
7, -2 and 1 left in the `freq` fields of their records. -/
def ex_reqs : List (request_t × Int) :=
  [({ obj_id := 1, obj_size := 10 }, 7), ({ obj_id := 2, obj_size := 50 }, -2),
   ({ obj_id := 3, obj_size := 10 }, 1)]

/-- Records B (id 2, size 50), A (id 1, size 10), C (id 3, size 10) inserted in
that order into `ex_empty_w2`: the tail is the largest record. -/
def ex_bac : cache_t :=
  insert_all ex_empty_w2
    [({ obj_id := 2, obj_size := 50 }, 7), ({ obj_id := 1, obj_size := 10 }, -2),
     ({ obj_id := 3, obj_size := 10 }, 1)]

/-- One record A (id 1, size 10) in a cache with window size 2. -/
def ex_single : cache_t := insert_all ex_empty_w2 [({ obj_id := 1, obj_size := 10 }, 7)]

/-- Window size 2, tail A (id 1, size 10, `freq = 0`) and, next to it towards
the head, B (id 2, size 50, `freq = 1`). -/
def ex_ab_visited : cache_t :=
  (Sieve_size_find
    (insert_all ex_empty_w2
      [({ obj_id := 1, obj_size := 10 }, 7), ({ obj_id := 2, obj_size := 50 }, -2)])
    { obj_id := 2, obj_size := 50 } true).2

/-- A run from `Sieve_size_init`: insert A (size 10), insert B (size 50), look B
up. -/
def ex_ops_ab : List Op :=
  [.insert { obj_id := 1, obj_size := 10 } 7, .insert { obj_id := 2, obj_size := 50 } (-2),
   .lookup { obj_id := 2, obj_size := 50 } true]

/-- The state at the end of the run `ex_ops_ab`. -/
def ex_run_ab : cache_t :=
  match run_ops 1 (Sieve_size_init { consider_obj_metadata := false } none) ex_ops_ab with
  | .ok c => c
  | .error _ => Sieve_size_init { consider_obj_metadata := false } none

/-- The state `ex_abc` after one eviction: A and C are queued and the cursor is
at A. -/
def ex_ac : cache_t :=
  match Sieve_size_evict 4 ex_abc with
  | .ok c => c
  | .error _ => ex_abc

/-- A state with larger counters: tail A (`freq = 2`), B (`freq = 1`), head C
(`freq = 3`), cursor at C, window size 2. -/
def ex_counters : cache_t :=
  { q := [{ addr := 0, obj_id := 1, obj_size := 10, freq := 2 },
          { addr := 1, obj_id := 2, obj_size := 50, freq := 1 },
          { addr := 2, obj_id := 3, obj_size := 10, freq := 3 }],
    pointer := some 2,
    eviction_window_size := 2,
    obj_md_size := 0,
    hashtable := [(3, 2), (2, 1), (1, 0)],
    n_obj := 3,
    occupied_byte := 70,
    next_addr := 3 }

/-! ## The queue as a cycle -/

theorem find_addr_append (l1 l2 : List cache_obj_t) (o : cache_obj_t)
    (h : o.addr ∉ l1.map (·.addr)) :
    (l1 ++ o :: l2).find? (fun x => x.addr == o.addr) = some o := by
  induction l1 with
  | nil => simp
  | cons x xs ih =>
    simp only [List.map_cons, List.mem_cons, not_or] at h
    have hx : (x.addr == o.addr) = false := by
      simpa using fun e => h.1 e.symm
    simp [List.find?_cons, hx, ih h.2]

theorem link_after_append (l1 l2 : List cache_obj_t) (o : cache_obj_t)
    (h : o.addr ∉ l1.map (·.addr)) :
    link_after (l1 ++ o :: l2) o.addr = some (l2.head?.map (·.addr)) := by
  induction l1 with
  | nil => simp [link_after]
  | cons x xs ih =>
    simp only [List.map_cons, List.mem_cons, not_or] at h
    have hx : ¬ x.addr = o.addr := fun e => h.1 e.symm
    simp [link_after, hx, ih h.2]

theorem wf_split {c : cache_t} (hwf : wf c) {l1 l2 : List cache_obj_t} {o : cache_obj_t}
    (hq : c.q = l1 ++ o :: l2) :
    o.addr ∉ l1.map (·.addr) ∧ o.addr ∉ l2.map (·.addr) := by
  unfold wf addrs at hwf
  rw [hq, List.map_append, List.map_cons] at hwf
  have h1 := List.nodup_append.mp hwf
  have h2 := List.nodup_cons.mp h1.2.1
  refine ⟨fun hm => ?_, h2.1⟩
  exact h1.2.2 hm (List.mem_cons_self _ _)

theorem frame_refl (c : cache_t) : Frame c c := ⟨rfl, rfl⟩

theorem frame_trans {c c1 c2 : cache_t} (h1 : Frame c c1) (h2 : Frame c1 c2) : Frame c c2 := by
  refine ⟨?_, h2.2.trans h1.2⟩
  rw [h2.1]; conv_lhs => rw [h1.1]

theorem frame_addrs {c c1 : cache_t} (h : Frame c c1) : addrs c1 = addrs c := by
  have := congrArg (List.map (·.addr)) h.2
  simpa [addrs, List.map_map, Function.comp_def] using this

theorem frame_wf {c c1 : cache_t} (h : Frame c c1) (hwf : wf c) : wf c1 := by
  unfold wf; rw [frame_addrs h]; exact hwf

theorem deref_view {c : cache_t} (hwf : wf c) {o : cache_obj_t} {rest : List cache_obj_t}
    (hv : CycView c (o :: rest)) : deref c (some o.addr) = .ok o := by
  obtain ⟨l1, o1, l2, hq, hr⟩ := hv
  obtain ⟨rfl, -⟩ := List.cons.inj hr
  simp [deref, hq, find_addr_append l1 l2 o (wf_split hwf hq).1]

theorem view_ne_nil {c : cache_t} {r : List cache_obj_t} (hv : CycView c r) : r ≠ [] := by
  obtain ⟨l1, o, l2, -, rfl⟩ := hv; simp

theorem view_rotate_one {c : cache_t} {o : cache_obj_t} {rest : List cache_obj_t}
    (hv : CycView c (o :: rest)) : CycView c (rest ++ [o]) := by
  obtain ⟨l1, o1, l2, hq, hr⟩ := hv
  obtain ⟨rfl, rfl⟩ := List.cons.inj hr
  cases l2 with
  | nil =>
    cases l1 with
    | nil => exact ⟨[], o, [], hq, by simp⟩
    | cons y l1 => exact ⟨[], y, l1 ++ [o], by simp [hq], by simp⟩
  | cons x l2 => exact ⟨l1 ++ [o], x, l2, by simp [hq], by simp⟩

theorem view_rotate {c : cache_t} (a : List cache_obj_t) :
    ∀ {b : List cache_obj_t}, b ≠ [] → CycView c (a ++ b) → CycView c (b ++ a) := by
  induction a with
  | nil => intro b _ h; simpa using h
  | cons x a ih =>
    intro b _ h
    have h1 : CycView c (a ++ (b ++ [x])) := by
      have := view_rotate_one (by simpa using h : CycView c (x :: (a ++ b)))
      simpa using this
    have := ih (by simp) h1
    simpa using this

/-- Reading `queue.prev` of the first record of a view, with the wrap to the
tail, gives the first record of the view rotated by one. -/
theorem view_prev {c : cache_t} (hwf : wf c) {o : cache_obj_t} {rest : List cache_obj_t}
    (hv : CycView c (o :: rest)) :
    ∃ prev, queue_prev c (some o.addr) = .ok prev ∧
      (if prev = none then q_tail c else prev) = hd (rest ++ [o]) := by
  obtain ⟨l1, o1, l2, hq, hr⟩ := hv
  obtain ⟨rfl, rfl⟩ := List.cons.inj hr
  refine ⟨l2.head?.map (·.addr), ?_, ?_⟩
  · simp [queue_prev, hq, link_after_append l1 l2 o (wf_split hwf hq).1]
  · cases l2 with
    | nil =>
      cases l1 with
      | nil => simp [q_tail, hq, hd]
      | cons y l1 => simp [q_tail, hq, hd]
    | cons x l2 => simp [hd]

theorem view_set_freq {c : cache_t} (hwf : wf c) {o : cache_obj_t} {rest : List cache_obj_t}
    (hv : CycView c (o :: rest)) (v : Int) :
    CycView (set_freq c (some o.addr) v) ({ o with freq := v } :: rest) ∧
      Frame c (set_freq c (some o.addr) v) := by
  obtain ⟨l1, o1, l2, hq, hr⟩ := hv
  obtain ⟨rfl, rfl⟩ := List.cons.inj hr
  obtain ⟨h1, h2⟩ := wf_split hwf hq
  have hmap : ∀ l : List cache_obj_t, o.addr ∉ l.map (·.addr) →
      l.map (fun x => if x.addr = o.addr then { x with freq := v } else x) = l := by
    intro l hl
    induction l with
    | nil => rfl
    | cons y l ih =>
      simp only [List.map_cons, List.mem_cons, not_or] at hl
      have hy : ¬ y.addr = o.addr := fun e => hl.1 e.symm
      simp only [List.map_cons, hy, if_false, ih hl.2]
  refine ⟨⟨l1, _, l2, ?_, rfl⟩, rfl, ?_⟩
  · simp only [set_freq, hq, List.map_append, List.map_cons, if_true, hmap l1 h1, hmap l2 h2]
  · simp only [set_freq, List.map_map]
    apply List.map_congr_left
    intro x _
    by_cases hx : x.addr = o.addr <;> simp [hx]
/-! ## The aging loop -/

@[simp] theorem aged_zero (o : cache_obj_t) : aged 0 o = o := by
  simp [aged]

@[simp] theorem map_aged_zero (l : List cache_obj_t) : l.map (aged 0) = l := by
  induction l with
  | nil => rfl
  | cons x l ih => simp [ih]

@[simp] theorem aged_aged (j k : Nat) (o : cache_obj_t) : aged j (aged k o) = aged (j + k) o := by
  simp only [aged, Nat.cast_add]
  congr 1; omega

@[simp] theorem aged_addr (k : Nat) (o : cache_obj_t) : (aged k o).addr = o.addr := rfl
@[simp] theorem aged_size (k : Nat) (o : cache_obj_t) : (aged k o).obj_size = o.obj_size := rfl
@[simp] theorem aged_id (k : Nat) (o : cache_obj_t) : (aged k o).obj_id = o.obj_id := rfl
@[simp] theorem aged_freq (k : Nat) (o : cache_obj_t) : (aged k o).freq = o.freq - k := rfl

theorem aging_stop {c : cache_t} (hwf : wf c) {o : cache_obj_t} {rest : List cache_obj_t}
    (hv : CycView c (o :: rest)) (h0 : o.freq ≤ 0) (fuel : Nat) :
    aging_loop (fuel + 1) c (some o.addr) = .ok (c, some o.addr) := by
  have : ¬ o.freq > 0 := by omega
  simp [aging_loop, deref_view hwf hv, this]

theorem aging_step {c : cache_t} (hwf : wf c) {o : cache_obj_t} {rest : List cache_obj_t}
    (hv : CycView c (o :: rest)) (hpos : 0 < o.freq) (fuel : Nat) :
    ∃ c1, aging_loop (fuel + 1) c (some o.addr)
        = aging_loop fuel c1 (hd (rest ++ [aged 1 o])) ∧
      CycView c1 (rest ++ [aged 1 o]) ∧ Frame c c1 := by
  obtain ⟨hv1, hf1⟩ := view_set_freq hwf hv (o.freq - 1)
  have hwf1 := frame_wf hf1 hwf
  obtain ⟨prev, hp, hn⟩ := view_prev hwf1 hv1
  refine ⟨set_freq c (some o.addr) (o.freq - 1), ?_, ?_, hf1⟩
  · have hp1 : queue_prev (set_freq c (some o.addr) (o.freq - 1)) (some o.addr) = .ok prev := hp
    have : aged 1 o = { o with freq := o.freq - 1 } := by simp [aged]
    rw [this, ← hn]
    simp only [aging_loop, deref_view hwf hv, gt_iff_lt, hpos, if_true, hp1]
  · have : aged 1 o = { o with freq := o.freq - 1 } := by simp [aged]
    rw [this]
    exact view_rotate_one hv1

theorem aging_seg (a : List cache_obj_t) :
    ∀ {c : cache_t} {b : List cache_obj_t} (fuel : Nat), wf c → CycView c (a ++ b) →
      (∀ x ∈ a, 0 < x.freq) →
      ∃ c1, aging_loop (fuel + a.length) c (hd (a ++ b))
          = aging_loop fuel c1 (hd (b ++ a.map (aged 1))) ∧
        CycView c1 (b ++ a.map (aged 1)) ∧ Frame c c1 := by
  induction a with
  | nil =>
    intro c b fuel _ hv _
    exact ⟨c, by simp, by simpa using hv, frame_refl c⟩
  | cons x a ih =>
    intro c b fuel hwf hv hpos
    have hv0 : CycView c (x :: (a ++ b)) := by simpa using hv
    obtain ⟨c1, e1, hv1, hf1⟩ :=
      aging_step hwf hv0 (hpos x (List.mem_cons_self _ _)) (fuel + a.length)
    have hv1b : CycView c1 (a ++ (b ++ [aged 1 x])) := by simpa using hv1
    obtain ⟨c2, e2, hv2, hf2⟩ := ih fuel (frame_wf hf1 hwf) hv1b
      (fun y hy => hpos y (List.mem_cons_of_mem _ hy))
    refine ⟨c2, ?_, by simpa using hv2, frame_trans hf1 hf2⟩
    have hl : fuel + (x :: a).length = (fuel + a.length) + 1 := by simp; omega
    rw [hl]
    have : hd (x :: a ++ b) = some x.addr := by simp [hd]
    rw [this, e1]
    have h3 : hd (a ++ b ++ [aged 1 x]) = hd (a ++ (b ++ [aged 1 x])) := by simp
    rw [h3, e2]
    simp

theorem aging_main (m : Nat) :
    ∀ {c : cache_t} {a : List cache_obj_t} {s : cache_obj_t} {b : List cache_obj_t} (k : Nat),
      wf c → CycView c (a ++ s :: b) → (∀ x ∈ a, (m : Int) < x.freq) → s.freq ≤ m →
      (m = 0 ∨ ∀ x ∈ a ++ s :: b, (m : Int) ≤ x.freq) →
      ∃ c1, aging_loop (k + (m * (a.length + 1 + b.length) + a.length + 1)) c (hd (a ++ s :: b))
          = .ok (c1, some s.addr) ∧
        CycView c1 ((s :: b).map (aged m) ++ a.map (aged (m + 1))) ∧ Frame c c1 := by
  induction m with
  | zero =>
    intro c a s b k hwf hv ha hs _
    obtain ⟨c1, e1, hv1, hf1⟩ := aging_seg a (k + 1) hwf hv
      (fun x hx => by simpa using ha x hx)
    refine ⟨c1, ?_, by simpa using hv1, hf1⟩
    have hl : k + (0 * (a.length + 1 + b.length) + a.length + 1) = (k + 1) + a.length := by omega
    rw [hl, e1]
    have hv1b : CycView c1 (s :: (b ++ a.map (aged 1))) := by simpa using hv1
    have : hd (s :: b ++ a.map (aged 1)) = some s.addr := by simp [hd]
    rw [this]
    exact aging_stop (frame_wf hf1 hwf) hv1b (by simpa using hs) k
  | succ m ih =>
    intro c a s b k hwf hv ha hs hall
    have hall : ∀ x ∈ a ++ s :: b, ((m + 1 : Nat) : Int) ≤ x.freq := by
      rcases hall with h | h
      · omega
      · exact h
    have hv0 : CycView c ((a ++ s :: b) ++ []) := by simpa using hv
    obtain ⟨c1, e1, hv1, hf1⟩ :=
      aging_seg (a ++ s :: b) (k + (m * (a.length + 1 + b.length) + a.length + 1)) hwf hv0
        (fun x hx => by have := hall x hx; push_cast at this; omega)
    have hv1b : CycView c1 (a.map (aged 1) ++ aged 1 s :: b.map (aged 1)) := by
      simpa using hv1
    obtain ⟨c2, e2, hv2, hf2⟩ := ih (a := a.map (aged 1)) (s := aged 1 s) (b := b.map (aged 1)) k
      (frame_wf hf1 hwf) hv1b
      (by
        intro x hx
        obtain ⟨y, hy, rfl⟩ := List.mem_map.mp hx
        have := ha y hy
        simp only [aged_freq]; push_cast at this ⊢; omega)
      (by simp only [aged_freq]; push_cast at hs ⊢; omega)
      (Or.inr (by
        intro x hx
        have hx2 : x ∈ (a ++ s :: b).map (aged 1) := by simpa using hx
        obtain ⟨y, hy, rfl⟩ := List.mem_map.mp hx2
        have := hall y hy
        simp only [aged_freq]; push_cast at this ⊢; omega))
    refine ⟨c2, ?_, ?_, frame_trans hf1 hf2⟩
    · have hl : k + ((m + 1) * (a.length + 1 + b.length) + a.length + 1)
          = (k + (m * (a.length + 1 + b.length) + a.length + 1)) + (a ++ s :: b).length := by
        simp only [List.length_append, List.length_cons]; ring
      rw [hl]
      have h5 : hd (a ++ s :: b) = hd ((a ++ s :: b) ++ []) := by simp
      rw [h5, e1]
      simp only [List.length_map] at e2
      have h6 : hd ([] ++ (a ++ s :: b).map (aged 1))
          = hd (a.map (aged 1) ++ aged 1 s :: b.map (aged 1)) := by simp
      rw [h6, e2]; simp
    · simpa [List.map_map, Function.comp_def] using hv2

/-! ## The window loop -/

theorem view_mem {c : cache_t} {r : List cache_obj_t} (hv : CycView c r) (x : cache_obj_t) :
    x ∈ r ↔ x ∈ c.q := by
  obtain ⟨l1, o, l2, hq, rfl⟩ := hv
  simp only [hq, List.mem_append, List.mem_cons]
  tauto

theorem view_length {c : cache_t} {r : List cache_obj_t} (hv : CycView c r) :
    r.length = c.q.length := by
  obtain ⟨l1, o, l2, hq, rfl⟩ := hv
  simp only [hq, List.length_append, List.length_cons]
  omega

theorem deref_mem {c : cache_t} (hwf : wf c) {e : cache_obj_t} (he : e ∈ c.q) :
    deref c (some e.addr) = .ok e := by
  obtain ⟨l1, l2, hq⟩ := List.append_of_mem he
  exact deref_view hwf ⟨l1, e, l2, hq, rfl⟩

theorem window_run {c : cache_t} (hwf : wf c) (n : Nat) :
    ∀ (ptr : Option Nat) {r : List cache_obj_t} {e : cache_obj_t}, CycView c r →
      (if ptr = none then q_tail c else ptr) = hd r → e ∈ c.q →
      window_loop c n ptr (some e.addr)
        = .ok (some ((cyc_take n r).foldl larger_of e).addr) := by
  induction n with
  | zero => intro ptr r e _ _ _; simp [window_loop, cyc_take]
  | succ n ih =>
    intro ptr r e hv hptr he
    cases r with
    | nil => exact absurd rfl (view_ne_nil hv)
    | cons o rest =>
      have ho : o ∈ c.q := (view_mem hv o).mp (List.mem_cons_self _ _)
      obtain ⟨prev, hp, hn⟩ := view_prev hwf hv
      have hptr2 : (if ptr = none then q_tail c else ptr) = some o.addr := by
        rw [hptr]; simp [hd]
      have hl : larger_of e o ∈ c.q := by
        unfold larger_of; split <;> assumption
      have := ih prev (view_rotate_one hv) hn hl
      simp only [window_loop, hptr2, deref_view hwf hv, deref_mem hwf he, hp, cyc_take,
        List.foldl_cons]
      rw [← this]
      congr 1
      unfold larger_of
      by_cases h : o.obj_size > e.obj_size <;> simp [h]

theorem foldl_larger_ge (l : List cache_obj_t) :
    ∀ e : cache_obj_t, e.obj_size ≤ (l.foldl larger_of e).obj_size ∧
      ∀ x ∈ l, x.obj_size ≤ (l.foldl larger_of e).obj_size := by
  induction l with
  | nil => intro e; simp
  | cons y l ih =>
    intro e
    obtain ⟨h1, h2⟩ := ih (larger_of e y)
    have h3 : e.obj_size ≤ (larger_of e y).obj_size ∧ y.obj_size ≤ (larger_of e y).obj_size := by
      unfold larger_of; split <;> constructor <;> omega
    refine ⟨by simp only [List.foldl_cons]; omega, ?_⟩
    intro x hx
    simp only [List.foldl_cons]
    rcases List.mem_cons.mp hx with rfl | hx
    · omega
    · exact h2 x hx

/-- The running maximum kept by the window loop is the first record of largest
size among the candidate followed by the scanned records. -/
theorem foldl_larger_first (l : List cache_obj_t) :
    ∀ e : cache_obj_t, ∃ pre post, e :: l = pre ++ l.foldl larger_of e :: post ∧
      ∀ x ∈ pre, x.obj_size < (l.foldl larger_of e).obj_size := by
  induction l with
  | nil => intro e; exact ⟨[], [], by simp, by simp⟩
  | cons y l ih =>
    intro e
    obtain ⟨pre, post, heq, hlt⟩ := ih (larger_of e y)
    by_cases h : y.obj_size > e.obj_size
    · have hy : larger_of e y = y := by simp [larger_of, h]
      rw [hy] at heq hlt
      refine ⟨e :: pre, post, by simp only [List.foldl_cons, hy, List.cons_append, ← heq], ?_⟩
      intro x hx
      simp only [List.foldl_cons, hy]
      rcases List.mem_cons.mp hx with rfl | hx
      · have := (foldl_larger_ge l y).1; omega
      · exact hlt x hx
    · have hy : larger_of e y = e := by simp [larger_of, h]
      rw [hy] at heq hlt
      simp only [List.foldl_cons, hy]
      cases pre with
      | nil =>
        refine ⟨[], y :: l, ?_, by simp⟩
        simp only [List.nil_append] at heq ⊢
        have := (List.cons.inj heq).1
        rw [← this]
      | cons p pre =>
        simp only [List.cons_append] at heq
        have hpe : e = p := (List.cons.inj heq).1
        have heq2 := (List.cons.inj heq).2
        refine ⟨e :: y :: pre, post, ?_, ?_⟩
        · rw [List.cons_append, List.cons_append, ← heq2]
        · intro x hx
          have hp := hlt p (List.mem_cons_self _ _)
          rw [← hpe] at hp
          rcases List.mem_cons.mp hx with hxe | hx
          · rw [hxe]; exact hp
          · rcases List.mem_cons.mp hx with hxy | hx
            · rw [hxy]; omega
            · exact hlt x (List.mem_cons_of_mem _ hx)

/-! ## Scan order, first minimum and fuel -/

theorem scan_order_view {c : cache_t} (hwf : wf c) {r : List cache_obj_t} (hv : CycView c r) :
    scan_order c (hd r) = r := by
  obtain ⟨l1, o, l2, hq, rfl⟩ := hv
  obtain ⟨h1, -⟩ := wf_split hwf hq
  have hd1 : ∀ l : List cache_obj_t, o.addr ∉ l.map (·.addr) →
      (l ++ o :: l2).dropWhile (fun x => x.addr != o.addr) = o :: l2 ∧
      (l ++ o :: l2).takeWhile (fun x => x.addr != o.addr) = l := by
    intro l hl
    induction l with
    | nil => simp [List.dropWhile, List.takeWhile]
    | cons y l ih =>
      simp only [List.map_cons, List.mem_cons, not_or] at hl
      have hy : (y.addr != o.addr) = true := by simpa using fun e => hl.1 e.symm
      simp [List.dropWhile, List.takeWhile, hy, ih hl.2]
  simp only [hd, List.cons_append, List.head?_cons, Option.map_some', scan_order, hq]
  rw [(hd1 l1 h1).1, (hd1 l1 h1).2]; simp

theorem view_of_mem {c : cache_t} {a : Nat} (ha : a ∈ addrs c) :
    ∃ r, CycView c r ∧ hd r = some a := by
  obtain ⟨o, ho, rfl⟩ := List.mem_map.mp ha
  obtain ⟨l1, l2, hq⟩ := List.append_of_mem ho
  exact ⟨o :: l2 ++ l1, ⟨l1, o, l2, hq, rfl⟩, by simp [hd]⟩

theorem view_start {c : cache_t} (hne : c.q ≠ []) (hcur : cursor_ok c) :
    ∃ r, CycView c r ∧ hd r = scan_start c := by
  unfold cursor_ok at hcur
  unfold scan_start
  cases hp : c.pointer with
  | none =>
    cases hq : c.q with
    | nil => exact absurd hq hne
    | cons o l2 =>
      exact ⟨o :: l2, ⟨[], o, l2, by simp [hq], by simp⟩, by simp [hd, q_tail, hq]⟩
  | some a =>
    rw [hp] at hcur
    simpa using view_of_mem hcur

theorem view_freq_sum {c : cache_t} {r : List cache_obj_t} (hv : CycView c r) :
    (r.map (fun o => o.freq.toNat)).sum = freq_total c := by
  obtain ⟨l1, o, l2, hq, rfl⟩ := hv
  simp only [freq_total, hq, List.map_append, List.map_cons, List.sum_append, List.sum_cons,
    List.cons_append]
  omega

theorem exists_split_first (P : cache_obj_t → Prop) [DecidablePred P] (l : List cache_obj_t) :
    (∃ x ∈ l, P x) → ∃ a s b, l = a ++ s :: b ∧ (∀ x ∈ a, ¬ P x) ∧ P s := by
  induction l with
  | nil => rintro ⟨x, hx, -⟩; cases hx
  | cons y l ih =>
    rintro ⟨x, hx, hP⟩
    by_cases hy : P y
    · exact ⟨[], y, l, rfl, by simp, hy⟩
    · rcases List.mem_cons.mp hx with rfl | hx
      · exact absurd hP hy
      · obtain ⟨a, s, b, rfl, ha, hs⟩ := ih ⟨x, hx, hP⟩
        refine ⟨y :: a, s, b, rfl, ?_, hs⟩
        intro z hz
        rcases List.mem_cons.mp hz with rfl | hz
        · exact hy
        · exact ha z hz

theorem exists_min_freq (l : List cache_obj_t) (hne : l ≠ []) :
    ∃ y ∈ l, ∀ x ∈ l, y.freq ≤ x.freq := by
  induction l with
  | nil => exact absurd rfl hne
  | cons z l ih =>
    cases l with
    | nil => exact ⟨z, by simp, by simp⟩
    | cons w l =>
      obtain ⟨y, hy, hmin⟩ := ih (by simp)
      by_cases h : z.freq ≤ y.freq
      · refine ⟨z, by simp, ?_⟩
        intro x hx
        rcases List.mem_cons.mp hx with rfl | hx
        · exact le_refl _
        · exact le_trans h (hmin x hx)
      · refine ⟨y, List.mem_cons_of_mem _ hy, ?_⟩
        intro x hx
        rcases List.mem_cons.mp hx with rfl | hx
        · omega
        · exact hmin x hx

/-- Every non-empty list of records splits at its first record of least
(non-negative part of) `freq`. -/
theorem exists_first_min (r : List cache_obj_t) (hne : r ≠ []) :
    ∃ (m : Nat) (a : List cache_obj_t) (s : cache_obj_t) (b : List cache_obj_t),
      r = a ++ s :: b ∧ (∀ x ∈ a, (m : Int) < x.freq) ∧ s.freq ≤ m ∧
      (m = 0 ∨ ∀ x ∈ r, (m : Int) ≤ x.freq) := by
  obtain ⟨y, hy, hmin⟩ := exists_min_freq r hne
  obtain ⟨a, s, b, hr, ha, hs⟩ :=
    exists_split_first (fun x => x.freq ≤ (y.freq.toNat : Int)) r
      ⟨y, hy, Int.self_le_toNat y.freq⟩
  refine ⟨y.freq.toNat, a, s, b, hr, fun x hx => by have := ha x hx; omega, hs, ?_⟩
  by_cases h0 : y.freq ≤ 0
  · left; omega
  · right
    intro x hx
    have := hmin x hx
    omega

theorem freq_sum_ge (k : Nat) (l : List cache_obj_t) (h : ∀ x ∈ l, (k : Int) ≤ x.freq) :
    k * l.length ≤ (l.map (fun o => o.freq.toNat)).sum := by
  induction l with
  | nil => simp
  | cons y l ih =>
    have h1 := h y (List.mem_cons_self _ _)
    have h2 := ih (fun x hx => h x (List.mem_cons_of_mem _ hx))
    simp only [List.length_cons, List.map_cons, List.sum_cons]
    have : k ≤ y.freq.toNat := by omega
    calc k * (l.length + 1) = k * l.length + k := by ring
      _ ≤ (l.map (fun o => o.freq.toNat)).sum + y.freq.toNat := by omega
      _ = _ := by ring

/-- The number of iterations of the aging loop is at most the sum of the `freq`
values. -/
theorem aging_iterations_le {m : Nat} {a : List cache_obj_t} {s : cache_obj_t}
    {b : List cache_obj_t} (ha : ∀ x ∈ a, (m : Int) < x.freq)
    (hall : m = 0 ∨ ∀ x ∈ a ++ s :: b, (m : Int) ≤ x.freq) :
    m * (a.length + 1 + b.length) + a.length
      ≤ ((a ++ s :: b).map (fun o => o.freq.toNat)).sum := by
  have h1 := freq_sum_ge (m + 1) a (fun x hx => by have := ha x hx; push_cast; omega)
  simp only [List.map_append, List.sum_append]
  rcases hall with h | h
  · subst h
    simp only [zero_mul, zero_add, one_mul] at h1 ⊢
    omega
  · have h2 := freq_sum_ge m (s :: b) (fun x hx => h x (List.mem_append_right _ hx))
    simp only [List.length_cons] at h2
    have e1 : m * (a.length + 1 + b.length) + a.length
        = (m + 1) * a.length + m * (b.length + 1) := by ring
    omega

/-! ## One run of the eviction -/

theorem queue_prev_mem {c : cache_t} (hwf : wf c) {p x : Nat}
    (h : queue_prev c (some p) = .ok (some x)) : x ∈ addrs c ∧ x ≠ p := by
  unfold queue_prev at h
  cases hl : link_after c.q p with
  | none => simp [hl] at h
  | some r =>
    simp only [hl, Except.ok.injEq] at h
    subst h
    have key : ∀ l : List cache_obj_t, (l.map (·.addr)).Nodup → link_after l p = some (some x) →
        x ∈ l.map (·.addr) ∧ x ≠ p := by
      intro l
      induction l with
      | nil => intro _ h; simp [link_after] at h
      | cons y l ih =>
        intro hnd h
        simp only [List.map_cons, List.nodup_cons] at hnd
        by_cases hy : y.addr = p
        · simp only [link_after, hy, if_true, Option.some.injEq] at h
          cases l with
          | nil => simp at h
          | cons z l =>
            simp only [List.head?_cons, Option.map_some', Option.some.injEq] at h
            subst h
            refine ⟨by simp, ?_⟩
            intro e
            apply hnd.1
            rw [hy, ← e]; simp
        · simp only [link_after, hy, if_false] at h
          obtain ⟨h1, h2⟩ := ih hnd.2 h
          exact ⟨List.mem_cons_of_mem _ h1, h2⟩
    exact key c.q hwf hl

theorem mem_addr_eq {c : cache_t} (hwf : wf c) {x y : cache_obj_t} (hx : x ∈ c.q) (hy : y ∈ c.q)
    (h : x.addr = y.addr) : x = y := by
  have h1 := deref_mem hwf hx
  have h2 := deref_mem hwf hy
  rw [h] at h1
  rw [h1] at h2
  exact Except.ok.inj h2

/-- One run of `Sieve_size_evict`, given the place of the first record of
least `freq` in scan order. -/
theorem evict_run {c : cache_t} (hwf : wf c) {m : Nat} {a : List cache_obj_t} {s : cache_obj_t}
    {b : List cache_obj_t} (hv : CycView c (a ++ s :: b))
    (hstart : hd (a ++ s :: b) = scan_start c)
    (ha : ∀ x ∈ a, (m : Int) < x.freq) (hs : s.freq ≤ m)
    (hall : m = 0 ∨ ∀ x ∈ a ++ s :: b, (m : Int) ≤ x.freq)
    {fuel : Nat} (hfuel : m * (a.length + 1 + b.length) + a.length + 1 ≤ fuel) :
    ∃ c1 v np,
      aging_loop fuel c (scan_start c) = .ok (c1, some s.addr) ∧
      Frame c c1 ∧
      CycView c1 ((s :: b).map (aged m) ++ a.map (aged (m + 1))) ∧
      v = (cyc_take c.eviction_window_size.toNat
            ((s :: b).map (aged m) ++ a.map (aged (m + 1)))).foldl larger_of (aged m s) ∧
      Sieve_size_evict_largest_from_window c1 (some s.addr) 0 = .ok (some v.addr, c1) ∧
      v ∈ c1.q ∧
      (if v.addr = s.addr then queue_prev c1 (some s.addr) else .ok (some s.addr)) = .ok np ∧
      Sieve_size_evict fuel c = .ok (cache_evict_base
        { c1 with pointer := np, q := c1.q.filter (fun x => x.addr != v.addr) } v) := by
  obtain ⟨k, rfl⟩ := Nat.exists_eq_add_of_le hfuel
  obtain ⟨c1, hag, hv1, hf1⟩ := aging_main m k hwf hv ha hs hall
  have hwf1 := frame_wf hf1 hwf
  have hag2 : aging_loop (m * (a.length + 1 + b.length) + a.length + 1 + k) c (scan_start c)
      = .ok (c1, some s.addr) := by
    rw [← hstart, ← hag]; congr 1; omega
  have hv1c : CycView c1 (aged m s :: (b.map (aged m) ++ a.map (aged (m + 1)))) := by
    simpa using hv1
  have hsm : aged m s ∈ c1.q := (view_mem hv1c _).mp (List.mem_cons_self _ _)
  have hW : c1.eviction_window_size = c.eviction_window_size := by rw [hf1.1]
  have hwin := window_run hwf1 c.eviction_window_size.toNat (some s.addr) hv1
    (by simp [hd]) hsm
  have hvq : (cyc_take c.eviction_window_size.toNat
      ((s :: b).map (aged m) ++ a.map (aged (m + 1)))).foldl larger_of (aged m s) ∈ c1.q := by
    have hsub : ∀ (l : List cache_obj_t) (e : cache_obj_t), e ∈ c1.q → (∀ x ∈ l, x ∈ c1.q) →
        l.foldl larger_of e ∈ c1.q := by
      intro l
      induction l with
      | nil => intro e he _; simpa using he
      | cons y l ih =>
        intro e he hl
        simp only [List.foldl_cons]
        apply ih
        · unfold larger_of; split
          · exact hl y (List.mem_cons_self _ _)
          · exact he
        · exact fun x hx => hl x (List.mem_cons_of_mem _ hx)
    apply hsub _ _ hsm
    have hct : ∀ (n : Nat) (r : List cache_obj_t), ∀ x ∈ cyc_take n r, x ∈ r := by
      intro n
      induction n with
      | zero => intro r x hx; simp [cyc_take] at hx
      | succ n ih =>
        intro r x hx
        cases r with
        | nil => simp [cyc_take] at hx
        | cons o rest =>
          simp only [cyc_take, List.mem_cons] at hx
          rcases hx with rfl | hx
          · simp
          · have := ih _ x hx
            simp only [List.mem_append, List.mem_singleton] at this
            rcases this with h | h
            · exact List.mem_cons_of_mem _ h
            · rw [h]; simp
    intro x hx
    exact (view_mem hv1 x).mp (hct _ _ x hx)
  obtain ⟨prev, hprev, -⟩ := view_prev hwf1 hv1c
  have hprev2 : queue_prev c1 (some s.addr) = .ok prev := hprev
  generalize hvdef : (cyc_take c.eviction_window_size.toNat
      ((s :: b).map (aged m) ++ a.map (aged (m + 1)))).foldl larger_of (aged m s) = v at hwin hvq
  simp only [aged_addr] at hwin
  have hwinf : Sieve_size_evict_largest_from_window c1 (some s.addr) 0
      = .ok (some v.addr, c1) := by
    simp only [Sieve_size_evict_largest_from_window, hW]
    rw [hwin]
  by_cases hvs : v.addr = s.addr
  · refine ⟨c1, v, prev, hag2, hf1, hv1, rfl, hwinf, hvq, by simp [hvs, hprev2], ?_⟩
    have hder2 : deref { c1 with pointer := prev } (some s.addr) = .ok v := by
      rw [← hvs]; exact deref_mem hwf1 hvq
    simp only [Sieve_size_evict, hag2, hwinf, hvs, if_true, hprev2, remove_obj_from_list,
      hder2]
  · refine ⟨c1, v, some s.addr, hag2, hf1, hv1, rfl, hwinf, hvq, by simp [hvs], ?_⟩
    have hne : ¬ (some v.addr = some s.addr) := by simpa using hvs
    have hder2 : deref { c1 with pointer := some s.addr } (some v.addr) = .ok v :=
      deref_mem hwf1 hvq
    simp only [Sieve_size_evict, hag2, hwinf, hne, if_false, remove_obj_from_list, hder2]

/-! ## Candidate search and threshold escalation -/

theorem skip_run {c : cache_t} (hwf : wf c) (t : Int) (l2 : List cache_obj_t) :
    ∀ (l1 : List cache_obj_t) (fuel : Nat), c.q = l1 ++ l2 → l2.length + 1 ≤ fuel →
      skip_loop c t fuel (hd l2)
        = .ok ((l2.find? (fun x => decide (x.freq ≤ t))).map (·.addr)) := by
  induction l2 with
  | nil =>
    intro l1 fuel _ hf
    obtain ⟨k, rfl⟩ := Nat.exists_eq_add_of_le hf
    simp [hd, skip_loop, Nat.add_comm]
  | cons o l2 ih =>
    intro l1 fuel hq hf
    obtain ⟨k, rfl⟩ := Nat.exists_eq_add_of_le hf
    have hv : CycView c (o :: (l2 ++ l1)) := ⟨l1, o, l2, hq, rfl⟩
    have hfu : (o :: l2).length + 1 + k = (l2.length + 1 + k) + 1 := by simp; omega
    have hp : queue_prev c (some o.addr) = .ok (hd l2) := by
      simp [queue_prev, hq, link_after_append l1 l2 o (wf_split hwf hq).1, hd]
    rw [hfu]
    have hh : hd (o :: l2) = some o.addr := by simp [hd]
    rw [hh]
    by_cases ho : o.freq > t
    · have hn : ¬ o.freq ≤ t := by omega
      simp only [skip_loop, deref_view hwf hv, ho, if_true, hp, List.find?_cons, hn,
        decide_False]
      exact ih (l1 ++ [o]) _ (by simp [hq]) (by omega)
    · have hn : o.freq ≤ t := by omega
      simp [skip_loop, deref_view hwf hv, ho, List.find?_cons, hn]

/-- The candidate search returns the first record, in cyclic scan order from
the start, whose `freq` is at most the threshold. -/
theorem to_evict_with_freq_run {c : cache_t} (hwf : wf c) {r : List cache_obj_t}
    (hv : CycView c r) (hstart : hd r = scan_start c) (t : Int) {fuel : Nat}
    (hfuel : c.q.length + 1 ≤ fuel) :
    Sieve_size_to_evict_with_freq fuel c t
      = .ok ((r.find? (fun x => decide (x.freq ≤ t))).map (·.addr), c) := by
  obtain ⟨l1, o, l2, hq, rfl⟩ := hv
  have hs : (if c.pointer = none then q_tail c else c.pointer) = hd (o :: l2) := by
    have := hstart; unfold scan_start at this; rw [← this]; simp [hd]
  have h1 := skip_run hwf t (o :: l2) l1 fuel hq (by
    have : c.q.length = l1.length + (o :: l2).length := by simp [hq]
    omega)
  have h2 := skip_run hwf t c.q [] fuel (by simp) hfuel
  have h2b : skip_loop c t fuel (q_tail c)
      = .ok ((c.q.find? (fun x => decide (x.freq ≤ t))).map (·.addr)) := h2
  unfold Sieve_size_to_evict_with_freq
  simp only [hs, h1, h2b]
  cases hf : (o :: l2).find? (fun x => decide (x.freq ≤ t)) with
  | none =>
    have e1 : (l1 ++ o :: l2).find? (fun x => decide (x.freq ≤ t))
        = l1.find? (fun x => decide (x.freq ≤ t)) := by
      rw [List.find?_append, hf]; simp
    have e2 : (o :: l2 ++ l1).find? (fun x => decide (x.freq ≤ t))
        = l1.find? (fun x => decide (x.freq ≤ t)) := by
      rw [List.find?_append, hf]; simp
    simp only [Option.map_none', if_true, hq, e1, e2]
  | some x =>
    have e2 : (o :: l2 ++ l1).find? (fun x => decide (x.freq ≤ t)) = some x := by
      rw [List.find?_append, hf]; simp
    have e3 : (o :: (l2 ++ l1)).find? (fun x => decide (x.freq ≤ t)) = some x := e2
    simp [e3]

theorem find_first {a : List cache_obj_t} {s : cache_obj_t} {b : List cache_obj_t} {t : Int}
    (ha : ∀ x ∈ a, t < x.freq) (hs : s.freq ≤ t) :
    (a ++ s :: b).find? (fun x => decide (x.freq ≤ t)) = some s := by
  induction a with
  | nil => simp [hs]
  | cons y a ih =>
    have hy : ¬ y.freq ≤ t := by have := ha y (List.mem_cons_self _ _); omega
    simp only [List.cons_append, List.find?_cons, hy, decide_False]
    exact ih (fun x hx => ha x (List.mem_cons_of_mem _ hx))

theorem find_none {r : List cache_obj_t} {t : Int} (h : ∀ x ∈ r, t < x.freq) :
    r.find? (fun x => decide (x.freq ≤ t)) = none := by
  rw [List.find?_eq_none]
  intro x hx
  have := h x hx
  simp; omega

theorem escalate_run {c : cache_t} (hwf : wf c) {m : Nat} {a : List cache_obj_t}
    {s : cache_obj_t} {b : List cache_obj_t} (hv : CycView c (a ++ s :: b))
    (hstart : hd (a ++ s :: b) = scan_start c)
    (ha : ∀ x ∈ a, (m : Int) < x.freq) (hs : s.freq ≤ m)
    (hall : ∀ x ∈ a ++ s :: b, (m : Int) ≤ x.freq)
    {inner : Nat} (hin : c.q.length + 1 ≤ inner) :
    ∀ (d t : Nat) (fuel : Nat), t + d + 1 = m → d + 2 ≤ fuel →
      escalate_loop inner fuel c t none = .ok (some s.addr, (m : Int), c) := by
  intro d
  induction d with
  | zero =>
    intro t fuel htm hf
    obtain ⟨k, rfl⟩ := Nat.exists_eq_add_of_le hf
    have e : (0 + 2 + k) = (k + 1) + 1 := by omega
    have hcall := to_evict_with_freq_run hwf hv hstart ((t : Int) + 1) hin
    have ht : ((t : Int) + 1) = (m : Int) := by omega
    rw [ht, find_first ha hs] at hcall
    rw [e]
    simp only [escalate_loop, if_true, ht, hcall, Option.map_some']
    simp
  | succ d ih =>
    intro t fuel htm hf
    obtain ⟨k, rfl⟩ := Nat.exists_eq_add_of_le hf
    have e : (d + 1 + 2 + k) = (d + 2 + k) + 1 := by omega
    have hcall := to_evict_with_freq_run hwf hv hstart ((t : Int) + 1) hin
    rw [find_none (fun x hx => by have := hall x hx; omega)] at hcall
    rw [e]
    simp only [escalate_loop, if_true, hcall, Option.map_none']
    have := ih (t + 1) (d + 2 + k) (by omega) (by omega)
    simpa using this

/-! ## Cyclic windows and one run of the peek -/

theorem cyc_take_length (n : Nat) : ∀ r : List cache_obj_t, r ≠ [] → (cyc_take n r).length = n := by
  induction n with
  | zero => intro r _; simp [cyc_take]
  | succ n ih =>
    intro r hr
    cases r with
    | nil => exact absurd rfl hr
    | cons o rest => simp [cyc_take, ih (rest ++ [o]) (by simp)]

theorem cyc_take_le (n : Nat) : ∀ r : List cache_obj_t, n ≤ r.length → cyc_take n r = r.take n := by
  induction n with
  | zero => intro r _; simp [cyc_take]
  | succ n ih =>
    intro r hr
    cases r with
    | nil => simp at hr
    | cons o rest =>
      simp only [List.length_cons] at hr
      simp only [cyc_take, List.take_succ_cons]
      rw [ih (rest ++ [o]) (by simp; omega), List.take_append_of_le_length (by omega)]

theorem cyc_take_append (a : List cache_obj_t) :
    ∀ (b : List cache_obj_t) (k : Nat),
      cyc_take (a.length + k) (a ++ b) = a ++ cyc_take k (b ++ a) := by
  induction a with
  | nil => intro b k; simp
  | cons x a ih =>
    intro b k
    have e : (x :: a).length + k = (a.length + k) + 1 := by simp; omega
    rw [e]
    show cyc_take ((a.length + k) + 1) (x :: (a ++ b)) = x :: (a ++ cyc_take k (b ++ x :: a))
    have h1 : cyc_take ((a.length + k) + 1) (x :: (a ++ b))
        = x :: cyc_take (a.length + k) ((a ++ b) ++ [x]) := rfl
    rw [h1, List.append_assoc, ih (b ++ [x]) k]
    simp

theorem cyc_take_mem (n : Nat) : ∀ (r : List cache_obj_t), ∀ x ∈ cyc_take n r, x ∈ r := by
  induction n with
  | zero => intro r x hx; simp [cyc_take] at hx
  | succ n ih =>
    intro r x hx
    cases r with
    | nil => simp [cyc_take] at hx
    | cons o rest =>
      simp only [cyc_take, List.mem_cons] at hx
      rcases hx with rfl | hx
      · simp
      · have := ih _ x hx
        simp only [List.mem_append, List.mem_singleton] at this
        rcases this with h | h
        · exact List.mem_cons_of_mem _ h
        · rw [h]; simp

theorem cyc_take_map (f : cache_obj_t → cache_obj_t) (n : Nat) :
    ∀ r : List cache_obj_t, cyc_take n (r.map f) = (cyc_take n r).map f := by
  induction n with
  | zero => intro r; simp [cyc_take]
  | succ n ih =>
    intro r
    cases r with
    | nil => simp [cyc_take]
    | cons o rest =>
      simp only [List.map_cons, cyc_take]
      rw [← ih (rest ++ [o])]; simp

theorem foldl_larger_map (f : cache_obj_t → cache_obj_t)
    (hf : ∀ x, (f x).obj_size = x.obj_size) (l : List cache_obj_t) :
    ∀ e : cache_obj_t, f (l.foldl larger_of e) = (l.map f).foldl larger_of (f e) := by
  induction l with
  | nil => intro e; rfl
  | cons y l ih =>
    intro e
    simp only [List.foldl_cons, List.map_cons]
    rw [ih]
    congr 1
    unfold larger_of
    rw [hf, hf]
    split <;> rfl

theorem foldl_larger_stable (t : List cache_obj_t) :
    ∀ e : cache_obj_t, (∀ x ∈ t, x.obj_size ≤ e.obj_size) → t.foldl larger_of e = e := by
  induction t with
  | nil => intro e _; rfl
  | cons y t ih =>
    intro e h
    have hy := h y (List.mem_cons_self _ _)
    have : larger_of e y = e := by unfold larger_of; rw [if_neg]; omega
    simp only [List.foldl_cons, this]
    exact ih e (fun x hx => h x (List.mem_cons_of_mem _ hx))

/-- One run of `Sieve_size_to_evict`, given the place of the first record of
least `freq` in scan order. -/
theorem peek_run {c : cache_t} (hwf : wf c) {m : Nat} {a : List cache_obj_t} {s : cache_obj_t}
    {b : List cache_obj_t} (hv : CycView c (a ++ s :: b))
    (hstart : hd (a ++ s :: b) = scan_start c)
    (ha : ∀ x ∈ a, (m : Int) < x.freq) (hs : s.freq ≤ m)
    (hall : m = 0 ∨ ∀ x ∈ a ++ s :: b, (m : Int) ≤ x.freq)
    {fuel : Nat} (hf1 : c.q.length + 1 ≤ fuel) (hf2 : m + 1 ≤ fuel) :
    Sieve_size_to_evict_with_freq fuel c m = .ok (some s.addr, c) ∧
    (∃ (first : Option Nat) (t : Int),
      Sieve_size_to_evict_with_freq fuel c 0 = .ok (first, c) ∧
      escalate_loop fuel fuel c 0 first = .ok (some s.addr, t, c)) ∧
    Sieve_size_to_evict fuel c = .ok (some
      ((cyc_take c.eviction_window_size.toNat (s :: b ++ a)).foldl larger_of s).addr, c) := by
  have hvr : CycView c (s :: b ++ a) := view_rotate a (by simp) hv
  have hsq : s ∈ c.q := (view_mem hvr s).mp (by simp)
  have hwin := window_run hwf c.eviction_window_size.toNat (some s.addr) hvr
    (by simp [hd]) hsq
  have hm := to_evict_with_freq_run hwf hv hstart (m : Int) hf1
  rw [find_first ha hs] at hm
  refine ⟨hm, ?_⟩
  have hesc : ∃ t, escalate_loop fuel fuel c 0
      ((((a ++ s :: b).find? (fun x => decide (x.freq ≤ (0 : Int)))).map (·.addr)))
        = .ok (some s.addr, t, c) := by
    rcases Nat.eq_zero_or_pos m with h0 | hpos
    · subst h0
      have := find_first (t := 0) (by simpa using ha) (by simpa using hs) (b := b)
      rw [this]
      obtain ⟨k, rfl⟩ := Nat.exists_eq_add_of_le hf2
      refine ⟨0, ?_⟩
      have e : 0 + 1 + k = k + 1 := by omega
      rw [e]
      simp [escalate_loop]
    · have hall2 : ∀ x ∈ a ++ s :: b, (m : Int) ≤ x.freq := by
        rcases hall with h | h
        · omega
        · exact h
      rw [find_none (fun x hx => by have := hall2 x hx; omega)]
      refine ⟨(m : Int), ?_⟩
      have := escalate_run hwf hv hstart ha hs hall2 hf1 (m - 1) 0 fuel (by omega) (by omega)
      simpa using this
  obtain ⟨t, hesc⟩ := hesc
  have h0 := to_evict_with_freq_run hwf hv hstart (0 : Int) hf1
  refine ⟨⟨_, t, h0, hesc⟩, ?_⟩
  simp only [Sieve_size_to_evict, h0, hesc, Sieve_size_evict_largest_from_window, hwin]

theorem window_pick (n : Nat) (s : cache_obj_t) (rest : List cache_obj_t) (hn : 1 ≤ n) :
    (∃ pre post, cyc_take n (s :: rest)
        = pre ++ (cyc_take n (s :: rest)).foldl larger_of s :: post ∧
      ∀ x ∈ pre, x.obj_size < ((cyc_take n (s :: rest)).foldl larger_of s).obj_size) ∧
    ∀ x ∈ cyc_take n (s :: rest),
      x.obj_size ≤ ((cyc_take n (s :: rest)).foldl larger_of s).obj_size := by
  obtain ⟨k, rfl⟩ := Nat.exists_eq_add_of_le hn
  have e : 1 + k = k + 1 := by omega
  rw [e]
  have h1 : cyc_take (k + 1) (s :: rest) = s :: cyc_take k (rest ++ [s]) := rfl
  have h2 : larger_of s s = s := by simp [larger_of]
  rw [h1]
  simp only [List.foldl_cons, h2]
  refine ⟨foldl_larger_first _ s, ?_⟩
  intro x hx
  rcases List.mem_cons.mp hx with rfl | hx
  · exact (foldl_larger_ge _ _).1
  · exact (foldl_larger_ge _ _).2 x hx

theorem fuel_enough {c : cache_t} {m : Nat} {a : List cache_obj_t} {s : cache_obj_t}
    {b : List cache_obj_t} (hv : CycView c (a ++ s :: b))
    (ha : ∀ x ∈ a, (m : Int) < x.freq)
    (hall : m = 0 ∨ ∀ x ∈ a ++ s :: b, (m : Int) ≤ x.freq) :
    m * (a.length + 1 + b.length) + a.length + 1 ≤ enough_fuel c ∧
    c.q.length + 1 ≤ enough_fuel c ∧ m + 1 ≤ enough_fuel c := by
  have h1 := aging_iterations_le (s := s) (b := b) ha hall
  rw [view_freq_sum hv] at h1
  have h2 := view_length hv
  simp only [List.length_append, List.length_cons] at h2
  unfold enough_fuel
  refine ⟨by omega, by omega, ?_⟩
  have : m ≤ m * (a.length + 1 + b.length) := Nat.le_mul_of_pos_right _ (by omega)
  omega

/-- C1: with a non-empty queue, a cursor that is absent or queued and a window
size `W >= 1`, `Sieve_size_evict` removes the record chosen by scanning exactly
`W` positions from the record `stop` at which the aging loop ended, towards the
head and wrapping to the tail: the removed record is the first one of largest
size among the scanned ones.  When every record is unvisited the scan starts at
the cursor (at the tail when the cursor is absent), and with at least `W`
records of pairwise distinct sizes the removed record is the strictly largest
of the first `W` records in scan order. -/
theorem evict_removes_window_largest (c : cache_t) (fuel : Nat)
    (hwf : wf c) (hne : c.q ≠ []) (hcur : cursor_ok c) (hW : 1 ≤ c.eviction_window_size)
    (hfuel : enough_fuel c ≤ fuel) :
    ∃ (c1 : cache_t) (stop v : cache_obj_t) (c2 : cache_t),
      aging_loop fuel c (scan_start c) = .ok (c1, some stop.addr) ∧ Frame c c1 ∧
      stop ∈ c1.q ∧ v ∈ c1.q ∧
      Sieve_size_evict_largest_from_window c1 (some stop.addr) 0 = .ok (some v.addr, c1) ∧
      Sieve_size_evict fuel c = .ok c2 ∧
      c2.q = c1.q.filter (fun x => x.addr != v.addr) ∧
      (window_records c1 (some stop.addr) c.eviction_window_size.toNat).length
        = c.eviction_window_size.toNat ∧
      (∃ pre post,
        window_records c1 (some stop.addr) c.eviction_window_size.toNat = pre ++ v :: post ∧
        ∀ x ∈ pre, x.obj_size < v.obj_size) ∧
      (∀ x ∈ window_records c1 (some stop.addr) c.eviction_window_size.toNat,
        x.obj_size ≤ v.obj_size) ∧
      ((∀ o ∈ c.q, o.freq = 0) →
        c1 = c ∧ some stop.addr = scan_start c ∧
        (c.eviction_window_size.toNat ≤ c.q.length → (c.q.map (·.obj_size)).Nodup →
          v ∈ (scan_order c (scan_start c)).take c.eviction_window_size.toNat ∧
          ∀ x ∈ (scan_order c (scan_start c)).take c.eviction_window_size.toNat,
            x ≠ v → x.obj_size < v.obj_size)) := by
  obtain ⟨r, hv, hstart⟩ := view_start hne hcur
  obtain ⟨m, a, s, b, rfl, ha, hs, hall⟩ := exists_first_min r (view_ne_nil hv)
  obtain ⟨hf1, -, -⟩ := fuel_enough hv ha hall
  obtain ⟨c1, v, np, hag, hfr, hv1, hvdef, hwin, hvq, -, hev⟩ :=
    evict_run hwf hv hstart ha hs hall (le_trans hf1 hfuel)
  have hwf1 := frame_wf hfr hwf
  have hv1c : CycView c1 (aged m s :: (b.map (aged m) ++ a.map (aged (m + 1)))) := by
    simpa using hv1
  have hso : scan_order c1 (some s.addr)
      = aged m s :: (b.map (aged m) ++ a.map (aged (m + 1))) := by
    have := scan_order_view hwf1 hv1c
    simpa [hd] using this
  have hWn : 1 ≤ c.eviction_window_size.toNat := by omega
  have hvdef2 : v = (cyc_take c.eviction_window_size.toNat
      (aged m s :: (b.map (aged m) ++ a.map (aged (m + 1))))).foldl larger_of (aged m s) := by
    rw [hvdef]; simp
  obtain ⟨hfirst, hge⟩ := window_pick c.eviction_window_size.toNat (aged m s)
    (b.map (aged m) ++ a.map (aged (m + 1))) hWn
  rw [← hvdef2] at hfirst hge
  have hwr : window_records c1 (some (aged m s).addr) c.eviction_window_size.toNat
      = cyc_take c.eviction_window_size.toNat
        (aged m s :: (b.map (aged m) ++ a.map (aged (m + 1)))) := by
    simp only [window_records, aged_addr, hso]
  refine ⟨c1, aged m s, v, _, hag, hfr, (view_mem hv1c _).mp (List.mem_cons_self _ _), hvq,
    hwin, hev, rfl, ?_, ?_, ?_, ?_⟩
  · rw [hwr]; exact cyc_take_length _ _ (by simp)
  · rw [hwr]; exact hfirst
  · rw [hwr]; exact hge
  · intro hunv
    have ha0 : a = [] := by
      cases a with
      | nil => rfl
      | cons x a =>
        have h1 := ha x (List.mem_cons_self _ _)
        have h2 := hunv x ((view_mem hv x).mp (by simp))
        omega
    subst ha0
    have hm0 : aged m s = s ∧ b.map (aged m) = b := by
      have hs0 := hunv s ((view_mem hv s).mp (by simp))
      have : m = 0 := by
        rcases hall with h | h
        · exact h
        · have := h s (by simp); omega
      subst this
      simp
    have hst : some s.addr = scan_start c := by rw [← hstart]; simp [hd]
    have hc1 : c1 = c := by
      have hs0 := hunv s ((view_mem hv s).mp (by simp))
      obtain ⟨k, hk⟩ := Nat.exists_eq_add_of_le (le_trans hf1 hfuel)
      have hstop := aging_stop hwf (by simpa using hv : CycView c (s :: b)) (by omega)
        (k + m * (0 + 1 + b.length) + 0)
      have hk2 : fuel = (k + m * (0 + 1 + b.length) + 0) + 1 := by
        simp only [List.length_nil] at hk; omega
      rw [← hst, hk2, hstop] at hag
      have := Except.ok.inj hag
      exact (Prod.mk.inj this).1.symm
    refine ⟨hc1, hst, ?_⟩
    intro hlen hnd
    subst hc1
    have hle : c1.eviction_window_size.toNat ≤ (s :: b).length := by
      have := view_length hv; simp only [List.nil_append] at this; omega
    have hwt : cyc_take c1.eviction_window_size.toNat (aged m s :: (b.map (aged m) ++ []))
        = (scan_order c1 (scan_start c1)).take c1.eviction_window_size.toNat := by
      rw [hm0.1, hm0.2, ← hst]
      have := scan_order_view hwf (by simpa using hv : CycView c1 (s :: b))
      simp only [hd, List.head?_cons, Option.map_some'] at this
      rw [this, List.append_nil]
      exact cyc_take_le _ _ hle
    simp only [List.map_nil] at hfirst hge
    rw [hwt] at hfirst hge
    obtain ⟨pre, post, hpp, -⟩ := hfirst
    have hvmem : v ∈ (scan_order c1 (scan_start c1)).take c1.eviction_window_size.toNat := by
      rw [hpp]; simp
    refine ⟨hvmem, ?_⟩
    intro x hx hxv
    have hxq : x ∈ c1.q := by
      have h1 := List.mem_of_mem_take hx
      rw [← hst] at h1
      have h2 := scan_order_view hwf (by simpa using hv : CycView c1 (s :: b))
      simp only [hd, List.head?_cons, Option.map_some'] at h2
      rw [h2] at h1
      exact (view_mem (by simpa using hv : CycView c1 (s :: b)) x).mp h1
    have hle2 := hge x hx
    have hne2 : x.obj_size ≠ v.obj_size := by
      intro e
      exact hxv (List.inj_on_of_nodup_map hnd hxq hvq e)
    omega


theorem evict_removes_window_largest_witness :
    (wf ex_abc ∧ ex_abc.q ≠ [] ∧ cursor_ok ex_abc ∧ 1 ≤ ex_abc.eviction_window_size ∧
      enough_fuel ex_abc ≤ 4) ∧
    (∃ (c1 : cache_t) (stop v : cache_obj_t) (c2 : cache_t),
      aging_loop 4 ex_abc (scan_start ex_abc) = .ok (c1, some stop.addr) ∧ Frame ex_abc c1 ∧
      stop ∈ c1.q ∧ v ∈ c1.q ∧
      Sieve_size_evict_largest_from_window c1 (some stop.addr) 0 = .ok (some v.addr, c1) ∧
      Sieve_size_evict 4 ex_abc = .ok c2 ∧
      c2.q = c1.q.filter (fun x => x.addr != v.addr) ∧
      (window_records c1 (some stop.addr) ex_abc.eviction_window_size.toNat).length
        = ex_abc.eviction_window_size.toNat ∧
      (∃ pre post,
        window_records c1 (some stop.addr) ex_abc.eviction_window_size.toNat
          = pre ++ v :: post ∧
        ∀ x ∈ pre, x.obj_size < v.obj_size) ∧
      (∀ x ∈ window_records c1 (some stop.addr) ex_abc.eviction_window_size.toNat,
        x.obj_size ≤ v.obj_size) ∧
      ((∀ o ∈ ex_abc.q, o.freq = 0) →
        c1 = ex_abc ∧ some stop.addr = scan_start ex_abc ∧
        (ex_abc.eviction_window_size.toNat ≤ ex_abc.q.length →
          (ex_abc.q.map (·.obj_size)).Nodup →
          v ∈ (scan_order ex_abc (scan_start ex_abc)).take ex_abc.eviction_window_size.toNat ∧
          ∀ x ∈ (scan_order ex_abc (scan_start ex_abc)).take
              ex_abc.eviction_window_size.toNat,
            x ≠ v → x.obj_size < v.obj_size))) ∧
    (Sieve_size_evict 4 ex_abc).toOption.map (fun c => c.q.map (·.obj_id)) = some [1, 3] :=
  ⟨⟨by decide, by decide, by decide, by decide, by decide⟩,
    evict_removes_window_largest ex_abc 4 (by decide) (by decide) (by decide) (by decide)
      (by decide),
    by decide⟩
theorem unvisit_pick (W m : Nat) (s : cache_obj_t) (a b : List cache_obj_t) :
    ((cyc_take W ((s :: b).map (aged m) ++ a.map (aged (m + 1)))).foldl larger_of
        (aged m s)).addr
      = ((cyc_take W (s :: b ++ a)).foldl larger_of s).addr ∧
    ((cyc_take W ((s :: b).map (aged m) ++ a.map (aged (m + 1)))).foldl larger_of
        (aged m s)).obj_size
      = ((cyc_take W (s :: b ++ a)).foldl larger_of s).obj_size := by
  have hf : ∀ x : cache_obj_t, ({ x with freq := 0 } : cache_obj_t).obj_size = x.obj_size :=
    fun _ => rfl
  have h1 := foldl_larger_map (fun o => { o with freq := 0 }) hf
    (cyc_take W ((s :: b).map (aged m) ++ a.map (aged (m + 1)))) (aged m s)
  have h2 := foldl_larger_map (fun o => { o with freq := 0 }) hf
    (cyc_take W (s :: b ++ a)) s
  rw [← cyc_take_map] at h1 h2
  have e1 : ((s :: b).map (aged m) ++ a.map (aged (m + 1))).map
      (fun o => ({ o with freq := 0 } : cache_obj_t))
      = (s :: b ++ a).map (fun o => ({ o with freq := 0 } : cache_obj_t)) := by
    simp [List.map_map, Function.comp_def, aged]
  have e2 : ({ aged m s with freq := 0 } : cache_obj_t) = { s with freq := 0 } := by
    simp [aged]
  rw [e1] at h1
  simp only [e2] at h1
  have h3 := h1.trans h2.symm
  simp only [cache_obj_t.mk.injEq] at h3
  exact ⟨h3.1, h3.2.2.1⟩

/-- C2: with a non-empty queue and a cursor that is absent or queued,
`Sieve_size_to_evict` (peek_victim) returns a queued record and leaves the
cache as it is, and the record it returns is the one that `Sieve_size_evict`,
called on the same cache, takes out of the queue.  This holds whatever the
`freq` values are, so in particular when they are all non-negative. -/
theorem to_evict_is_evicted (c : cache_t) (fuel : Nat)
    (hwf : wf c) (hne : c.q ≠ []) (hcur : cursor_ok c) (hfuel : enough_fuel c ≤ fuel) :
    ∃ (v : Nat) (c2 : cache_t),
      Sieve_size_to_evict fuel c = .ok (some v, c) ∧ v ∈ addrs c ∧
      Sieve_size_evict fuel c = .ok c2 ∧
      addrs c2 = (addrs c).filter (fun x => x != v) ∧ v ∉ addrs c2 := by
  obtain ⟨r, hv, hstart⟩ := view_start hne hcur
  obtain ⟨m, a, s, b, rfl, ha, hs, hall⟩ := exists_first_min r (view_ne_nil hv)
  obtain ⟨hf1, hf2, hf3⟩ := fuel_enough hv ha hall
  obtain ⟨c1, v, np, -, hfr, -, hvdef, -, hvq, -, hev⟩ :=
    evict_run hwf hv hstart ha hs hall (le_trans hf1 hfuel)
  obtain ⟨-, -, hpeek⟩ := peek_run hwf hv hstart ha hs hall (le_trans hf2 hfuel)
    (le_trans hf3 hfuel)
  have haddr := (unvisit_pick c.eviction_window_size.toNat m s a b).1
  rw [← hvdef] at haddr
  rw [← haddr] at hpeek
  have hq2 : addrs (cache_evict_base
      { c1 with pointer := np, q := c1.q.filter (fun x => x.addr != v.addr) } v)
      = (addrs c).filter (fun x => x != v.addr) := by
    rw [← frame_addrs hfr]
    simp only [addrs, cache_evict_base, List.filter_map]
    rfl
  refine ⟨v.addr, _, hpeek, ?_, hev, hq2, ?_⟩
  · rw [← frame_addrs hfr]; exact List.mem_map_of_mem _ hvq
  · rw [hq2]; simp


theorem to_evict_is_evicted_witness :
    (wf ex_abc_visited ∧ ex_abc_visited.q ≠ [] ∧ cursor_ok ex_abc_visited ∧
      enough_fuel ex_abc_visited ≤ 7) ∧
    (∃ (v : Nat) (c2 : cache_t),
      Sieve_size_to_evict 7 ex_abc_visited = .ok (some v, ex_abc_visited) ∧
      v ∈ addrs ex_abc_visited ∧
      Sieve_size_evict 7 ex_abc_visited = .ok c2 ∧
      addrs c2 = (addrs ex_abc_visited).filter (fun x => x != v) ∧ v ∉ addrs c2) :=
  ⟨⟨by decide, by decide, by decide, by decide⟩,
    to_evict_is_evicted ex_abc_visited 7 (by decide) (by decide) (by decide) (by decide)⟩
theorem aging_mono (fuel : Nat) :
    ∀ (c : cache_t) (p : Option Nat) (x : cache_t × Option Nat) (k : Nat),
      aging_loop fuel c p = .ok x → aging_loop (fuel + k) c p = .ok x := by
  induction fuel with
  | zero => intro c p x k h; simp [aging_loop] at h
  | succ fuel ih =>
    intro c p x k h
    have e : fuel + 1 + k = (fuel + k) + 1 := by omega
    rw [e]
    simp only [aging_loop] at h ⊢
    cases hd : deref c p with
    | error err => simp [hd] at h
    | ok o =>
      simp only [hd] at h ⊢
      by_cases hpos : o.freq > 0
      · simp only [hpos, if_true] at h ⊢
        cases hq : queue_prev (set_freq c p (o.freq - 1)) p with
        | error err => simp [hq] at h
        | ok prev =>
          simp only [hq] at h ⊢
          exact ih _ _ _ k h
      · simp only [hpos, if_false] at h ⊢
        exact h

theorem evict_mono {fuel : Nat} {c c2 : cache_t} (k : Nat)
    (h : Sieve_size_evict fuel c = .ok c2) : Sieve_size_evict (fuel + k) c = .ok c2 := by
  unfold Sieve_size_evict at h ⊢
  cases ha : aging_loop fuel c (scan_start c) with
  | error err => simp [ha] at h
  | ok x =>
    have hk := aging_mono fuel c _ x k ha
    simp only [ha] at h
    simp only [hk]
    exact h

theorem evict_ok_nonempty {fuel : Nat} {c c2 : cache_t}
    (h : Sieve_size_evict fuel c = .ok c2) : c.q ≠ [] := by
  intro hq
  have hder : ∀ p, deref c p = .error .bad_pointer := by
    intro p
    cases p with
    | none => rfl
    | some a => simp [deref, hq]
  unfold Sieve_size_evict at h
  cases fuel with
  | zero => simp [aging_loop] at h
  | succ fuel => simp [aging_loop, hder] at h

/-- Shape of the cache returned by `Sieve_size_evict`, for any fuel with which
it returns. -/
theorem evict_ok_shape {fuel : Nat} {c c2 : cache_t} (hwf : wf c) (hcur : cursor_ok c)
    (h : Sieve_size_evict fuel c = .ok c2) :
    ∃ (c1 : cache_t) (stop v : cache_obj_t) (np : Option Nat),
      Frame c c1 ∧ stop ∈ c1.q ∧ v ∈ c1.q ∧
      (if v.addr = stop.addr then queue_prev c1 (some stop.addr) else .ok (some stop.addr))
        = .ok np ∧
      c2 = cache_evict_base
        { c1 with pointer := np, q := c1.q.filter (fun x => x.addr != v.addr) } v := by
  have hne := evict_ok_nonempty h
  obtain ⟨r, hv, hstart⟩ := view_start hne hcur
  obtain ⟨m, a, s, b, rfl, ha, hs, hall⟩ := exists_first_min r (view_ne_nil hv)
  obtain ⟨hf1, -, -⟩ := fuel_enough hv ha hall
  obtain ⟨c1, v, np, -, hfr, hv1, -, -, hvq, hnp, hev⟩ :=
    evict_run hwf hv hstart ha hs hall
      (show m * (a.length + 1 + b.length) + a.length + 1 ≤ fuel + enough_fuel c by omega)
  have h2 := evict_mono (enough_fuel c) h
  rw [hev] at h2
  refine ⟨c1, aged m s, v, np, hfr, (view_mem hv1 _).mp (by simp), hvq, hnp,
    (Except.ok.inj h2).symm⟩

/-! ## Invariants -/

theorem cursor_ok_iff (c : cache_t) :
    cursor_ok c ↔ ∀ x, c.pointer = some x → x ∈ addrs c := by
  unfold cursor_ok
  cases c.pointer with
  | none => simp
  | some a => simp

theorem frame_set_freq (c : cache_t) (p : Option Nat) (v : Int) : Frame c (set_freq c p v) := by
  cases p with
  | none => exact frame_refl c
  | some a =>
    refine ⟨rfl, ?_⟩
    simp only [set_freq, List.map_map]
    apply List.map_congr_left
    intro x _
    by_cases hx : x.addr = a <;> simp [hx]

theorem frame_mem {c c1 : cache_t} (h : Frame c c1) {x : cache_obj_t} (hx : x ∈ c1.q) :
    ∃ y ∈ c.q, y.addr = x.addr ∧ y.obj_id = x.obj_id ∧ y.obj_size = x.obj_size := by
  have h1 : ({ x with freq := 0 } : cache_obj_t) ∈ c1.q.map (fun o => { o with freq := 0 }) :=
    List.mem_map_of_mem _ hx
  rw [h.2] at h1
  obtain ⟨y, hy, e⟩ := List.mem_map.mp h1
  simp only [cache_obj_t.mk.injEq] at e
  exact ⟨y, hy, e.1, e.2.1, e.2.2.1⟩

theorem frame_symm {c c1 : cache_t} (h : Frame c c1) : Frame c1 c := by
  refine ⟨?_, h.2.symm⟩
  conv_rhs => rw [h.1]

theorem frame_length {c c1 : cache_t} (h : Frame c c1) : c1.q.length = c.q.length := by
  have := congrArg List.length h.2
  simpa using this

theorem frame_sizes {c c1 : cache_t} (h : Frame c c1) :
    c1.q.map (fun o => (o.obj_size : Int)) = c.q.map (fun o => (o.obj_size : Int)) := by
  have := congrArg (List.map (fun o : cache_obj_t => (o.obj_size : Int))) h.2
  simpa [List.map_map, Function.comp_def] using this

theorem frame_queue_inv {c c1 : cache_t} (h : Frame c c1) (hi : queue_inv c) : queue_inv c1 := by
  obtain ⟨h1, h2, h3⟩ := hi
  have hp : c1.pointer = c.pointer := by rw [h.1]
  have hn : c1.next_addr = c.next_addr := by rw [h.1]
  refine ⟨frame_wf h h1, ?_, ?_⟩
  · unfold cursor_ok at h2 ⊢
    rw [hp, frame_addrs h]; exact h2
  · rw [frame_addrs h, hn]; exact h3

theorem frame_index_ok {c c1 : cache_t} (h : Frame c c1) (hi : index_ok c) : index_ok c1 := by
  have hh : c1.hashtable = c.hashtable := by rw [h.1]
  constructor
  · intro o ho
    obtain ⟨y, hy, e1, e2, -⟩ := frame_mem h ho
    rw [hh, ← e1, ← e2]; exact hi.1 y hy
  · intro e he
    rw [hh] at he
    obtain ⟨o, ho, rfl⟩ := hi.2 e he
    obtain ⟨y, hy, e1, e2, -⟩ := frame_mem (frame_symm h) ho
    exact ⟨y, hy, by rw [e1, e2]⟩

theorem frame_totals_ok {c c1 : cache_t} (h : Frame c c1) (hi : totals_ok c) : totals_ok c1 := by
  have h1 : c1.n_obj = c.n_obj := by rw [h.1]
  have h2 : c1.occupied_byte = c.occupied_byte := by rw [h.1]
  unfold totals_ok at hi ⊢
  rw [h1, h2, frame_length h, frame_sizes h]; exact hi

theorem filter_remove {c : cache_t} (hwf : wf c) {l1 l2 : List cache_obj_t} {v : cache_obj_t}
    (hq : c.q = l1 ++ v :: l2) : c.q.filter (fun x => x.addr != v.addr) = l1 ++ l2 := by
  obtain ⟨h1, h2⟩ := wf_split hwf hq
  have hk : ∀ l : List cache_obj_t, v.addr ∉ l.map (·.addr) →
      l.filter (fun x => x.addr != v.addr) = l := by
    intro l hl
    rw [List.filter_eq_self]
    intro x hx
    have : x.addr ≠ v.addr := fun e => hl (e ▸ List.mem_map_of_mem _ hx)
    simpa using this
  rw [hq, List.filter_append, List.filter_cons, hk l1 h1, hk l2 h2]
  simp

/-- Unlinking a queued record and taking it out of the index and of the totals
keeps the invariants, provided the new cursor is absent or another queued
record. -/
theorem removal_inv {c : cache_t} {v : cache_obj_t} {np : Option Nat}
    (hi : queue_inv c) (hv : v ∈ c.q)
    (hnp : ∀ x, np = some x → x ∈ addrs c ∧ x ≠ v.addr) :
    queue_inv (cache_evict_base
      { c with pointer := np, q := c.q.filter (fun x => x.addr != v.addr) } v) ∧
    (index_ok c → index_ok (cache_evict_base
      { c with pointer := np, q := c.q.filter (fun x => x.addr != v.addr) } v)) ∧
    (totals_ok c → totals_ok (cache_evict_base
      { c with pointer := np, q := c.q.filter (fun x => x.addr != v.addr) } v)) ∧
    (cache_evict_base
      { c with pointer := np, q := c.q.filter (fun x => x.addr != v.addr) } v).q.length + 1
      = c.q.length ∧
    v.addr ∉ addrs (cache_evict_base
      { c with pointer := np, q := c.q.filter (fun x => x.addr != v.addr) } v) := by
  obtain ⟨h1, h2, h3⟩ := hi
  obtain ⟨l1, l2, hq⟩ := List.append_of_mem hv
  have hfil := filter_remove h1 hq
  have haddrs : addrs (cache_evict_base
      { c with pointer := np, q := c.q.filter (fun x => x.addr != v.addr) } v)
      = (addrs c).filter (fun x => x != v.addr) := by
    simp only [addrs, cache_evict_base, List.filter_map]; rfl
  refine ⟨⟨?_, ?_, ?_⟩, ?_, ?_, ?_, ?_⟩
  · unfold wf; rw [haddrs]; exact List.Nodup.filter _ h1
  · rw [cursor_ok_iff]
    intro x hx
    obtain ⟨hx1, hx2⟩ := hnp x hx
    rw [haddrs]
    simp [List.mem_filter, hx1, hx2]
  · intro a ha
    rw [haddrs] at ha
    exact h3 a (List.mem_of_mem_filter ha)
  · intro hidx
    constructor
    · intro o ho
      have ho2 : o ∈ c.q.filter (fun x => x.addr != v.addr) := ho
      rw [List.mem_filter] at ho2
      show (o.obj_id, o.addr) ∈ c.hashtable.filter (fun e => e.2 != v.addr)
      rw [List.mem_filter]
      exact ⟨hidx.1 o ho2.1, ho2.2⟩
    · intro e he
      have he2 : e ∈ c.hashtable.filter (fun e => e.2 != v.addr) := he
      rw [List.mem_filter] at he2
      obtain ⟨o, ho, rfl⟩ := hidx.2 e he2.1
      refine ⟨o, ?_, rfl⟩
      show o ∈ c.q.filter (fun x => x.addr != v.addr)
      rw [List.mem_filter]
      exact ⟨ho, he2.2⟩
  · intro htot
    unfold totals_ok at htot ⊢
    show c.n_obj - 1 = ((c.q.filter (fun x => x.addr != v.addr)).length : Int) ∧
      c.occupied_byte - (v.obj_size : Int)
        = ((c.q.filter (fun x => x.addr != v.addr)).map (fun o => (o.obj_size : Int))).sum
    rw [hfil, htot.1, htot.2, hq]
    simp only [List.length_append, List.length_cons, List.map_append, List.map_cons,
      List.sum_append, List.sum_cons]
    constructor
    · push_cast; ring
    · ring
  · show (c.q.filter (fun x => x.addr != v.addr)).length + 1 = c.q.length
    rw [hfil, hq]; simp; omega
  · rw [haddrs]; simp

theorem evict_np_ok {c1 : cache_t} (hwf : wf c1) {stop v : cache_obj_t} {np : Option Nat}
    (hs : stop ∈ c1.q)
    (h : (if v.addr = stop.addr then queue_prev c1 (some stop.addr) else .ok (some stop.addr))
      = .ok np) :
    ∀ x, np = some x → x ∈ addrs c1 ∧ x ≠ v.addr := by
  intro x hx
  subst hx
  by_cases hvs : v.addr = stop.addr
  · simp only [hvs, if_true] at h
    rw [hvs]
    exact queue_prev_mem hwf h
  · simp only [hvs, if_false, Except.ok.injEq, Option.some.injEq] at h
    subst h
    exact ⟨List.mem_map_of_mem _ hs, fun e => hvs e.symm⟩

theorem insert_inv (c : cache_t) (req : request_t) (f : Int) (hi : queue_inv c) :
    queue_inv (Sieve_size_insert c req f).2 ∧
    (index_ok c → index_ok (Sieve_size_insert c req f).2) ∧
    (totals_ok c → totals_ok (Sieve_size_insert c req f).2) := by
  obtain ⟨h1, h2, h3⟩ := hi
  have hfr : Frame (prepend_obj_to_head (cache_insert_base c req f).2 (cache_insert_base c req f).1)
      (Sieve_size_insert c req f).2 :=
    frame_set_freq _ (some c.next_addr) 0
  have hq : (prepend_obj_to_head (cache_insert_base c req f).2 (cache_insert_base c req f).1).q
      = c.q ++ [{ addr := c.next_addr, obj_id := req.obj_id, obj_size := req.obj_size,
                  freq := f }] := rfl
  have hadd : addrs (prepend_obj_to_head (cache_insert_base c req f).2 (cache_insert_base c req f).1)
      = addrs c ++ [c.next_addr] := by
    simp [addrs, hq]
  refine ⟨frame_queue_inv hfr ⟨?_, ?_, ?_⟩, fun hidx => frame_index_ok hfr ⟨?_, ?_⟩,
    fun htot => frame_totals_ok hfr ?_⟩
  · unfold wf
    rw [hadd]
    refine List.Nodup.append h1 (List.nodup_singleton _) ?_
    intro a ha1 ha2
    simp only [List.mem_singleton] at ha2
    subst ha2
    exact absurd (h3 _ ha1) (lt_irrefl _)
  · rw [cursor_ok_iff] at h2 ⊢
    intro x hx
    rw [hadd]
    exact List.mem_append_left _ (h2 x hx)
  · intro a ha
    rw [hadd] at ha
    show a < c.next_addr + 1
    rcases List.mem_append.mp ha with h | h
    · exact Nat.lt_succ_of_lt (h3 a h)
    · simp only [List.mem_singleton] at h; omega
  · intro o ho
    rw [hq] at ho
    show (o.obj_id, o.addr) ∈ (req.obj_id, c.next_addr) :: c.hashtable
    rcases List.mem_append.mp ho with h | h
    · exact List.mem_cons_of_mem _ (hidx.1 o h)
    · simp only [List.mem_singleton] at h; subst h; simp
  · intro e he
    have he2 : e ∈ (req.obj_id, c.next_addr) :: c.hashtable := he
    rw [hq]
    rcases List.mem_cons.mp he2 with h | h
    · exact ⟨_, List.mem_append_right _ (List.mem_singleton_self _), h⟩
    · obtain ⟨o, ho, e1⟩ := hidx.2 e h
      exact ⟨o, List.mem_append_left _ ho, e1⟩
  · unfold totals_ok at htot ⊢
    rw [hq]
    show c.n_obj + 1 = _ ∧ c.occupied_byte + (req.obj_size : Int) = _
    rw [htot.1, htot.2]
    simp only [List.length_append, List.length_singleton, List.map_append, List.map_cons,
      List.map_nil, List.sum_append, List.sum_cons, List.sum_nil]
    constructor
    · push_cast; ring
    · ring

theorem find_inv (c : cache_t) (req : request_t) (u : Bool) :
    Frame c (Sieve_size_find c req u).2 := by
  unfold Sieve_size_find cache_find_base
  simp only
  split
  · exact frame_set_freq _ _ _
  · exact frame_refl c

/-- Shape of the result of `Sieve_size_remove_obj`, whenever it returns. -/
theorem remove_obj_ok_shape {c c1 : cache_t} {a : Nat} (hwf : wf c) (hcur : cursor_ok c)
    (h : Sieve_size_remove_obj c (some a) = .ok c1) :
    ∃ (v : cache_obj_t) (np : Option Nat),
      v ∈ c.q ∧ v.addr = a ∧ (∀ x, np = some x → x ∈ addrs c ∧ x ≠ v.addr) ∧
      (if some a = c.pointer then queue_prev c (some a) else .ok c.pointer) = .ok np ∧
      c1 = cache_evict_base
        { c with pointer := np, q := c.q.filter (fun x => x.addr != v.addr) } v := by
  unfold Sieve_size_remove_obj at h
  simp only at h
  cases hnp : (if some a = c.pointer then queue_prev c (some a) else .ok c.pointer) with
  | error e => simp [hnp] at h
  | ok np =>
    simp only [hnp] at h
    cases hd : deref { c with pointer := np } (some a) with
    | error e => simp [hd] at h
    | ok v =>
      have hd2 : deref c (some a) = .ok v := hd
      have hvq : v ∈ c.q ∧ v.addr = a := by
        unfold deref at hd2
        cases hf : c.q.find? (fun o => o.addr == a) with
        | none => simp [hf] at hd2
        | some o =>
          simp only [hf, Except.ok.injEq] at hd2
          subst hd2
          have := List.find?_some hf
          exact ⟨List.mem_of_find?_eq_some hf, by simpa using this⟩
      simp only [hd, remove_obj_from_list, Except.ok.injEq] at h
      refine ⟨v, np, hvq.1, hvq.2, ?_, rfl, h.symm⟩
      intro x hx
      subst hx
      by_cases hp : some a = c.pointer
      · simp only [hp, if_true] at hnp
        rw [← hp] at hnp
        rw [hvq.2]
        exact queue_prev_mem hwf hnp
      · simp only [hp, if_false, Except.ok.injEq] at hnp
        rw [cursor_ok_iff] at hcur
        refine ⟨hcur x hnp, ?_⟩
        rw [hvq.2]
        intro e
        exact hp (by rw [hnp, e])

/-- Every call that returns keeps the invariants I1, I2, I3. -/
theorem apply_op_inv {fuel : Nat} {c c1 : cache_t} {op : Op}
    (h : apply_op fuel c op = .ok c1)
    (hi : queue_inv c ∧ index_ok c ∧ totals_ok c) :
    queue_inv c1 ∧ index_ok c1 ∧ totals_ok c1 := by
  obtain ⟨hq, hidx, htot⟩ := hi
  cases op with
  | insert req f =>
    simp only [apply_op, Except.ok.injEq] at h
    subst h
    obtain ⟨h1, h2, h3⟩ := insert_inv c req f hq
    exact ⟨h1, h2 hidx, h3 htot⟩
  | lookup req u =>
    simp only [apply_op, Except.ok.injEq] at h
    subst h
    have hfr := find_inv c req u
    exact ⟨frame_queue_inv hfr hq, frame_index_ok hfr hidx, frame_totals_ok hfr htot⟩
  | evict =>
    simp only [apply_op] at h
    obtain ⟨c1a, stop, v, np, hfr, hs, hv, hnp, rfl⟩ := evict_ok_shape hq.1 hq.2.1 h
    have hq1 := frame_queue_inv hfr hq
    obtain ⟨h1, h2, h3, -, -⟩ := removal_inv hq1 hv (evict_np_ok hq1.1 hs hnp)
    exact ⟨h1, h2 (frame_index_ok hfr hidx), h3 (frame_totals_ok hfr htot)⟩
  | remove obj_id =>
    simp only [apply_op] at h
    unfold Sieve_size_remove at h
    simp only at h
    cases hf : hashtable_find_obj_id c obj_id with
    | none =>
      simp only [hf, if_true, Except.ok.injEq] at h
      subst h
      exact ⟨hq, hidx, htot⟩
    | some a =>
      simp only [hf] at h
      cases hr : Sieve_size_remove_obj c (some a) with
      | error e => simp [hr] at h
      | ok c2 =>
        simp only [hr, Except.ok.injEq] at h
        simp at h
        subst h
        obtain ⟨v, np, hv, -, hnp, -, rfl⟩ := remove_obj_ok_shape hq.1 hq.2.1 hr
        obtain ⟨h1, h2, h3, -, -⟩ := removal_inv hq hv hnp
        exact ⟨h1, h2 hidx, h3 htot⟩

theorem reachable_inv {c : cache_t} (h : Reachable c) :
    queue_inv c ∧ index_ok c ∧ totals_ok c := by
  induction h with
  | start p s =>
    refine ⟨⟨?_, ?_, ?_⟩, ⟨?_, ?_⟩, ?_⟩
    · simp [wf, addrs, Sieve_size_init]
    · simp [cursor_ok, Sieve_size_init]
    · simp [addrs, Sieve_size_init]
    · simp [Sieve_size_init]
    · simp [Sieve_size_init]
    · simp [totals_ok, Sieve_size_init]
  | step fuel op _ hstep ih => exact apply_op_inv hstep ih

theorem reachable_run (fuel : Nat) (ops : List Op) :
    ∀ {c c1 : cache_t}, Reachable c → run_ops fuel c ops = .ok c1 → Reachable c1 := by
  induction ops with
  | nil => intro c c1 h hr; simp only [run_ops, Except.ok.injEq] at hr; exact hr ▸ h
  | cons op ops ih =>
    intro c c1 h hr
    simp only [run_ops] at hr
    cases ha : apply_op fuel c op with
    | error e => simp [ha] at hr
    | ok c2 =>
      simp only [ha] at hr
      exact ih (Reachable.step fuel op h ha) hr

theorem ex_run_reachable : Reachable ex_run :=
  reachable_run 8 ex_ops
    (Reachable.start { consider_obj_metadata := false } none) (by rfl)

/-- C3: in every state reached from `Sieve_size_init` by insert, lookup, evict
and remove calls the cursor is absent or refers to a queued record; and after
any further call that returns, the cursor is again absent or queued, so it
never refers to a record that the call took out of the queue. -/
theorem cursor_valid_reachable (c : cache_t) (h : Reachable c) :
    cursor_ok c ∧
    ∀ (fuel : Nat) (op : Op) (c1 : cache_t), apply_op fuel c op = .ok c1 →
      cursor_ok c1 ∧ ∀ a ∈ addrs c, a ∉ addrs c1 → c1.pointer ≠ some a := by
  have hi := reachable_inv h
  refine ⟨hi.1.2.1, ?_⟩
  intro fuel op c1 hop
  have h1 := (apply_op_inv hop hi).1.2.1
  refine ⟨h1, ?_⟩
  intro a _ hna hp
  rw [cursor_ok_iff] at h1
  exact hna (h1 a hp)

theorem cursor_valid_reachable_witness :
    cursor_ok ex_run ∧
    ∀ (fuel : Nat) (op : Op) (c1 : cache_t), apply_op fuel ex_run op = .ok c1 →
      cursor_ok c1 ∧ ∀ a ∈ addrs ex_run, a ∉ addrs c1 → c1.pointer ≠ some a :=
  cursor_valid_reachable ex_run ex_run_reachable

theorem find_obj_id_of_mem {c : cache_t} {o : cache_obj_t}
    (h : (o.obj_id, o.addr) ∈ c.hashtable) : hashtable_find_obj_id c o.obj_id ≠ none := by
  unfold hashtable_find_obj_id
  cases hf : c.hashtable.find? (fun e => e.1 == o.obj_id) with
  | none =>
    rw [List.find?_eq_none] at hf
    have := hf _ h
    simp at this
  | some e => simp

theorem verify_run {c : cache_t} (hwf : wf c) (hidx : index_ok c) (l2 : List cache_obj_t) :
    ∀ (l1 : List cache_obj_t) (fuel : Nat) (n_obj n_byte : Int),
      c.q.reverse = l1 ++ l2 → l2.length + 1 ≤ fuel →
      verify_loop c fuel (hd l2) n_obj n_byte
        = .ok (true, n_obj + l2.length, n_byte + (l2.map (fun o => (o.obj_size : Int))).sum) := by
  induction l2 with
  | nil =>
    intro l1 fuel n b _ hf
    obtain ⟨k, rfl⟩ := Nat.exists_eq_add_of_le hf
    simp [hd, verify_loop, Nat.add_comm]
  | cons o l2 ih =>
    intro l1 fuel n b hq hf
    obtain ⟨k, rfl⟩ := Nat.exists_eq_add_of_le hf
    have hfu : (o :: l2).length + 1 + k = (l2.length + 1 + k) + 1 := by simp; omega
    have hoq : o ∈ c.q := by
      have : o ∈ c.q.reverse := by rw [hq]; simp
      simpa using this
    have hnd : ((l1 ++ o :: l2).map (·.addr)).Nodup := by
      rw [← hq, List.map_reverse, List.nodup_reverse]; exact hwf
    have hnot : o.addr ∉ l1.map (·.addr) := by
      rw [List.map_append, List.map_cons] at hnd
      have h1 := List.nodup_append.mp hnd
      intro hm
      exact h1.2.2 hm (List.mem_cons_self _ _)
    have hp : queue_next c (some o.addr) = .ok (hd l2) := by
      simp [queue_next, hq, link_after_append l1 l2 o hnot, hd]
    have hfind := find_obj_id_of_mem (hidx.1 o hoq)
    rw [hfu]
    have hh : hd (o :: l2) = some o.addr := by simp [hd]
    rw [hh]
    simp only [verify_loop, deref_mem hwf hoq, hfind, if_false, hp]
    rw [ih (l1 ++ [o]) _ _ _ (by simp [hq]) (by omega)]
    simp only [List.length_cons, List.map_cons, List.sum_cons]
    have e1 : n + 1 + (l2.length : Int) = n + ((l2.length + 1 : Nat) : Int) := by
      push_cast; ring
    have e2 : b + (o.obj_size : Int) + (l2.map (fun o => (o.obj_size : Int))).sum
        = b + ((o.obj_size : Int) + (l2.map (fun o => (o.obj_size : Int))).sum) := by ring
    rw [e1, e2]

theorem verify_loop_mono (c : cache_t) (fuel : Nat) :
    ∀ (p : Option Nat) (n b : Int) (x : Bool × Int × Int) (k : Nat),
      verify_loop c fuel p n b = .ok x → verify_loop c (fuel + k) p n b = .ok x := by
  induction fuel with
  | zero => intro p n b x k h; simp [verify_loop] at h
  | succ fuel ih =>
    intro p n b x k h
    have e : fuel + 1 + k = (fuel + k) + 1 := by omega
    rw [e]
    cases p with
    | none => simpa [verify_loop] using h
    | some a =>
      simp only [verify_loop] at h ⊢
      cases hd : deref c (some a) with
      | error err => simp [hd] at h
      | ok o =>
        simp only [hd] at h ⊢
        by_cases hf : hashtable_find_obj_id c o.obj_id = none
        · simpa [hf] using h
        · simp only [hf, if_false] at h ⊢
          cases hq : queue_next c (some a) with
          | error err => simp [hq] at h
          | ok nx =>
            simp only [hq] at h ⊢
            exact ih _ _ _ _ k h

theorem verify_ok {c : cache_t} (hwf : wf c) (hidx : index_ok c) (htot : totals_ok c)
    {fuel : Nat} (hf : c.q.length + 1 ≤ fuel) : Sieve_size_verify fuel c = .ok true := by
  have hq : q_head c = hd c.q.reverse := by
    simp [q_head, hd, List.head?_reverse]
  have := verify_run hwf hidx c.q.reverse [] fuel 0 0 (by simp) (by simpa using hf)
  unfold Sieve_size_verify
  rw [hq, this]
  simp only [List.length_reverse, zero_add, List.map_reverse, List.sum_reverse]
  unfold totals_ok at htot
  simp [htot.1, htot.2]

/-- C4: in every state reached from `Sieve_size_init` by insert, lookup, evict
and remove calls, with the runtime hooks as the specification describes them,
`Sieve_size_verify` finds no failing assertion: given fuel for one walk of the
queue it returns `true`, and with no amount of fuel does it return `false`.
The index and the queue hold the same records, the object count is the queue
length and the occupied bytes are the sum of the queued sizes. -/
theorem verify_never_fails (c : cache_t) (h : Reachable c) :
    (∀ fuel, c.q.length + 1 ≤ fuel → Sieve_size_verify fuel c = .ok true) ∧
    (∀ fuel, Sieve_size_verify fuel c ≠ .ok false) ∧
    index_ok c ∧ totals_ok c := by
  obtain ⟨hq, hidx, htot⟩ := reachable_inv h
  refine ⟨fun fuel hf => verify_ok hq.1 hidx htot hf, ?_, hidx, htot⟩
  intro fuel hbad
  have hgood := verify_ok hq.1 hidx htot
    (show c.q.length + 1 ≤ fuel + (c.q.length + 1) by omega)
  unfold Sieve_size_verify at hbad hgood
  cases hl : verify_loop c fuel (q_head c) 0 0 with
  | error e => simp [hl] at hbad
  | ok x =>
    rw [verify_loop_mono c fuel _ _ _ x (c.q.length + 1) hl] at hgood
    rw [hl] at hbad
    rw [hgood] at hbad
    cases hbad

theorem verify_never_fails_witness :
    (∀ fuel, ex_run.q.length + 1 ≤ fuel → Sieve_size_verify fuel ex_run = .ok true) ∧
    (∀ fuel, Sieve_size_verify fuel ex_run ≠ .ok false) ∧
    index_ok ex_run ∧ totals_ok ex_run :=
  verify_never_fails ex_run ex_run_reachable

/-- With enough fuel every loop of an eviction and of a peek returns. -/
theorem progress_core (c : cache_t) (fuel : Nat)
    (hwf : wf c) (hne : c.q ≠ []) (hcur : cursor_ok c) (hfuel : enough_fuel c ≤ fuel) :
    (∃ (c1 : cache_t) (stop : Nat),
      aging_loop fuel c (scan_start c) = .ok (c1, some stop) ∧ stop ∈ addrs c) ∧
    (∃ c2, Sieve_size_evict fuel c = .ok c2) ∧
    (∃ (first : Option Nat) (t : Int) (cand : Nat),
      Sieve_size_to_evict_with_freq fuel c 0 = .ok (first, c) ∧
      escalate_loop fuel fuel c 0 first = .ok (some cand, t, c) ∧ cand ∈ addrs c) ∧
    (∃ v, Sieve_size_to_evict fuel c = .ok (some v, c) ∧ v ∈ addrs c) := by
  obtain ⟨r, hv, hstart⟩ := view_start hne hcur
  obtain ⟨m, a, s, b, rfl, ha, hs, hall⟩ := exists_first_min r (view_ne_nil hv)
  obtain ⟨hf1, hf2, hf3⟩ := fuel_enough hv ha hall
  obtain ⟨c1, v, np, hag, hfr, -, -, -, -, -, hev⟩ :=
    evict_run hwf hv hstart ha hs hall (le_trans hf1 hfuel)
  obtain ⟨-, ⟨first, t, h0, hesc⟩, hpeek⟩ := peek_run hwf hv hstart ha hs hall
    (le_trans hf2 hfuel) (le_trans hf3 hfuel)
  have hsq : s.addr ∈ addrs c := List.mem_map_of_mem _ ((view_mem hv s).mp (by simp))
  have hvr : CycView c (s :: b ++ a) := view_rotate a (by simp) hv
  refine ⟨⟨c1, s.addr, hag, hsq⟩, ⟨_, hev⟩, ⟨first, t, s.addr, h0, hesc, hsq⟩, ⟨_, hpeek, ?_⟩⟩
  apply List.mem_map_of_mem
  have hsub : ∀ (l : List cache_obj_t) (e : cache_obj_t), e ∈ c.q → (∀ x ∈ l, x ∈ c.q) →
      l.foldl larger_of e ∈ c.q := by
    intro l
    induction l with
    | nil => intro e he _; simpa using he
    | cons y l ih =>
      intro e he hl
      simp only [List.foldl_cons]
      apply ih
      · unfold larger_of; split
        · exact hl y (List.mem_cons_self _ _)
        · exact he
      · exact fun x hx => hl x (List.mem_cons_of_mem _ hx)
  exact hsub _ _ ((view_mem hvr s).mp (by simp))
    (fun x hx => (view_mem hvr x).mp (cyc_take_mem _ _ x hx))

/-- C5: with a non-empty queue and a cursor that is absent or queued, whatever
the `freq` values (so in particular for non-negative ones), fuel
`enough_fuel c` suffices for every loop: the aging loop of `Sieve_size_evict`
stops at a queued record and the eviction returns, and the threshold
escalation loop of `Sieve_size_to_evict` stops with a queued candidate and the
peek returns a queued record. -/
theorem evict_and_peek_terminate (c : cache_t) (fuel : Nat)
    (hwf : wf c) (hne : c.q ≠ []) (hcur : cursor_ok c) (hfuel : enough_fuel c ≤ fuel) :
    (∃ (c1 : cache_t) (stop : Nat),
      aging_loop fuel c (scan_start c) = .ok (c1, some stop) ∧ stop ∈ addrs c) ∧
    (∃ c2, Sieve_size_evict fuel c = .ok c2) ∧
    (∃ (first : Option Nat) (t : Int) (cand : Nat),
      Sieve_size_to_evict_with_freq fuel c 0 = .ok (first, c) ∧
      escalate_loop fuel fuel c 0 first = .ok (some cand, t, c) ∧ cand ∈ addrs c) ∧
    (∃ v, Sieve_size_to_evict fuel c = .ok (some v, c) ∧ v ∈ addrs c) :=
  progress_core c fuel hwf hne hcur hfuel

theorem evict_and_peek_terminate_witness :
    (wf ex_abc_visited ∧ ex_abc_visited.q ≠ [] ∧ cursor_ok ex_abc_visited ∧
      enough_fuel ex_abc_visited ≤ 7) ∧
    ((∃ (c1 : cache_t) (stop : Nat),
      aging_loop 7 ex_abc_visited (scan_start ex_abc_visited) = .ok (c1, some stop) ∧
        stop ∈ addrs ex_abc_visited) ∧
    (∃ c2, Sieve_size_evict 7 ex_abc_visited = .ok c2) ∧
    (∃ (first : Option Nat) (t : Int) (cand : Nat),
      Sieve_size_to_evict_with_freq 7 ex_abc_visited 0 = .ok (first, ex_abc_visited) ∧
      escalate_loop 7 7 ex_abc_visited 0 first = .ok (some cand, t, ex_abc_visited) ∧
        cand ∈ addrs ex_abc_visited) ∧
    (∃ v, Sieve_size_to_evict 7 ex_abc_visited = .ok (some v, ex_abc_visited) ∧
      v ∈ addrs ex_abc_visited)) :=
  ⟨⟨by decide, by decide, by decide, by decide⟩,
    evict_and_peek_terminate ex_abc_visited 7 (by decide) (by decide) (by decide) (by decide)⟩

theorem filter_map_unvisit (a : Nat) (l l1 : List cache_obj_t)
    (h : l1.map (fun o => ({ o with freq := 0 } : cache_obj_t))
      = l.map (fun o => ({ o with freq := 0 } : cache_obj_t))) :
    (l1.filter (fun o => o.addr != a)).map (fun o => (o.addr, o.obj_id, o.obj_size))
      = (l.filter (fun o => o.addr != a)).map (fun o => (o.addr, o.obj_id, o.obj_size)) := by
  have key : ∀ l : List cache_obj_t,
      (l.filter (fun o => o.addr != a)).map (fun o => (o.addr, o.obj_id, o.obj_size))
        = ((l.map (fun o => ({ o with freq := 0 } : cache_obj_t))).filter
            (fun o => o.addr != a)).map (fun o => (o.addr, o.obj_id, o.obj_size)) := by
    intro l
    rw [List.filter_map, List.map_map]
    rfl
  rw [key l1, key l, h]

/-- C6: with a non-empty queue and a cursor that is absent or queued, one
`Sieve_size_evict` call takes exactly one record out: the queue gets shorter
by one, the record is neither in the queue nor in the index afterwards, and the
other records stay, in the same order, with the same identifiers and sizes. -/
theorem evict_removes_exactly_one (c : cache_t) (fuel : Nat)
    (hwf : wf c) (hne : c.q ≠ []) (hcur : cursor_ok c) (hfuel : enough_fuel c ≤ fuel) :
    ∃ (v : cache_obj_t) (c2 : cache_t),
      Sieve_size_evict fuel c = .ok c2 ∧ v ∈ c.q ∧
      c2.q.length + 1 = c.q.length ∧
      v.addr ∉ addrs c2 ∧ (∀ e ∈ c2.hashtable, e.2 ≠ v.addr) ∧
      c2.q.map (fun o => (o.addr, o.obj_id, o.obj_size))
        = (c.q.filter (fun o => o.addr != v.addr)).map
            (fun o => (o.addr, o.obj_id, o.obj_size)) := by
  obtain ⟨r, hv, hstart⟩ := view_start hne hcur
  obtain ⟨m, a, s, b, rfl, ha, hs, hall⟩ := exists_first_min r (view_ne_nil hv)
  obtain ⟨hf1, -, -⟩ := fuel_enough hv ha hall
  obtain ⟨c1, v, np, -, hfr, hv1, -, -, hvq, hnp, hev⟩ :=
    evict_run hwf hv hstart ha hs hall (le_trans hf1 hfuel)
  have hwf1 := frame_wf hfr hwf
  have hs1 : aged m s ∈ c1.q := (view_mem hv1 _).mp (by simp)
  obtain ⟨y, hy, e1, -, -⟩ := frame_mem hfr hvq
  have hq1 : queue_inv { c1 with next_addr := (addrs c1).sum + 1 } := by
    refine ⟨hwf1, ?_, ?_⟩
    · rw [cursor_ok_iff]
      intro x hx
      have hp : c1.pointer = c.pointer := by rw [hfr.1]
      rw [cursor_ok_iff] at hcur
      have := hcur x (by rw [← hp]; exact hx)
      rw [← frame_addrs hfr] at this
      exact this
    · intro x hx
      have : x ≤ (addrs c1).sum := List.single_le_sum (by simp) x hx
      exact Nat.lt_succ_of_le this
  obtain ⟨-, -, -, hlen, hnot⟩ := removal_inv hq1 hvq (evict_np_ok hwf1 hs1 hnp)
  refine ⟨y, _, hev, hy, ?_, ?_, ?_, ?_⟩
  · rw [← frame_length hfr]; exact hlen
  · rw [e1]; exact hnot
  · intro e he
    have he2 : e ∈ c1.hashtable.filter (fun e => e.2 != v.addr) := he
    rw [List.mem_filter] at he2
    rw [e1]
    simpa using he2.2
  · rw [e1]
    exact filter_map_unvisit v.addr c.q c1.q hfr.2

theorem evict_removes_exactly_one_witness :
    (wf ex_abc_visited ∧ ex_abc_visited.q ≠ [] ∧ cursor_ok ex_abc_visited ∧
      enough_fuel ex_abc_visited ≤ 7) ∧
    (∃ (v : cache_obj_t) (c2 : cache_t),
      Sieve_size_evict 7 ex_abc_visited = .ok c2 ∧ v ∈ ex_abc_visited.q ∧
      c2.q.length + 1 = ex_abc_visited.q.length ∧
      v.addr ∉ addrs c2 ∧ (∀ e ∈ c2.hashtable, e.2 ≠ v.addr) ∧
      c2.q.map (fun o => (o.addr, o.obj_id, o.obj_size))
        = (ex_abc_visited.q.filter (fun o => o.addr != v.addr)).map
            (fun o => (o.addr, o.obj_id, o.obj_size))) ∧
    (Sieve_size_evict 7 ex_abc_visited).toOption.map (fun c => c.q.length) = some 2 :=
  ⟨⟨by decide, by decide, by decide, by decide⟩,
    evict_removes_exactly_one ex_abc_visited 7 (by decide) (by decide) (by decide)
      (by decide),
    by decide⟩

theorem to_evict_with_freq_state {fuel : Nat} {c c1 : cache_t} {t : Int} {r : Option Nat}
    (h : Sieve_size_to_evict_with_freq fuel c t = .ok (r, c1)) : c1 = c := by
  unfold Sieve_size_to_evict_with_freq at h
  simp only at h
  cases h1 : skip_loop c t fuel (if c.pointer = none then q_tail c else c.pointer) with
  | error e => simp [h1] at h
  | ok p =>
    simp only [h1] at h
    by_cases hp : p = none
    · simp only [hp, if_true] at h
      cases h2 : skip_loop c t fuel (q_tail c) with
      | error e => simp [h2] at h
      | ok p2 =>
        simp only [h2, Except.ok.injEq, Prod.mk.injEq] at h
        exact h.2.symm
    · simp only [hp, if_false, Except.ok.injEq, Prod.mk.injEq] at h
      exact h.2.symm

theorem window_state {c c1 : cache_t} {p r : Option Nat} {t : Int}
    (h : Sieve_size_evict_largest_from_window c p t = .ok (r, c1)) : c1 = c := by
  unfold Sieve_size_evict_largest_from_window at h
  cases h1 : window_loop c c.eviction_window_size.toNat p p with
  | error e => simp [h1] at h
  | ok x =>
    simp only [h1, Except.ok.injEq, Prod.mk.injEq] at h
    exact h.2.symm

theorem escalate_state (inner fuel : Nat) :
    ∀ {c c1 : cache_t} {t t1 : Int} {p r : Option Nat},
      escalate_loop inner fuel c t p = .ok (r, t1, c1) → c1 = c := by
  induction fuel with
  | zero => intro c c1 t t1 p r h; simp [escalate_loop] at h
  | succ fuel ih =>
    intro c c1 t t1 p r h
    simp only [escalate_loop] at h
    by_cases hp : p = none
    · simp only [hp, if_true] at h
      cases h1 : Sieve_size_to_evict_with_freq inner c (t + 1) with
      | error e => simp [h1] at h
      | ok x =>
        obtain ⟨r2, c2⟩ := x
        simp only [h1] at h
        have e2 := to_evict_with_freq_state h1
        subst e2
        exact ih h
    · simp only [hp, if_false, Except.ok.injEq, Prod.mk.injEq] at h
      exact h.2.2.symm

theorem to_evict_state {fuel : Nat} {c c1 : cache_t} {r : Option Nat}
    (h : Sieve_size_to_evict fuel c = .ok (r, c1)) : c1 = c := by
  unfold Sieve_size_to_evict at h
  simp only at h
  cases h1 : Sieve_size_to_evict_with_freq fuel c 0 with
  | error e => simp [h1] at h
  | ok x =>
    obtain ⟨r2, c2⟩ := x
    have e2 := to_evict_with_freq_state h1
    subst e2
    simp only [h1] at h
    cases h2 : escalate_loop fuel fuel c2 0 r2 with
    | error e => simp [h2] at h
    | ok y =>
      obtain ⟨r3, t3, c3⟩ := y
      have e3 := escalate_state fuel fuel h2
      subst e3
      simp only [h2] at h
      exact window_state h

/-- C7: `Sieve_size_to_evict` (peek_victim) and the two functions it is made of
hand the cache back exactly as they got it (queue order, cursor, window size,
every `freq`, index and totals), so a second call right after the first
returns the same record and the same cache; and with a non-empty queue and a
cursor that is absent or queued the call does return a record. -/
theorem to_evict_frame (c : cache_t) (fuel : Nat) :
    (∀ r c1, Sieve_size_to_evict fuel c = .ok (r, c1) →
      c1 = c ∧ Sieve_size_to_evict fuel c1 = .ok (r, c1)) ∧
    (∀ t r c1, Sieve_size_to_evict_with_freq fuel c t = .ok (r, c1) → c1 = c) ∧
    (∀ p t r c1, Sieve_size_evict_largest_from_window c p t = .ok (r, c1) → c1 = c) ∧
    (wf c → c.q ≠ [] → cursor_ok c → enough_fuel c ≤ fuel →
      ∃ v, Sieve_size_to_evict fuel c = .ok (some v, c) ∧ v ∈ addrs c) := by
  refine ⟨?_, fun t r c1 h => to_evict_with_freq_state h, fun p t r c1 h => window_state h, ?_⟩
  · intro r c1 h
    have e := to_evict_state h
    subst e
    exact ⟨rfl, h⟩
  · intro hwf hne hcur hfuel
    exact (progress_core c fuel hwf hne hcur hfuel).2.2.2

/-- C8: when every queued record has `freq = 1` (non-empty queue, cursor absent
or queued), the aging loop of one `Sieve_size_evict` call lowers the `freq` of
every record by one, running its body once per record (it is out of fuel with
as many units as there are records and returns with one more), and stops at
the record it started from: the cursor, or the tail when the cursor is absent.
All records then have `freq = 0`, the one it stopped at included, and so have
all records left after the call. -/
theorem aging_all_visited (c : cache_t) (fuel : Nat)
    (hwf : wf c) (hne : c.q ≠ []) (hcur : cursor_ok c) (hvis : ∀ o ∈ c.q, o.freq = 1)
    (hfuel : enough_fuel c ≤ fuel) :
    ∃ (stop : Nat) (c1 c2 : cache_t),
      scan_start c = some stop ∧ stop ∈ addrs c ∧
      (c.pointer = none → some stop = q_tail c) ∧ (c.pointer ≠ none → some stop = c.pointer) ∧
      aging_loop fuel c (scan_start c) = .ok (c1, some stop) ∧
      c1.q = c.q.map (fun o => { o with freq := o.freq - 1 }) ∧
      (∀ o ∈ c1.q, o.freq = 0) ∧
      aging_loop c.q.length c (scan_start c) = .error .out_of_fuel ∧
      aging_loop (c.q.length + 1) c (scan_start c) = .ok (c1, some stop) ∧
      Sieve_size_evict fuel c = .ok c2 ∧ c2.q.length + 1 = c.q.length ∧
      (∀ o ∈ c2.q, o.freq = 0) := by
  obtain ⟨r, hv, hstart⟩ := view_start hne hcur
  cases r with
  | nil => exact absurd rfl (view_ne_nil hv)
  | cons s b =>
    have hv0 : CycView c ([] ++ s :: b) := by simpa using hv
    have hr1 : ∀ x ∈ ([] : List cache_obj_t) ++ s :: b, ((1 : Nat) : Int) ≤ x.freq := by
      intro x hx
      have := hvis x ((view_mem hv0 x).mp hx)
      rw [this]; rfl
    have hs1 : s.freq ≤ ((1 : Nat) : Int) := by
      have := hvis s ((view_mem hv s).mp (by simp))
      rw [this]; rfl
    have hlen : c.q.length = b.length + 1 := by
      have := view_length hv; simp at this; omega
    have hfu : 1 * (([] : List cache_obj_t).length + 1 + b.length) + ([] : List cache_obj_t).length
        + 1 ≤ fuel := by
      unfold enough_fuel at hfuel
      simp only [List.length_nil]; omega
    obtain ⟨c1, v, np, hag, hfr, hv1, -, -, hvq, hnp, hev⟩ :=
      evict_run hwf hv0 (by simpa using hstart) (by simp) hs1 (Or.inr hr1) hfu
    have hwf1 := frame_wf hfr hwf
    have hst : scan_start c = some s.addr := by rw [← hstart]; simp [hd]
    have hz : ∀ o ∈ c1.q, o.freq = 0 := by
      intro o ho
      have := (view_mem hv1 o).mpr ho
      simp only [List.map_nil, List.append_nil] at this
      obtain ⟨y, hy, rfl⟩ := List.mem_map.mp this
      have := hvis y ((view_mem hv y).mp hy)
      simp [this]
    have hq1 : c1.q = c.q.map (fun o => { o with freq := o.freq - 1 }) := by
      have e1 : c1.q.map (fun o => ({ o with freq := 0 } : cache_obj_t)) = c1.q := by
        conv_rhs => rw [← List.map_id c1.q]
        apply List.map_congr_left
        intro x hx
        have := hz x hx
        simp only [id]
        rw [← this]
      have e2 : c.q.map (fun o => ({ o with freq := 0 } : cache_obj_t))
          = c.q.map (fun o => { o with freq := o.freq - 1 }) := by
        apply List.map_congr_left
        intro x hx
        have := hvis x hx
        simp [this]
      rw [← e1, hfr.2, e2]
    have hout : aging_loop c.q.length c (scan_start c) = .error .out_of_fuel := by
      have hvall : CycView c ((s :: b) ++ []) := by simpa using hv
      obtain ⟨c3, e3, -, -⟩ := aging_seg (s :: b) 0 hwf hvall
        (fun x hx => by have := hvis x ((view_mem hv x).mp hx); omega)
      have e4 : 0 + (s :: b).length = c.q.length := by simp [hlen]
      rw [e4] at e3
      have e5 : hd ((s :: b) ++ []) = scan_start c := by rw [hst]; simp [hd]
      rw [e5] at e3
      rw [e3]
      rfl
    have hexact : aging_loop (c.q.length + 1) c (scan_start c) = .ok (c1, some s.addr) := by
      obtain ⟨c4, e4, -, -⟩ := aging_main 1 (a := []) (s := s) (b := b) 0 hwf hv0 (by simp) hs1
        (Or.inr hr1)
      have e5 : 0 + (1 * (([] : List cache_obj_t).length + 1 + b.length)
          + ([] : List cache_obj_t).length + 1) = c.q.length + 1 := by
        simp only [List.length_nil]; omega
      have e6 : hd (([] : List cache_obj_t) ++ s :: b) = scan_start c := by
        rw [hst]; simp [hd]
      rw [e5, e6] at e4
      obtain ⟨k, hk⟩ := Nat.exists_eq_add_of_le (show c.q.length + 1 ≤ fuel by
        unfold enough_fuel at hfuel; omega)
      have e7 := aging_mono _ _ _ _ k e4
      rw [← hk, hag] at e7
      rw [e4, e7]
    have hmem : s.addr ∈ addrs c := List.mem_map_of_mem _ ((view_mem hv s).mp (by simp))
    refine ⟨s.addr, c1, _, hst, hmem, ?_, ?_, by rw [hst] at hag; rw [hst]; exact hag,
      hq1, hz, hout, hexact, hev, ?_, ?_⟩
    · intro hp
      have := hst; unfold scan_start at this; rw [if_pos hp] at this; exact this.symm
    · intro hp
      have := hst; unfold scan_start at this; rw [if_neg hp] at this; exact this.symm
    · show (c1.q.filter (fun x => x.addr != v.addr)).length + 1 = c.q.length
      obtain ⟨l1, l2, hq⟩ := List.append_of_mem hvq
      rw [filter_remove hwf1 hq, ← frame_length hfr, hq]
      simp; omega
    · intro o ho
      have ho2 : o ∈ c1.q.filter (fun x => x.addr != v.addr) := ho
      exact hz o (List.mem_of_mem_filter ho2)

theorem aging_all_visited_witness :
    (wf ex_abc_visited ∧ ex_abc_visited.q ≠ [] ∧ cursor_ok ex_abc_visited ∧
      (∀ o ∈ ex_abc_visited.q, o.freq = 1) ∧ enough_fuel ex_abc_visited ≤ 7) ∧
    (∃ (stop : Nat) (c1 c2 : cache_t),
      scan_start ex_abc_visited = some stop ∧ stop ∈ addrs ex_abc_visited ∧
      (ex_abc_visited.pointer = none → some stop = q_tail ex_abc_visited) ∧
      (ex_abc_visited.pointer ≠ none → some stop = ex_abc_visited.pointer) ∧
      aging_loop 7 ex_abc_visited (scan_start ex_abc_visited) = .ok (c1, some stop) ∧
      c1.q = ex_abc_visited.q.map (fun o => { o with freq := o.freq - 1 }) ∧
      (∀ o ∈ c1.q, o.freq = 0) ∧
      aging_loop ex_abc_visited.q.length ex_abc_visited (scan_start ex_abc_visited)
        = .error .out_of_fuel ∧
      aging_loop (ex_abc_visited.q.length + 1) ex_abc_visited (scan_start ex_abc_visited)
        = .ok (c1, some stop) ∧
      Sieve_size_evict 7 ex_abc_visited = .ok c2 ∧
      c2.q.length + 1 = ex_abc_visited.q.length ∧
      (∀ o ∈ c2.q, o.freq = 0)) :=
  ⟨⟨by decide, by decide, by decide, by decide, by decide⟩,
    aging_all_visited ex_abc_visited 7 (by decide) (by decide) (by decide) (by decide)
      (by decide)⟩

/-- A window at least as long as the queue scans every record, and the selector
returns the first record of largest size in scan order. -/
theorem window_full {c : cache_t} {p : Nat} (hwf : wf c) (hp : p ∈ addrs c)
    (hW : (c.q.length : Int) ≤ c.eviction_window_size) :
    ∃ v : cache_obj_t,
      Sieve_size_evict_largest_from_window c (some p) 0 = .ok (some v.addr, c) ∧ v ∈ c.q ∧
      (∀ x ∈ c.q, x ∈ window_records c (some p) c.eviction_window_size.toNat) ∧
      (∀ x ∈ c.q, x.obj_size ≤ v.obj_size) ∧
      (∃ pre post, scan_order c (some p) = pre ++ v :: post ∧
        ∀ x ∈ pre, x.obj_size < v.obj_size) := by
  obtain ⟨r, hv, hhd⟩ := view_of_mem hp
  cases r with
  | nil => exact absurd rfl (view_ne_nil hv)
  | cons s rest =>
    have hsp : s.addr = p := by simpa [hd] using hhd
    have hso : scan_order c (some p) = s :: rest := by
      have := scan_order_view hwf hv
      rwa [hhd] at this
    have hlen := view_length hv
    obtain ⟨k, hk⟩ : ∃ k, c.eviction_window_size.toNat = (s :: rest).length + k := by
      refine ⟨c.eviction_window_size.toNat - (s :: rest).length, ?_⟩
      omega
    have hct : cyc_take c.eviction_window_size.toNat (s :: rest)
        = (s :: rest) ++ cyc_take k (s :: rest) := by
      have := cyc_take_append (s :: rest) [] k
      simpa [hk] using this
    have hsq : s ∈ c.q := (view_mem hv s).mp (by simp)
    have hwin := window_run hwf c.eviction_window_size.toNat (some p) hv
      (by simp [hd, hsp]) hsq
    have hss : larger_of s s = s := by simp [larger_of]
    have hfold : (cyc_take c.eviction_window_size.toNat (s :: rest)).foldl larger_of s
        = rest.foldl larger_of s := by
      rw [hct, List.foldl_append, List.foldl_cons, hss]
      apply foldl_larger_stable
      intro x hx
      have hx2 := cyc_take_mem _ _ x hx
      rcases List.mem_cons.mp hx2 with rfl | h
      · exact (foldl_larger_ge rest x).1
      · exact (foldl_larger_ge rest s).2 x h
    rw [hfold, hsp] at hwin
    refine ⟨rest.foldl larger_of s, ?_, ?_, ?_, ?_, ?_⟩
    · simp only [Sieve_size_evict_largest_from_window, hwin]
    · obtain ⟨pre, post, he, -⟩ := foldl_larger_first rest s
      apply (view_mem hv _).mp
      rw [he]; simp
    · intro x hx
      simp only [window_records, hso, hct]
      exact List.mem_append_left _ ((view_mem hv x).mpr hx)
    · intro x hx
      have := (view_mem hv x).mpr hx
      rcases List.mem_cons.mp this with rfl | h
      · exact (foldl_larger_ge rest x).1
      · exact (foldl_larger_ge rest s).2 x h
    · rw [hso]; exact foldl_larger_first rest s

/-- C9: on a non-empty queue of `n` records with window size `W >= n`, the
windowed selector started at any queued record examines every record of the
queue and returns a record of largest size in the whole queue, the first such
one in cyclic scan order from the start; and `Sieve_size_evict` then removes a
record of largest size in the whole queue. -/
theorem window_covers_queue (c : cache_t) (p : Nat) (hwf : wf c) (hp : p ∈ addrs c)
    (hW : (c.q.length : Int) ≤ c.eviction_window_size) :
    (∃ v : cache_obj_t,
      Sieve_size_evict_largest_from_window c (some p) 0 = .ok (some v.addr, c) ∧ v ∈ c.q ∧
      (∀ x ∈ c.q, x ∈ window_records c (some p) c.eviction_window_size.toNat) ∧
      (∀ x ∈ c.q, x.obj_size ≤ v.obj_size) ∧
      (∃ pre post, scan_order c (some p) = pre ++ v :: post ∧
        ∀ x ∈ pre, x.obj_size < v.obj_size)) ∧
    (∀ fuel, cursor_ok c → enough_fuel c ≤ fuel →
      ∃ (w : cache_obj_t) (c2 : cache_t),
        Sieve_size_evict fuel c = .ok c2 ∧ w ∈ c.q ∧
        addrs c2 = (addrs c).filter (fun x => x != w.addr) ∧
        ∀ x ∈ c.q, x.obj_size ≤ w.obj_size) := by
  refine ⟨window_full hwf hp hW, ?_⟩
  intro fuel hcur hfuel
  have hne : c.q ≠ [] := by
    intro h
    simp [addrs, h] at hp
  obtain ⟨r, hv, hstart⟩ := view_start hne hcur
  obtain ⟨m, a, s, b, rfl, ha, hs, hall⟩ := exists_first_min r (view_ne_nil hv)
  obtain ⟨hf1, -, -⟩ := fuel_enough hv ha hall
  obtain ⟨c1, v, np, -, hfr, hv1, -, hwin, hvq, -, hev⟩ :=
    evict_run hwf hv hstart ha hs hall (le_trans hf1 hfuel)
  have hwf1 := frame_wf hfr hwf
  have hs1 : s.addr ∈ addrs c1 := by
    have : aged m s ∈ c1.q := (view_mem hv1 _).mp (by simp)
    exact List.mem_map_of_mem (·.addr) this
  have hW1 : (c1.q.length : Int) ≤ c1.eviction_window_size := by
    have e : c1.eviction_window_size = c.eviction_window_size := by rw [hfr.1]
    rw [frame_length hfr, e]; exact hW
  obtain ⟨v2, hwin2, hv2q, -, hmax, -⟩ := window_full hwf1 hs1 hW1
  rw [hwin] at hwin2
  have hva : v.addr = v2.addr := by simpa using hwin2
  have hvv : v = v2 := mem_addr_eq hwf1 hvq hv2q hva
  obtain ⟨w, hw, e1, -, e3⟩ := frame_mem hfr hvq
  refine ⟨w, _, hev, hw, ?_, ?_⟩
  · rw [← frame_addrs hfr, e1]
    simp only [addrs, cache_evict_base, List.filter_map]; rfl
  · intro x hx
    obtain ⟨x1, hx1, -, -, ex⟩ := frame_mem (frame_symm hfr) hx
    have h2 := hmax x1 hx1
    rw [← hvv] at h2
    omega

theorem window_covers_queue_witness :
    (wf ex_abc_w100 ∧ 2 ∈ addrs ex_abc_w100 ∧ (ex_abc_w100.q.length : Int) ≤ ex_abc_w100.eviction_window_size) ∧
    ((∃ v : cache_obj_t,
      Sieve_size_evict_largest_from_window ex_abc_w100 (some 2) 0 = .ok (some v.addr, ex_abc_w100) ∧
      v ∈ ex_abc_w100.q ∧
      (∀ x ∈ ex_abc_w100.q, x ∈ window_records ex_abc_w100 (some 2) ex_abc_w100.eviction_window_size.toNat) ∧
      (∀ x ∈ ex_abc_w100.q, x.obj_size ≤ v.obj_size) ∧
      (∃ pre post, scan_order ex_abc_w100 (some 2) = pre ++ v :: post ∧
        ∀ x ∈ pre, x.obj_size < v.obj_size)) ∧
    (∀ fuel, cursor_ok ex_abc_w100 → enough_fuel ex_abc_w100 ≤ fuel →
      ∃ (w : cache_obj_t) (c2 : cache_t),
        Sieve_size_evict fuel ex_abc_w100 = .ok c2 ∧ w ∈ ex_abc_w100.q ∧
        addrs c2 = (addrs ex_abc_w100).filter (fun x => x != w.addr) ∧
        ∀ x ∈ ex_abc_w100.q, x.obj_size ≤ w.obj_size)) :=
  ⟨⟨by decide, by decide, by decide⟩,
    window_covers_queue ex_abc_w100 2 (by decide) (by decide) (by decide)⟩

theorem find_obj_id_none_iff (c : cache_t) (obj_id : Nat) :
    hashtable_find_obj_id c obj_id = none ↔ ∀ e ∈ c.hashtable, e.1 ≠ obj_id := by
  unfold hashtable_find_obj_id
  rw [Option.map_eq_none', List.find?_eq_none]
  simp

theorem find_obj_id_some {c : cache_t} {obj_id a : Nat}
    (h : hashtable_find_obj_id c obj_id = some a) : (obj_id, a) ∈ c.hashtable := by
  unfold hashtable_find_obj_id at h
  cases hf : c.hashtable.find? (fun e => e.1 == obj_id) with
  | none => simp [hf] at h
  | some e =>
    simp only [hf, Option.map_some', Option.some.injEq] at h
    have h1 := List.find?_some hf
    have h2 := List.mem_of_find?_eq_some hf
    have h3 : e.1 = obj_id := by simpa using h1
    have : e = (obj_id, a) := by rw [← h3, ← h]
    rw [← this]; exact h2

/-- `Sieve_size_remove_obj` returns on every queued record. -/
theorem remove_obj_run {c : cache_t} (hwf : wf c) {v : cache_obj_t} (hv : v ∈ c.q) :
    ∃ np, (if some v.addr = c.pointer then queue_prev c (some v.addr) else .ok c.pointer)
        = .ok np ∧
      Sieve_size_remove_obj c (some v.addr) = .ok (cache_remove_obj_base
        { c with pointer := np, q := c.q.filter (fun x => x.addr != v.addr) } v) := by
  obtain ⟨l1, l2, hq⟩ := List.append_of_mem hv
  have hview : CycView c (v :: (l2 ++ l1)) := ⟨l1, v, l2, hq, rfl⟩
  obtain ⟨prev, hprev, -⟩ := view_prev hwf hview
  have hnp : ∃ np, (if some v.addr = c.pointer then queue_prev c (some v.addr)
      else .ok c.pointer) = .ok np := by
    by_cases hp : some v.addr = c.pointer
    · exact ⟨prev, by rw [if_pos hp]; exact hprev⟩
    · exact ⟨c.pointer, by simp [hp]⟩
  obtain ⟨np, hnp⟩ := hnp
  refine ⟨np, hnp, ?_⟩
  have hder : deref { c with pointer := np } (some v.addr) = .ok v := deref_mem hwf hv
  unfold Sieve_size_remove_obj
  simp only [hnp, hder, remove_obj_from_list]

/-- C10: on a cache whose index agrees with its queue, `Sieve_size_remove`
returns `false` exactly when the identifier has no entry in the index, and
then hands the cache back unchanged (queue, cursor, every `freq`); otherwise it
returns `true`, the record that the index holds for the identifier is no
longer in the queue, the queue is one shorter and the other records are kept
in order. -/
theorem remove_found_iff (c : cache_t) (obj_id : Nat) (hwf : wf c) (hidx : index_ok c) :
    ∃ (b : Bool) (c1 : cache_t),
      Sieve_size_remove c obj_id = .ok (b, c1) ∧
      (b = false ↔ ∀ e ∈ c.hashtable, e.1 ≠ obj_id) ∧
      (b = false → c1 = c) ∧
      (b = true → ∃ o ∈ c.q, o.obj_id = obj_id ∧
        hashtable_find_obj_id c obj_id = some o.addr ∧
        o.addr ∉ addrs c1 ∧ o ∉ c1.q ∧
        c1.q = c.q.filter (fun x => x.addr != o.addr) ∧
        c1.q.length + 1 = c.q.length) := by
  cases hf : hashtable_find_obj_id c obj_id with
  | none =>
    refine ⟨false, c, by simp [Sieve_size_remove, hf], ?_, fun _ => rfl, by simp⟩
    simp only [true_iff]
    exact (find_obj_id_none_iff c obj_id).mp hf
  | some a =>
    obtain ⟨o, ho, he⟩ := hidx.2 _ (find_obj_id_some hf)
    simp only [Prod.mk.injEq] at he
    obtain ⟨hid, ha⟩ := he
    subst ha
    obtain ⟨np, -, hrun⟩ := remove_obj_run hwf ho
    obtain ⟨l1, l2, hq⟩ := List.append_of_mem ho
    have hfil := filter_remove hwf hq
    have hnot : o.addr ∉ addrs (cache_remove_obj_base
        { c with pointer := np, q := c.q.filter (fun x => x.addr != o.addr) } o) := by
      simp only [addrs, cache_remove_obj_base, List.filter_map]
      simp
    have hrem : Sieve_size_remove c obj_id = .ok (true, cache_remove_obj_base
        { c with pointer := np, q := c.q.filter (fun x => x.addr != o.addr) } o) := by
      simp [Sieve_size_remove, hf, hrun]
    refine ⟨true, _, hrem, ?_, by simp, ?_⟩
    · simp only [false_iff, Bool.true_eq_false]
      intro hall
      exact hall _ (find_obj_id_some hf) rfl
    · intro _
      refine ⟨o, ho, hid.symm, rfl, hnot, ?_, rfl, ?_⟩
      · intro hmem
        exact hnot (List.mem_map_of_mem _ hmem)
      · show (c.q.filter (fun x => x.addr != o.addr)).length + 1 = c.q.length
        rw [hfil, hq]; simp; omega

theorem remove_found_iff_witness :
    (wf ex_abc_visited ∧ index_ok ex_abc_visited) ∧
    (∃ (b : Bool) (c1 : cache_t),
      Sieve_size_remove ex_abc_visited 2 = .ok (b, c1) ∧
      (b = false ↔ ∀ e ∈ ex_abc_visited.hashtable, e.1 ≠ 2) ∧
      (b = false → c1 = ex_abc_visited) ∧
      (b = true → ∃ o ∈ ex_abc_visited.q, o.obj_id = 2 ∧
        hashtable_find_obj_id ex_abc_visited 2 = some o.addr ∧
        o.addr ∉ addrs c1 ∧ o ∉ c1.q ∧
        c1.q = ex_abc_visited.q.filter (fun x => x.addr != o.addr) ∧
        c1.q.length + 1 = ex_abc_visited.q.length)) ∧
    (Sieve_size_remove ex_abc_visited 2).toOption.map (fun r => (r.1, r.2.q.map (·.obj_id)))
      = some (true, [1, 3]) ∧
    (Sieve_size_remove ex_abc_visited 9).toOption = some (false, ex_abc_visited) :=
  ⟨⟨by decide, by decide⟩, remove_found_iff ex_abc_visited 2 (by decide) (by decide),
    by decide, by decide⟩

/-! ## Insertion order -/

theorem walk_run {c : cache_t} (hwf : wf c) (l2 : List cache_obj_t) :
    ∀ (l1 : List cache_obj_t) (fuel : Nat), c.q.reverse = l1 ++ l2 → l2.length + 1 ≤ fuel →
      walk_loop c fuel (hd l2) = .ok l2 := by
  induction l2 with
  | nil =>
    intro l1 fuel _ hf
    obtain ⟨k, rfl⟩ := Nat.exists_eq_add_of_le hf
    simp [hd, walk_loop, Nat.add_comm]
  | cons o l2 ih =>
    intro l1 fuel hq hf
    obtain ⟨k, rfl⟩ := Nat.exists_eq_add_of_le hf
    have hfu : (o :: l2).length + 1 + k = (l2.length + 1 + k) + 1 := by simp; omega
    have hoq : o ∈ c.q := by
      have : o ∈ c.q.reverse := by rw [hq]; simp
      simpa using this
    have hnd : ((l1 ++ o :: l2).map (·.addr)).Nodup := by
      rw [← hq, List.map_reverse, List.nodup_reverse]; exact hwf
    have hnot : o.addr ∉ l1.map (·.addr) := by
      rw [List.map_append, List.map_cons] at hnd
      have h1 := List.nodup_append.mp hnd
      intro hm
      exact h1.2.2 hm (List.mem_cons_self _ _)
    have hp : queue_next c (some o.addr) = .ok (hd l2) := by
      simp [queue_next, hq, link_after_append l1 l2 o hnot, hd]
    rw [hfu]
    have hh : hd (o :: l2) = some o.addr := by simp [hd]
    rw [hh]
    simp only [walk_loop, deref_mem hwf hoq, hp]
    rw [ih (l1 ++ [o]) _ (by simp [hq]) (by omega)]

/-- The head-to-tail walk lists the queue from its newest to its oldest
record. -/
theorem head_to_tail_eq {c : cache_t} (hwf : wf c) {fuel : Nat} (hf : c.q.length + 1 ≤ fuel) :
    head_to_tail fuel c = .ok c.q.reverse := by
  have hq : q_head c = hd c.q.reverse := by
    simp [q_head, hd, List.head?_reverse]
  unfold head_to_tail
  rw [hq]
  exact walk_run hwf c.q.reverse [] fuel (by simp) (by simpa using hf)

/-- Shape of the queue after `Sieve_size_insert`: whatever the runtime left in
the new record's `freq`, the record is queued with `freq = 0`. -/
theorem insert_shape (c : cache_t) (req : request_t) (fresh_freq : Int) (hi : queue_inv c) :
    (Sieve_size_insert c req fresh_freq).1 = some c.next_addr ∧
    (Sieve_size_insert c req fresh_freq).2 =
      { c with q := c.q ++ [{ addr := c.next_addr, obj_id := req.obj_id,
                              obj_size := req.obj_size, freq := 0 }],
               hashtable := (req.obj_id, c.next_addr) :: c.hashtable,
               n_obj := c.n_obj + 1,
               occupied_byte := c.occupied_byte + req.obj_size,
               next_addr := c.next_addr + 1 } := by
  refine ⟨rfl, ?_⟩
  obtain ⟨-, -, h3⟩ := hi
  have hmap : c.q.map (fun o => if o.addr = c.next_addr then { o with freq := (0 : Int) } else o)
      = c.q := by
    conv_rhs => rw [← List.map_id c.q]
    apply List.map_congr_left
    intro x hx
    have : x.addr ≠ c.next_addr := by
      have := h3 x.addr (List.mem_map_of_mem _ hx)
      omega
    simp [this]
  simp only [Sieve_size_insert, cache_insert_base, prepend_obj_to_head, set_freq,
    List.map_append, hmap, List.map_cons, List.map_nil, if_true]

theorem insert_all_shape (reqs : List (request_t × Int)) :
    ∀ c : cache_t, queue_inv c →
      queue_inv (insert_all c reqs) ∧
      (insert_all c reqs).pointer = c.pointer ∧
      (insert_all c reqs).q.map (fun o => (o.obj_id, o.obj_size, o.freq))
        = c.q.map (fun o => (o.obj_id, o.obj_size, o.freq))
          ++ reqs.map (fun r => (r.1.obj_id, r.1.obj_size, (0 : Int))) := by
  induction reqs with
  | nil => intro c hi; exact ⟨hi, rfl, by simp [insert_all]⟩
  | cons rf reqs ih =>
    obtain ⟨req, f⟩ := rf
    intro c hi
    obtain ⟨h1, h2, h3⟩ := ih _ (insert_inv c req f hi).1
    have hs := (insert_shape c req f hi).2
    refine ⟨h1, ?_, ?_⟩
    · rw [insert_all, h2, hs]
    · rw [insert_all, h3, hs]
      simp

/-- C11: whatever the runtime leaves in the new record's `freq` field,
`Sieve_size_insert` makes the new record the head of the queue with `freq = 0`
and keeps the records already queued, unchanged and in the same order, behind
it: the head-to-tail walk after the insertion is the new record followed by the
walk before it.  After inserting r1, ..., rn into the cache made by
`Sieve_size_init` the head-to-tail walk is rn, ..., r1, all with `freq = 0`. -/
theorem insert_prepends (c : cache_t) (req : request_t) (fresh_freq : Int)
    (reqs : List (request_t × Int))
    (ccache_params : common_cache_params_t) (cache_specific_params : Option String)
    (hi : queue_inv c) :
    (∃ new : cache_obj_t,
      new.obj_id = req.obj_id ∧ new.obj_size = req.obj_size ∧ new.freq = 0 ∧
      new.addr ∉ addrs c ∧
      (Sieve_size_insert c req fresh_freq).1 = some new.addr ∧
      q_head (Sieve_size_insert c req fresh_freq).2 = some new.addr ∧
      (Sieve_size_insert c req fresh_freq).2.q = c.q ++ [new] ∧
      (Sieve_size_insert c req fresh_freq).2.pointer = c.pointer ∧
      (∀ fuel, c.q.length + 1 ≤ fuel → head_to_tail fuel c = .ok c.q.reverse) ∧
      (∀ fuel, c.q.length + 2 ≤ fuel →
        head_to_tail fuel (Sieve_size_insert c req fresh_freq).2
          = .ok (new :: c.q.reverse))) ∧
    (∀ fuel, reqs.length + 1 ≤ fuel →
      ∃ w, head_to_tail fuel
          (insert_all (Sieve_size_init ccache_params cache_specific_params) reqs) = .ok w ∧
        w.map (fun o => (o.obj_id, o.obj_size, o.freq))
          = reqs.reverse.map (fun r => (r.1.obj_id, r.1.obj_size, (0 : Int)))) := by
  constructor
  · obtain ⟨h1, h2⟩ := insert_shape c req fresh_freq hi
    have hinv := (insert_inv c req fresh_freq hi).1
    refine ⟨{ addr := c.next_addr, obj_id := req.obj_id, obj_size := req.obj_size, freq := 0 },
      rfl, rfl, rfl, ?_, h1, ?_, ?_, ?_, ?_, ?_⟩
    · intro hm
      exact absurd (hi.2.2 _ hm) (lt_irrefl _)
    · rw [h2]; simp [q_head]
    · rw [h2]
    · rw [h2]
    · intro fuel hf
      exact head_to_tail_eq hi.1 hf
    · intro fuel hf
      have hlen : (Sieve_size_insert c req fresh_freq).2.q.length + 1 ≤ fuel := by
        rw [h2]; simp; omega
      rw [head_to_tail_eq hinv.1 hlen, h2]
      simp
  · intro fuel hf
    have hinit : queue_inv (Sieve_size_init ccache_params cache_specific_params) :=
      (reachable_inv (Reachable.start ccache_params cache_specific_params)).1
    obtain ⟨h1, -, h3⟩ := insert_all_shape reqs _ hinit
    have hlen : (insert_all (Sieve_size_init ccache_params cache_specific_params) reqs).q.length
        = reqs.length := by
      have := congrArg List.length h3
      simpa [Sieve_size_init] using this
    refine ⟨_, head_to_tail_eq h1.1 (by rw [hlen]; exact hf), ?_⟩
    rw [List.map_reverse, h3]
    simp [Sieve_size_init]

theorem insert_prepends_witness :
    queue_inv ex_abc_visited ∧
    ((∃ new : cache_obj_t,
      new.obj_id = 4 ∧ new.obj_size = 7 ∧ new.freq = 0 ∧
      new.addr ∉ addrs ex_abc_visited ∧
      (Sieve_size_insert ex_abc_visited { obj_id := 4, obj_size := 7 } 5).1 = some new.addr ∧
      q_head (Sieve_size_insert ex_abc_visited { obj_id := 4, obj_size := 7 } 5).2
        = some new.addr ∧
      (Sieve_size_insert ex_abc_visited { obj_id := 4, obj_size := 7 } 5).2.q
        = ex_abc_visited.q ++ [new] ∧
      (Sieve_size_insert ex_abc_visited { obj_id := 4, obj_size := 7 } 5).2.pointer
        = ex_abc_visited.pointer ∧
      (∀ fuel, ex_abc_visited.q.length + 1 ≤ fuel →
        head_to_tail fuel ex_abc_visited = .ok ex_abc_visited.q.reverse) ∧
      (∀ fuel, ex_abc_visited.q.length + 2 ≤ fuel →
        head_to_tail fuel (Sieve_size_insert ex_abc_visited { obj_id := 4, obj_size := 7 } 5).2
          = .ok (new :: ex_abc_visited.q.reverse))) ∧
    (∀ fuel, ex_reqs.length + 1 ≤ fuel →
      ∃ w, head_to_tail fuel
          (insert_all (Sieve_size_init { consider_obj_metadata := false } none) ex_reqs)
            = .ok w ∧
        w.map (fun o => (o.obj_id, o.obj_size, o.freq))
          = ex_reqs.reverse.map (fun r => (r.1.obj_id, r.1.obj_size, (0 : Int))))) ∧
    (cache_insert_base ex_abc_visited { obj_id := 4, obj_size := 7 } 5).1.freq = 5 ∧
    (Sieve_size_insert ex_abc_visited { obj_id := 4, obj_size := 7 } 5).2.q.map
        (fun o => (o.obj_id, o.freq)) = [(1, 1), (2, 1), (3, 1), (4, 0)] ∧
    (head_to_tail 4
        (insert_all (Sieve_size_init { consider_obj_metadata := false } none)
          ex_reqs)).toOption.map (fun w => w.map (fun o => (o.obj_id, o.freq)))
      = some [(3, 0), (2, 0), (1, 0)] :=
  ⟨by decide,
    insert_prepends ex_abc_visited { obj_id := 4, obj_size := 7 } 5 ex_reqs
      { consider_obj_metadata := false } none (by decide),
    by decide, by decide, by decide⟩
/-! ## Lookup and initialisation -/

theorem set_freq_split {c : cache_t} (hwf : wf c) {l1 l2 : List cache_obj_t} {o : cache_obj_t}
    (hq : c.q = l1 ++ o :: l2) (v : Int) :
    set_freq c (some o.addr) v = { c with q := l1 ++ { o with freq := v } :: l2 } := by
  obtain ⟨h1, h2⟩ := wf_split hwf hq
  have hmap : ∀ l : List cache_obj_t, o.addr ∉ l.map (·.addr) →
      l.map (fun x => if x.addr = o.addr then { x with freq := v } else x) = l := by
    intro l hl
    conv_rhs => rw [← List.map_id l]
    apply List.map_congr_left
    intro x hx
    have : x.addr ≠ o.addr := fun e => hl (e ▸ List.mem_map_of_mem _ hx)
    simp [this]
  simp only [set_freq, hq, List.map_append, List.map_cons, if_true, hmap l1 h1, hmap l2 h2]

/-- C12: on a cache whose index agrees with its queue, `Sieve_size_find` returns
what the index holds for the identifier.  For a present record a promoting
lookup sets that record's `freq` to 1 and a lookup without promotion changes
nothing; queue order, cursor and the `freq` of every other record stay as they
are, and a lookup of an absent identifier changes nothing either. -/
theorem find_sets_visited (c : cache_t) (req : request_t) (hwf : wf c) (hidx : index_ok c) :
    (∀ update_cache, (Sieve_size_find c req update_cache).1
      = hashtable_find_obj_id c req.obj_id) ∧
    (Sieve_size_find c req false).2 = c ∧
    (hashtable_find_obj_id c req.obj_id = none → (Sieve_size_find c req true).2 = c) ∧
    (∀ a, hashtable_find_obj_id c req.obj_id = some a →
      ∃ l1 o l2, c.q = l1 ++ o :: l2 ∧ o.addr = a ∧ o.obj_id = req.obj_id ∧
        (Sieve_size_find c req true).2 = { c with q := l1 ++ { o with freq := 1 } :: l2 }) := by
  refine ⟨?_, ?_, ?_, ?_⟩
  · intro u
    unfold Sieve_size_find cache_find_base
    simp only
    split <;> rfl
  · simp [Sieve_size_find, cache_find_base]
  · intro h
    simp [Sieve_size_find, cache_find_base, h]
  · intro a h
    obtain ⟨o, ho, he⟩ := hidx.2 _ (find_obj_id_some h)
    simp only [Prod.mk.injEq] at he
    obtain ⟨l1, l2, hq⟩ := List.append_of_mem ho
    refine ⟨l1, o, l2, hq, he.2.symm, he.1.symm, ?_⟩
    have hs : set_freq c (some a) 1 = { c with q := l1 ++ { o with freq := 1 } :: l2 } := by
      rw [he.2]; exact set_freq_split hwf hq 1
    simp [Sieve_size_find, cache_find_base, h, hs]

theorem find_sets_visited_witness :
    (wf ex_abc ∧ index_ok ex_abc) ∧
    ((∀ update_cache, (Sieve_size_find ex_abc { obj_id := 2, obj_size := 50 } update_cache).1
      = hashtable_find_obj_id ex_abc 2) ∧
    (Sieve_size_find ex_abc { obj_id := 2, obj_size := 50 } false).2 = ex_abc ∧
    (hashtable_find_obj_id ex_abc 2 = none →
      (Sieve_size_find ex_abc { obj_id := 2, obj_size := 50 } true).2 = ex_abc) ∧
    (∀ a, hashtable_find_obj_id ex_abc 2 = some a →
      ∃ l1 o l2, ex_abc.q = l1 ++ o :: l2 ∧ o.addr = a ∧ o.obj_id = 2 ∧
        (Sieve_size_find ex_abc { obj_id := 2, obj_size := 50 } true).2
          = { ex_abc with q := l1 ++ { o with freq := 1 } :: l2 })) ∧
    (Sieve_size_find ex_abc { obj_id := 2, obj_size := 50 } true).2.q.map
        (fun o => (o.obj_id, o.freq)) = [(1, 0), (2, 1), (3, 0)] ∧
    (Sieve_size_find ex_abc { obj_id := 9, obj_size := 1 } true) = (none, ex_abc) :=
  ⟨⟨by decide, by decide⟩,
    find_sets_visited ex_abc { obj_id := 2, obj_size := 50 } (by decide) (by decide),
    by decide, by decide⟩

/-- C13 (as the code has it): `Sieve_size_init` sets the window size to 100
whatever configuration string it is given, with or without an
`eviction-window-size` key, and also when it is given none; the string is only
handed on to `cache_struct_init`. -/
theorem init_window_size_100 (ccache_params : common_cache_params_t)
    (cache_specific_params : Option String) :
    (Sieve_size_init ccache_params cache_specific_params).eviction_window_size = 100 ∧
    Sieve_size_init ccache_params cache_specific_params = Sieve_size_init ccache_params none :=
  ⟨rfl, rfl⟩

/-- C13 fails as stated: with the configuration string
`eviction-window-size=2` the window size after `Sieve_size_init` is 100, not
2. -/
theorem init_window_key_ignored :
    (Sieve_size_init { consider_obj_metadata := false }
      (some "eviction-window-size=2")).eviction_window_size = 100 ∧
    (Sieve_size_init { consider_obj_metadata := false }
      (some "eviction-window-size=2")).eviction_window_size ≠ 2 :=
  ⟨rfl, by decide⟩

/-! ## Cursor update of the eviction -/

theorem queue_prev_split {c : cache_t} (hwf : wf c) {l1 l2 : List cache_obj_t} {o : cache_obj_t}
    (hq : c.q = l1 ++ o :: l2) : queue_prev c (some o.addr) = .ok (hd l2) := by
  simp [queue_prev, hq, link_after_append l1 l2 o (wf_split hwf hq).1, hd]

theorem q_head_split {c : cache_t} (hwf : wf c) {l1 l2 : List cache_obj_t} {o : cache_obj_t}
    (hq : c.q = l1 ++ o :: l2) (hh : q_head c = some o.addr) : l2 = [] := by
  obtain ⟨-, h2⟩ := wf_split hwf hq
  have hr : q_head c = hd c.q.reverse := by simp [q_head, hd, List.head?_reverse]
  rw [hr, hq] at hh
  cases hl : l2.reverse with
  | nil => simpa using hl
  | cons y t =>
    have hy : y ∈ l2 := by
      have : y ∈ l2.reverse := by rw [hl]; simp
      simpa using this
    simp only [List.reverse_append, List.reverse_cons, hl, List.append_assoc, hd,
      List.cons_append, List.head?_cons, Option.map_some', Option.some.injEq] at hh
    exact absurd (hh ▸ List.mem_map_of_mem (·.addr) hy) h2

/-- C14: with a non-empty queue and a cursor that is absent or queued, the
cursor after `Sieve_size_evict` is `stop`'s predecessor (the record next to it
towards the head, absent when `stop` is the head) if the victim is `stop`
itself, and is `stop` otherwise; `stop` is the record at which the aging loop
ended, whose `freq` is then 0 (at most 0 if negative values are allowed). -/
theorem evict_cursor_update (c : cache_t) (fuel : Nat)
    (hwf : wf c) (hne : c.q ≠ []) (hcur : cursor_ok c) (hfuel : enough_fuel c ≤ fuel) :
    ∃ (c1 : cache_t) (stop v : cache_obj_t) (l1 l2 : List cache_obj_t) (c2 : cache_t),
      aging_loop fuel c (scan_start c) = .ok (c1, some stop.addr) ∧
      c1.q = l1 ++ stop :: l2 ∧ stop.freq ≤ 0 ∧ ((∀ o ∈ c.q, 0 ≤ o.freq) → stop.freq = 0) ∧
      Sieve_size_evict_largest_from_window c1 (some stop.addr) 0 = .ok (some v.addr, c1) ∧
      v ∈ c1.q ∧
      Sieve_size_evict fuel c = .ok c2 ∧
      (v = stop → c2.pointer = hd l2 ∧ (q_head c1 = some stop.addr → c2.pointer = none)) ∧
      (v ≠ stop → c2.pointer = some stop.addr) := by
  obtain ⟨r, hv, hstart⟩ := view_start hne hcur
  obtain ⟨m, a, s, b, rfl, ha, hs, hall⟩ := exists_first_min r (view_ne_nil hv)
  obtain ⟨hf1, -, -⟩ := fuel_enough hv ha hall
  obtain ⟨c1, v, np, hag, hfr, hv1, -, hwin, hvq, hnp, hev⟩ :=
    evict_run hwf hv hstart ha hs hall (le_trans hf1 hfuel)
  have hwf1 := frame_wf hfr hwf
  obtain ⟨l1, o, l2, hq, hr⟩ := hv1
  have ho : o = aged m s := by
    simp only [List.map_cons, List.cons_append] at hr
    exact (List.cons.inj hr).1.symm
  subst ho
  have hsq : aged m s ∈ c1.q := by rw [hq]; simp
  refine ⟨c1, aged m s, v, l1, l2, _, hag, hq, ?_, ?_, hwin, hvq, hev, ?_, ?_⟩
  · simp only [aged_freq]; omega
  · intro hnn
    have h0 := hnn s ((view_mem hv s).mp (by simp))
    simp only [aged_freq]
    rcases hall with h | h
    · subst h; simp at hs ⊢; omega
    · have := h s (by simp); omega
  · intro hvs
    have hva : v.addr = s.addr := by rw [hvs]; rfl
    have hp := queue_prev_split hwf1 hq
    simp only [aged_addr] at hp
    rw [if_pos hva, hp] at hnp
    have hnp2 : np = hd l2 := (Except.ok.inj hnp).symm
    refine ⟨hnp2, ?_⟩
    intro hh
    show np = none
    rw [hnp2, q_head_split hwf1 hq hh]; rfl
  · intro hvs
    have hva : ¬ v.addr = s.addr := by
      intro e
      exact hvs (mem_addr_eq hwf1 hvq hsq (by simpa using e))
    rw [if_neg hva] at hnp
    exact (Except.ok.inj hnp).symm

theorem evict_cursor_update_witness :
    (wf ex_abc ∧ ex_abc.q ≠ [] ∧ cursor_ok ex_abc ∧ enough_fuel ex_abc ≤ 4) ∧
    (∃ (c1 : cache_t) (stop v : cache_obj_t) (l1 l2 : List cache_obj_t) (c2 : cache_t),
      aging_loop 4 ex_abc (scan_start ex_abc) = .ok (c1, some stop.addr) ∧
      c1.q = l1 ++ stop :: l2 ∧ stop.freq ≤ 0 ∧
      ((∀ o ∈ ex_abc.q, 0 ≤ o.freq) → stop.freq = 0) ∧
      Sieve_size_evict_largest_from_window c1 (some stop.addr) 0 = .ok (some v.addr, c1) ∧
      v ∈ c1.q ∧
      Sieve_size_evict 4 ex_abc = .ok c2 ∧
      (v = stop → c2.pointer = hd l2 ∧ (q_head c1 = some stop.addr → c2.pointer = none)) ∧
      (v ≠ stop → c2.pointer = some stop.addr)) ∧
    (Sieve_size_evict 4 ex_abc).toOption.map (·.pointer) = some (some 0) ∧
    (Sieve_size_evict 4 ex_bac).toOption.map (·.pointer) = some (some 1) ∧
    (Sieve_size_evict 2 ex_single).toOption.map (·.pointer) = some none :=
  ⟨⟨by decide, by decide, by decide, by decide⟩,
    evict_cursor_update ex_abc 4 (by decide) (by decide) (by decide) (by decide),
    by decide, by decide, by decide⟩

/-! ## Candidate search -/

/-- The threshold at which the escalation loop of `Sieve_size_to_evict` stops. -/
theorem escalation_stops {c : cache_t} (hwf : wf c) {m : Nat} {a : List cache_obj_t}
    {s : cache_obj_t} {b : List cache_obj_t} (hv : CycView c (a ++ s :: b))
    (hstart : hd (a ++ s :: b) = scan_start c)
    (ha : ∀ x ∈ a, (m : Int) < x.freq) (hs : s.freq ≤ m)
    (hall : m = 0 ∨ ∀ x ∈ a ++ s :: b, (m : Int) ≤ x.freq)
    {fuel : Nat} (hf1 : c.q.length + 1 ≤ fuel) (hf2 : m + 1 ≤ fuel) :
    ∃ first : Option Nat,
      Sieve_size_to_evict_with_freq fuel c 0 = .ok (first, c) ∧
      escalate_loop fuel fuel c 0 first = .ok (some s.addr, (m : Int), c) := by
  have h0 := to_evict_with_freq_run hwf hv hstart (0 : Int) hf1
  refine ⟨_, h0, ?_⟩
  rcases Nat.eq_zero_or_pos m with hm | hpos
  · subst hm
    have := find_first (t := 0) (by simpa using ha) (by simpa using hs) (b := b)
    rw [this]
    obtain ⟨k, rfl⟩ := Nat.exists_eq_add_of_le hf2
    have e : 0 + 1 + k = k + 1 := by omega
    rw [e]
    simp [escalate_loop]
  · have hall2 : ∀ x ∈ a ++ s :: b, (m : Int) ≤ x.freq := by
      rcases hall with h | h
      · omega
      · exact h
    rw [find_none (fun x hx => by have := hall2 x hx; omega)]
    have := escalate_run hwf hv hstart ha hs hall2 hf1 (m - 1) 0 fuel (by omega) (by omega)
    simpa using this

/-- C15: on a queue whose cursor is absent or queued,
`Sieve_size_to_evict_with_freq` with threshold `t` returns `NULL` exactly when
no queued record has `freq <= t`, and otherwise the first record with
`freq <= t` in the cyclic scan order that starts at the cursor (at the tail when
the cursor is absent).  With non-negative `freq` values the escalation loop of
`Sieve_size_to_evict` therefore stops with the threshold equal to the least
`freq` in the queue. -/
theorem candidate_search (c : cache_t) (t : Int) (fuel : Nat)
    (hwf : wf c) (hcur : cursor_ok c) (hfuel : c.q.length + 1 ≤ fuel) :
    ∃ r : Option Nat,
      Sieve_size_to_evict_with_freq fuel c t = .ok (r, c) ∧
      (r = none ↔ ∀ o ∈ c.q, t < o.freq) ∧
      (∀ p, r = some p →
        ∃ pre s post, scan_order c (scan_start c) = pre ++ s :: post ∧ s.addr = p ∧
          s.freq ≤ t ∧ ∀ x ∈ pre, t < x.freq) ∧
      (c.q ≠ [] → (∀ o ∈ c.q, 0 ≤ o.freq) → enough_fuel c ≤ fuel →
        ∃ (first : Option Nat) (m : Nat) (cand : cache_obj_t),
          Sieve_size_to_evict_with_freq fuel c 0 = .ok (first, c) ∧
          escalate_loop fuel fuel c 0 first = .ok (some cand.addr, (m : Int), c) ∧
          cand ∈ c.q ∧ cand.freq = m ∧ ∀ o ∈ c.q, (m : Int) ≤ o.freq) := by
  by_cases hne : c.q = []
  · have hp : c.pointer = none := by
      rw [cursor_ok_iff] at hcur
      cases hp : c.pointer with
      | none => rfl
      | some x => have := hcur x hp; simp [addrs, hne] at this
    obtain ⟨k, rfl⟩ := Nat.exists_eq_add_of_le hfuel
    have e : c.q.length + 1 + k = (c.q.length + k) + 1 := by omega
    refine ⟨none, ?_, by simp [hne], by simp, fun h => absurd hne h⟩
    rw [e]
    simp [Sieve_size_to_evict_with_freq, hp, q_tail, hne, skip_loop]
  · obtain ⟨r, hv, hstart⟩ := view_start hne hcur
    have hso : scan_order c (scan_start c) = r := by
      rw [← hstart]; exact scan_order_view hwf hv
    have hrun := to_evict_with_freq_run hwf hv hstart t hfuel
    refine ⟨_, hrun, ?_, ?_, ?_⟩
    · rw [Option.map_eq_none', List.find?_eq_none]
      constructor
      · intro h o ho
        have := h o ((view_mem hv o).mpr ho)
        simpa using this
      · intro h x hx
        have := h x ((view_mem hv x).mp hx)
        simp; omega
    · intro p hp
      cases hf : r.find? (fun x => decide (x.freq ≤ t)) with
      | none => simp [hf] at hp
      | some s0 =>
        have hex : ∃ x ∈ r, x.freq ≤ t :=
          ⟨s0, List.mem_of_find?_eq_some hf, by simpa using List.find?_some hf⟩
        obtain ⟨pre, s, post, hr, hpre, hs⟩ := exists_split_first (fun x => x.freq ≤ t) r hex
        have hpre2 : ∀ x ∈ pre, t < x.freq := fun x hx => by have := hpre x hx; omega
        have hfs := find_first (b := post) hpre2 hs
        rw [← hr, hf] at hfs
        have hs0 : s0 = s := Option.some.inj hfs
        subst hs0
        simp only [hf, Option.map_some', Option.some.injEq] at hp
        exact ⟨pre, s0, post, by rw [hso, hr], hp, hs, hpre2⟩
    · intro _ hnn hfu
      obtain ⟨m, a, s, b, rfl, ha, hs, hall⟩ := exists_first_min r (view_ne_nil hv)
      obtain ⟨-, hf2, hf3⟩ := fuel_enough hv ha hall
      obtain ⟨first, h0, hesc⟩ := escalation_stops hwf hv hstart ha hs hall
        (le_trans hf2 hfu) (le_trans hf3 hfu)
      have hsq : s ∈ c.q := (view_mem hv s).mp (by simp)
      have hall2 : ∀ o ∈ c.q, (m : Int) ≤ o.freq := by
        intro o ho
        rcases hall with h | h
        · subst h; simpa using hnn o ho
        · exact h o ((view_mem hv o).mpr ho)
      exact ⟨first, m, s, h0, hesc, hsq, le_antisymm hs (hall2 s hsq), hall2⟩

theorem candidate_search_witness :
    (wf ex_abc_visited ∧ cursor_ok ex_abc_visited ∧ ex_abc_visited.q.length + 1 ≤ 7) ∧
    (∃ r : Option Nat,
      Sieve_size_to_evict_with_freq 7 ex_abc_visited 0 = .ok (r, ex_abc_visited) ∧
      (r = none ↔ ∀ o ∈ ex_abc_visited.q, 0 < o.freq) ∧
      (∀ p, r = some p →
        ∃ pre s post, scan_order ex_abc_visited (scan_start ex_abc_visited)
            = pre ++ s :: post ∧ s.addr = p ∧
          s.freq ≤ 0 ∧ ∀ x ∈ pre, 0 < x.freq) ∧
      (ex_abc_visited.q ≠ [] → (∀ o ∈ ex_abc_visited.q, 0 ≤ o.freq) →
        enough_fuel ex_abc_visited ≤ 7 →
        ∃ (first : Option Nat) (m : Nat) (cand : cache_obj_t),
          Sieve_size_to_evict_with_freq 7 ex_abc_visited 0 = .ok (first, ex_abc_visited) ∧
          escalate_loop 7 7 ex_abc_visited 0 first
            = .ok (some cand.addr, (m : Int), ex_abc_visited) ∧
          cand ∈ ex_abc_visited.q ∧ cand.freq = m ∧
          ∀ o ∈ ex_abc_visited.q, (m : Int) ≤ o.freq)) ∧
    (Sieve_size_to_evict_with_freq 7 ex_abc_visited 0).toOption.map (·.1) = some none ∧
    (Sieve_size_to_evict_with_freq 7 ex_abc_visited 1).toOption.map (·.1) = some (some 0) ∧
    (Sieve_size_to_evict_with_freq 3 ex_ab_visited 0).toOption.map (·.1) = some (some 0) :=
  ⟨⟨by decide, by decide, by decide⟩,
    candidate_search ex_abc_visited 0 7 (by decide) (by decide) (by decide),
    by decide, by decide, by decide⟩

/-! ## The window ignores the visited counter -/

theorem ex_run_ab_reachable : Reachable ex_run_ab :=
  reachable_run 1 ex_ops_ab (Reachable.start { consider_obj_metadata := false } none) (by rfl)

theorem apply_op_window {fuel : Nat} {c c1 : cache_t} {op : Op} (hi : queue_inv c)
    (h : apply_op fuel c op = .ok c1) : c1.eviction_window_size = c.eviction_window_size := by
  cases op with
  | insert req f =>
    simp only [apply_op, Except.ok.injEq] at h
    subst h
    rw [(insert_shape c req f hi).2]
  | lookup req u =>
    simp only [apply_op, Except.ok.injEq] at h
    subst h
    rw [(find_inv c req u).1]
  | evict =>
    simp only [apply_op] at h
    obtain ⟨c1a, stop, v, np, hfr, -, -, -, rfl⟩ := evict_ok_shape hi.1 hi.2.1 h
    show c1a.eviction_window_size = c.eviction_window_size
    rw [hfr.1]
  | remove obj_id =>
    simp only [apply_op] at h
    unfold Sieve_size_remove at h
    simp only at h
    cases hf : hashtable_find_obj_id c obj_id with
    | none =>
      simp only [hf, if_true, Except.ok.injEq] at h
      subst h
      rfl
    | some a =>
      simp only [hf] at h
      cases hr : Sieve_size_remove_obj c (some a) with
      | error e => simp [hr] at h
      | ok c2 =>
        simp only [hr, Except.ok.injEq] at h
        simp at h
        subst h
        obtain ⟨v, np, -, -, -, -, rfl⟩ := remove_obj_ok_shape hi.1 hi.2.1 hr
        rfl

/-- The window size is 100 in every reachable state. -/
theorem reachable_window_100 {c : cache_t} (h : Reachable c) : c.eviction_window_size = 100 := by
  induction h with
  | start p s => rfl
  | step fuel op hr hstep ih => rw [apply_op_window (reachable_inv hr).1 hstep, ih]

/-- C16: the windowed selector does not look at `freq`.  In the state reached
from `Sieve_size_init` by inserting A (size 10), inserting B (size 50) and
looking B up, the aging loop stops at the tail A (`freq = 0`) without changing
anything, the window holds A and B, and `Sieve_size_evict` removes B, whose
`freq` is 1, because it is the largest record.  The same happens in the state
with window size 2, tail A (size 10, `freq = 0`) and B (size 50, `freq = 1`)
next to it; that state is a state of the policy but is not itself reached from
`Sieve_size_init`, after which the window size is always 100. -/
theorem evict_can_remove_visited :
    (∃ c, Reachable c ∧
      ∃ (stop v : cache_obj_t) (c2 : cache_t),
        aging_loop 3 c (scan_start c) = .ok (c, some stop.addr) ∧ stop.freq = 0 ∧
        Sieve_size_evict_largest_from_window c (some stop.addr) 0 = .ok (some v.addr, c) ∧
        v ∈ c.q ∧ v.freq ≠ 0 ∧ (∀ x ∈ c.q, x.obj_size ≤ v.obj_size) ∧
        Sieve_size_evict 3 c = .ok c2 ∧ v.addr ∉ addrs c2) ∧
    (∃ (stop v : cache_obj_t) (c2 : cache_t),
      ex_ab_visited.eviction_window_size = 2 ∧
      aging_loop 3 ex_ab_visited (scan_start ex_ab_visited)
        = .ok (ex_ab_visited, some stop.addr) ∧ stop.freq = 0 ∧
      Sieve_size_evict_largest_from_window ex_ab_visited (some stop.addr) 0
        = .ok (some v.addr, ex_ab_visited) ∧
      v ∈ ex_ab_visited.q ∧ v.freq = 1 ∧ v.obj_size = 50 ∧
      Sieve_size_evict 3 ex_ab_visited = .ok c2 ∧ v.addr ∉ addrs c2) ∧
    (∀ c, Reachable c → c.eviction_window_size = 100) := by
  refine ⟨⟨ex_run_ab, ex_run_ab_reachable,
      { addr := 0, obj_id := 1, obj_size := 10, freq := 0 },
      { addr := 1, obj_id := 2, obj_size := 50, freq := 1 },
      { q := [{ addr := 0, obj_id := 1, obj_size := 10, freq := 0 }],
        pointer := some 0, eviction_window_size := 100, obj_md_size := 0,
        hashtable := [(1, 0)], n_obj := 1, occupied_byte := 10, next_addr := 2 },
      by rfl, by rfl, by rfl, by decide, by decide, by decide, by rfl, by decide⟩,
    ⟨{ addr := 0, obj_id := 1, obj_size := 10, freq := 0 },
      { addr := 1, obj_id := 2, obj_size := 50, freq := 1 },
      { q := [{ addr := 0, obj_id := 1, obj_size := 10, freq := 0 }],
        pointer := some 0, eviction_window_size := 2, obj_md_size := 0,
        hashtable := [(1, 0)], n_obj := 1, occupied_byte := 10, next_addr := 2 },
      by rfl, by rfl, by rfl, by rfl, by decide, by rfl, by rfl, by rfl, by decide⟩,
    fun _ h => reachable_window_100 h⟩

/-! ## The visited counter stays in {0, 1} -/

/-- Every record left by `Sieve_size_evict` is a record of the queue before the
call with its `freq` lowered, never below 0 if it was lowered at all. -/
theorem evict_ok_aged {fuel : Nat} {c c2 : cache_t} (hwf : wf c) (hcur : cursor_ok c)
    (h : Sieve_size_evict fuel c = .ok c2) :
    ∀ o1 ∈ c2.q, ∃ o ∈ c.q, ∃ k : Nat, o1 = aged k o ∧ (k = 0 ∨ 0 ≤ o.freq - k) := by
  have hne := evict_ok_nonempty h
  obtain ⟨r, hv, hstart⟩ := view_start hne hcur
  obtain ⟨m, a, s, b, rfl, ha, hs, hall⟩ := exists_first_min r (view_ne_nil hv)
  obtain ⟨hf1, -, -⟩ := fuel_enough hv ha hall
  obtain ⟨c1, v, np, -, hfr, hv1, -, -, hvq, hnp, hev⟩ :=
    evict_run hwf hv hstart ha hs hall
      (show m * (a.length + 1 + b.length) + a.length + 1 ≤ fuel + enough_fuel c by omega)
  have h2 := evict_mono (enough_fuel c) h
  rw [hev] at h2
  have hc2 := (Except.ok.inj h2).symm
  intro o1 ho1
  rw [hc2] at ho1
  have ho1b : o1 ∈ c1.q.filter (fun x => x.addr != v.addr) := ho1
  have ho1c := (view_mem hv1 o1).mpr (List.mem_of_mem_filter ho1b)
  rcases List.mem_append.mp ho1c with hm | hm
  · obtain ⟨x, hx, rfl⟩ := List.mem_map.mp hm
    refine ⟨x, (view_mem hv x).mp (List.mem_append_right _ hx), m, rfl, ?_⟩
    rcases hall with h0 | hge
    · left; exact h0
    · right
      have := hge x (List.mem_append_right _ hx)
      omega
  · obtain ⟨x, hx, rfl⟩ := List.mem_map.mp hm
    refine ⟨x, (view_mem hv x).mp (List.mem_append_left _ hx), m + 1, rfl, ?_⟩
    right
    have := ha x hx
    push_cast
    omega

theorem set_freq_mem {c : cache_t} {p : Option Nat} {v : Int} {o1 : cache_obj_t}
    (h : o1 ∈ (set_freq c p v).q) :
    ∃ o ∈ c.q, o1.addr = o.addr ∧ (o1 = o ∨ (some o.addr = p ∧ o1.freq = v)) := by
  cases p with
  | none => exact ⟨o1, h, rfl, Or.inl rfl⟩
  | some a =>
    simp only [set_freq, List.mem_map] at h
    obtain ⟨o, ho, rfl⟩ := h
    refine ⟨o, ho, ?_⟩
    by_cases hx : o.addr = a
    · simp [hx]
    · simp [hx]

/-- What one call does to the `freq` values, on a cache with the queue
invariant and all `freq` in {0, 1}. -/
theorem apply_op_freq {fuel : Nat} {c c1 : cache_t} {op : Op}
    (hi : queue_inv c) (h01 : ∀ o ∈ c.q, o.freq = 0 ∨ o.freq = 1)
    (h : apply_op fuel c op = .ok c1) :
    ∀ o1 ∈ c1.q,
      (o1.addr ∉ addrs c ∧ o1.freq = 0 ∧ ∃ req fresh_freq, op = .insert req fresh_freq) ∨
      ∃ o ∈ c.q, o1.addr = o.addr ∧
        (o1.freq = o.freq ∨ (o1.freq = 1 ∧ ∃ req, op = .lookup req true) ∨
          (op = .evict ∧ 0 < o.freq ∧ o1.freq = o.freq - 1)) := by
  intro o1 ho1
  cases op with
  | insert req f =>
    simp only [apply_op, Except.ok.injEq] at h
    subst h
    rw [(insert_shape c req f hi).2] at ho1
    rcases List.mem_append.mp ho1 with hm | hm
    · exact Or.inr ⟨o1, hm, rfl, Or.inl rfl⟩
    · simp only [List.mem_singleton] at hm
      subst hm
      refine Or.inl ⟨?_, rfl, req, f, rfl⟩
      intro hmem
      exact absurd (hi.2.2 _ hmem) (lt_irrefl _)
  | lookup req u =>
    simp only [apply_op, Except.ok.injEq] at h
    subst h
    right
    unfold Sieve_size_find cache_find_base at ho1
    simp only at ho1
    split at ho1
    · rename_i hc
      obtain ⟨o, ho, e1, e2⟩ := set_freq_mem ho1
      refine ⟨o, ho, e1, ?_⟩
      rcases e2 with e | e
      · left; rw [e]
      · right; left
        exact ⟨e.2, req, by rw [hc.2]⟩
    · exact ⟨o1, ho1, rfl, Or.inl rfl⟩
  | evict =>
    simp only [apply_op] at h
    right
    obtain ⟨o, ho, k, rfl, hk⟩ := evict_ok_aged hi.1 hi.2.1 h o1 ho1
    refine ⟨o, ho, rfl, ?_⟩
    rcases hk with hk | hk
    · left; subst hk; simp
    · have := h01 o ho
      rcases Nat.eq_zero_or_pos k with h0 | hpos
      · left; subst h0; simp
      · right; right
        refine ⟨rfl, by omega, ?_⟩
        simp only [aged_freq]
        omega
  | remove obj_id =>
    simp only [apply_op] at h
    right
    unfold Sieve_size_remove at h
    simp only at h
    cases hf : hashtable_find_obj_id c obj_id with
    | none =>
      simp only [hf, if_true, Except.ok.injEq] at h
      subst h
      exact ⟨o1, ho1, rfl, Or.inl rfl⟩
    | some a =>
      simp only [hf] at h
      cases hr : Sieve_size_remove_obj c (some a) with
      | error e => simp [hr] at h
      | ok c2 =>
        simp only [hr, Except.ok.injEq] at h
        simp at h
        subst h
        obtain ⟨v, np, -, -, -, -, rfl⟩ := remove_obj_ok_shape hi.1 hi.2.1 hr
        have ho1b : o1 ∈ c.q.filter (fun x => x.addr != v.addr) := ho1
        exact ⟨o1, List.mem_of_mem_filter ho1b, rfl, Or.inl rfl⟩

theorem reachable_zero_one {c : cache_t} (h : Reachable c) :
    ∀ o ∈ c.q, o.freq = 0 ∨ o.freq = 1 := by
  induction h with
  | start p s => intro o ho; simp [Sieve_size_init] at ho
  | step fuel op hr hstep ih =>
    intro o1 ho1
    rcases apply_op_freq (reachable_inv hr).1 ih hstep o1 ho1 with h | ⟨o, ho, -, h⟩
    · exact Or.inl h.2.1
    · have := ih o ho
      rcases h with h | h | h
      · rw [h]; exact this
      · exact Or.inr h.1
      · left; omega

/-- C17: in every state reached from `Sieve_size_init` by insert, lookup, evict
and remove calls, whatever the runtime leaves in the `freq` field of the
records it creates, every queued record has `freq` 0 or 1.  A further call
leaves each record's `freq` as it was, except that an insert adds a record
with `freq = 0`, a promoting lookup sets a `freq` to 1, and an eviction lowers
by one a `freq` that was greater than 0. -/
theorem visited_zero_one (c : cache_t) (h : Reachable c) :
    (∀ o ∈ c.q, o.freq = 0 ∨ o.freq = 1) ∧
    ∀ (fuel : Nat) (op : Op) (c1 : cache_t), apply_op fuel c op = .ok c1 →
      ∀ o1 ∈ c1.q,
        (o1.addr ∉ addrs c ∧ o1.freq = 0 ∧ ∃ req fresh_freq, op = .insert req fresh_freq) ∨
        ∃ o ∈ c.q, o1.addr = o.addr ∧
          (o1.freq = o.freq ∨ (o1.freq = 1 ∧ ∃ req, op = .lookup req true) ∨
            (op = .evict ∧ 0 < o.freq ∧ o1.freq = o.freq - 1)) :=
  ⟨reachable_zero_one h,
    fun _ _ _ hop => apply_op_freq (reachable_inv h).1 (reachable_zero_one h) hop⟩

theorem visited_zero_one_witness :
    (∀ o ∈ ex_run_ab.q, o.freq = 0 ∨ o.freq = 1) ∧
    ∀ (fuel : Nat) (op : Op) (c1 : cache_t), apply_op fuel ex_run_ab op = .ok c1 →
      ∀ o1 ∈ c1.q,
        (o1.addr ∉ addrs ex_run_ab ∧ o1.freq = 0 ∧ ∃ req fresh_freq, op = .insert req fresh_freq) ∨
        ∃ o ∈ ex_run_ab.q, o1.addr = o.addr ∧
          (o1.freq = o.freq ∨ (o1.freq = 1 ∧ ∃ req, op = .lookup req true) ∨
            (op = .evict ∧ 0 < o.freq ∧ o1.freq = o.freq - 1)) :=
  visited_zero_one ex_run_ab ex_run_ab_reachable

/-! ## Cursor handling of the removal -/

/-- C18: on a cache whose index agrees with its queue, removing a present
identifier unlinks the record the index holds for it.  If that record is the
cursor, the cursor becomes its predecessor (the record next to it towards the
head, absent when the record is the head); otherwise the cursor is unchanged.
The other records keep their order and all their fields, `freq` included. -/
theorem remove_cursor_frame (c : cache_t) (obj_id a : Nat) (hwf : wf c) (hidx : index_ok c)
    (hfound : hashtable_find_obj_id c obj_id = some a) :
    ∃ (l1 : List cache_obj_t) (o : cache_obj_t) (l2 : List cache_obj_t) (c1 : cache_t),
      c.q = l1 ++ o :: l2 ∧ o.addr = a ∧ o.obj_id = obj_id ∧
      Sieve_size_remove c obj_id = .ok (true, c1) ∧ c1.q = l1 ++ l2 ∧
      (c.pointer = some a → c1.pointer = hd l2 ∧ (q_head c = some a → c1.pointer = none)) ∧
      (c.pointer ≠ some a → c1.pointer = c.pointer) := by
  obtain ⟨o, ho, he⟩ := hidx.2 _ (find_obj_id_some hfound)
  simp only [Prod.mk.injEq] at he
  obtain ⟨hid, ha⟩ := he
  subst ha
  obtain ⟨np, hnp, hrun⟩ := remove_obj_run hwf ho
  obtain ⟨l1, l2, hq⟩ := List.append_of_mem ho
  have hfil := filter_remove hwf hq
  have hrem : Sieve_size_remove c obj_id = .ok (true, cache_remove_obj_base
      { c with pointer := np, q := c.q.filter (fun x => x.addr != o.addr) } o) := by
    simp [Sieve_size_remove, hfound, hrun]
  refine ⟨l1, o, l2, _, hq, rfl, hid.symm, hrem, hfil, ?_, ?_⟩
  · intro hp
    rw [if_pos hp.symm, queue_prev_split hwf hq] at hnp
    have hnp2 : np = hd l2 := (Except.ok.inj hnp).symm
    refine ⟨hnp2, ?_⟩
    intro hh
    show np = none
    rw [hnp2, q_head_split hwf hq hh]; rfl
  · intro hp
    rw [if_neg (fun e => hp e.symm)] at hnp
    exact (Except.ok.inj hnp).symm

theorem remove_cursor_frame_witness :
    (wf ex_run ∧ index_ok ex_run ∧ hashtable_find_obj_id ex_run 4 = some 3) ∧
    (∃ (l1 : List cache_obj_t) (o : cache_obj_t) (l2 : List cache_obj_t) (c1 : cache_t),
      ex_run.q = l1 ++ o :: l2 ∧ o.addr = 3 ∧ o.obj_id = 4 ∧
      Sieve_size_remove ex_run 4 = .ok (true, c1) ∧ c1.q = l1 ++ l2 ∧
      (ex_run.pointer = some 3 →
        c1.pointer = hd l2 ∧ (q_head ex_run = some 3 → c1.pointer = none)) ∧
      (ex_run.pointer ≠ some 3 → c1.pointer = ex_run.pointer)) ∧
    ex_run.pointer = some 3 ∧
    (Sieve_size_remove ex_run 4).toOption.map (fun r => r.2.pointer) = some none ∧
    ex_ac.q.map (·.addr) = [0, 2] ∧ ex_ac.pointer = some 0 ∧
    (Sieve_size_remove ex_ac 1).toOption.map (fun r => r.2.pointer) = some (some 2) ∧
    (Sieve_size_remove ex_ac 3).toOption.map (fun r => r.2.pointer) = some (some 0) :=
  ⟨⟨by decide, by decide, by decide⟩,
    remove_cursor_frame ex_run 4 3 (by decide) (by decide) (by decide), by decide, by decide,
    by decide, by decide, by decide, by decide⟩

/-! ## Exact effect of the aging loop -/

/-- C19: on a non-empty queue with non-negative `freq` values and a cursor that
is absent or queued, let `m` be the least `freq` in the queue.  The aging loop
of `Sieve_size_evict` stops at the first record `s`, in cyclic scan order from
the start (cursor, or tail when absent), whose `freq` is `m`.  When it stops
the records before `s` in that order have their `freq` lowered by `m + 1`, and
`s` and the records after it by `m`, so that `s` has `freq = 0`; nothing else
changes.  When all values are 0 or 1 every record is lowered at most once. -/
theorem aging_exact (c : cache_t) (fuel : Nat)
    (hwf : wf c) (hne : c.q ≠ []) (hcur : cursor_ok c) (hnn : ∀ o ∈ c.q, 0 ≤ o.freq)
    (hfuel : enough_fuel c ≤ fuel) :
    ∃ (m : Nat) (a : List cache_obj_t) (s : cache_obj_t) (b : List cache_obj_t)
      (c1 : cache_t),
      scan_order c (scan_start c) = a ++ s :: b ∧
      (∀ o ∈ c.q, (m : Int) ≤ o.freq) ∧ s.freq = m ∧ (∀ x ∈ a, (m : Int) < x.freq) ∧
      aging_loop fuel c (scan_start c) = .ok (c1, some s.addr) ∧
      Frame c c1 ∧
      scan_order c1 (some s.addr) = (s :: b).map (aged m) ++ a.map (aged (m + 1)) ∧
      (∀ o1 ∈ c1.q, (∃ x ∈ a, o1 = aged (m + 1) x) ∨ (∃ x ∈ s :: b, o1 = aged m x)) ∧
      aged m s ∈ c1.q ∧ (aged m s).freq = 0 ∧
      ((∀ o ∈ c.q, o.freq = 0 ∨ o.freq = 1) →
        ∀ o1 ∈ c1.q, ∃ o ∈ c.q, o1 = o ∨ (o.freq = 1 ∧ o1 = aged 1 o)) := by
  obtain ⟨r, hv, hstart⟩ := view_start hne hcur
  have hso : scan_order c (scan_start c) = r := by
    rw [← hstart]; exact scan_order_view hwf hv
  obtain ⟨m, a, s, b, rfl, ha, hs, hall⟩ := exists_first_min r (view_ne_nil hv)
  obtain ⟨hf1, -, -⟩ := fuel_enough hv ha hall
  obtain ⟨c1, v, np, hag, hfr, hv1, -, -, -, -, -⟩ :=
    evict_run hwf hv hstart ha hs hall (le_trans hf1 hfuel)
  have hwf1 := frame_wf hfr hwf
  have hsq : s ∈ c.q := (view_mem hv s).mp (by simp)
  have hall2 : ∀ o ∈ c.q, (m : Int) ≤ o.freq := by
    intro o ho
    rcases hall with h | h
    · subst h; simpa using hnn o ho
    · exact h o ((view_mem hv o).mpr ho)
  have hsm : s.freq = m := le_antisymm hs (hall2 s hsq)
  have hso1 : scan_order c1 (some s.addr) = (s :: b).map (aged m) ++ a.map (aged (m + 1)) := by
    have := scan_order_view hwf1 hv1
    simpa [hd] using this
  have hmem : ∀ o1 ∈ c1.q,
      (∃ x ∈ a, o1 = aged (m + 1) x) ∨ (∃ x ∈ s :: b, o1 = aged m x) := by
    intro o1 ho1
    rcases List.mem_append.mp ((view_mem hv1 o1).mpr ho1) with h | h
    · obtain ⟨x, hx, rfl⟩ := List.mem_map.mp h
      exact Or.inr ⟨x, hx, rfl⟩
    · obtain ⟨x, hx, rfl⟩ := List.mem_map.mp h
      exact Or.inl ⟨x, hx, rfl⟩
  refine ⟨m, a, s, b, c1, hso, hall2, hsm, ha, hag, hfr, hso1, hmem,
    (view_mem hv1 _).mp (by simp), by simp [hsm], ?_⟩
  intro h01 o1 ho1
  rcases hmem o1 ho1 with ⟨x, hx, rfl⟩ | ⟨x, hx, rfl⟩
  · have hxq : x ∈ c.q := (view_mem hv x).mp (List.mem_append_left _ hx)
    have h1 := ha x hx
    have h2 := h01 x hxq
    have hm0 : m = 0 := by omega
    subst hm0
    exact ⟨x, hxq, Or.inr ⟨by omega, rfl⟩⟩
  · have hxq : x ∈ c.q := (view_mem hv x).mp (List.mem_append_right _ hx)
    have h1 := hall2 x hxq
    have h2 := h01 x hxq
    rcases Nat.eq_zero_or_pos m with h0 | hpos
    · subst h0
      exact ⟨x, hxq, Or.inl (by simp)⟩
    · have hm1 : m = 1 := by omega
      subst hm1
      exact ⟨x, hxq, Or.inr ⟨by omega, rfl⟩⟩

theorem aging_exact_witness :
    (wf ex_counters ∧ ex_counters.q ≠ [] ∧ cursor_ok ex_counters ∧
      (∀ o ∈ ex_counters.q, 0 ≤ o.freq) ∧ enough_fuel ex_counters ≤ 10) ∧
    (∃ (m : Nat) (a : List cache_obj_t) (s : cache_obj_t) (b : List cache_obj_t)
      (c1 : cache_t),
      scan_order ex_counters (scan_start ex_counters) = a ++ s :: b ∧
      (∀ o ∈ ex_counters.q, (m : Int) ≤ o.freq) ∧ s.freq = m ∧
      (∀ x ∈ a, (m : Int) < x.freq) ∧
      aging_loop 10 ex_counters (scan_start ex_counters) = .ok (c1, some s.addr) ∧
      Frame ex_counters c1 ∧
      scan_order c1 (some s.addr) = (s :: b).map (aged m) ++ a.map (aged (m + 1)) ∧
      (∀ o1 ∈ c1.q, (∃ x ∈ a, o1 = aged (m + 1) x) ∨ (∃ x ∈ s :: b, o1 = aged m x)) ∧
      aged m s ∈ c1.q ∧ (aged m s).freq = 0 ∧
      ((∀ o ∈ ex_counters.q, o.freq = 0 ∨ o.freq = 1) →
        ∀ o1 ∈ c1.q, ∃ o ∈ ex_counters.q, o1 = o ∨ (o.freq = 1 ∧ o1 = aged 1 o))) ∧
    (aging_loop 10 ex_counters (scan_start ex_counters)).toOption.map
        (fun x => (x.1.q.map (·.freq), x.2)) = some ([0, 0, 1], some 1) ∧
    (aging_loop 5 ex_counters (scan_start ex_counters)).toOption = none :=
  ⟨⟨by decide, by decide, by decide, by decide, by decide⟩,
    aging_exact ex_counters 10 (by decide) (by decide) (by decide) (by decide) (by decide),
    by decide, by decide⟩

/-! ## No read through an invalid pointer -/

theorem aging_stable (fuel : Nat) :
    ∀ (c : cache_t) (p : Option Nat) (r : Except Fault (cache_t × Option Nat)) (k : Nat),
      aging_loop fuel c p = r → r ≠ .error .out_of_fuel → aging_loop (fuel + k) c p = r := by
  induction fuel with
  | zero => intro c p r k h hr; simp only [aging_loop] at h; exact absurd h.symm hr
  | succ fuel ih =>
    intro c p r k h hr
    have e : fuel + 1 + k = (fuel + k) + 1 := by omega
    rw [e]
    simp only [aging_loop] at h ⊢
    cases hd : deref c p with
    | error err => simpa [hd] using h
    | ok o =>
      simp only [hd] at h ⊢
      by_cases hpos : o.freq > 0
      · simp only [hpos, if_true] at h ⊢
        cases hq : queue_prev (set_freq c p (o.freq - 1)) p with
        | error err => simpa [hq] using h
        | ok prev =>
          simp only [hq] at h ⊢
          exact ih _ _ _ k h hr
      · simp only [hpos, if_false] at h ⊢
        exact h

theorem skip_stable (c : cache_t) (t : Int) (fuel : Nat) :
    ∀ (p : Option Nat) (r : Except Fault (Option Nat)) (k : Nat),
      skip_loop c t fuel p = r → r ≠ .error .out_of_fuel → skip_loop c t (fuel + k) p = r := by
  induction fuel with
  | zero => intro p r k h hr; simp only [skip_loop] at h; exact absurd h.symm hr
  | succ fuel ih =>
    intro p r k h hr
    have e : fuel + 1 + k = (fuel + k) + 1 := by omega
    rw [e]
    cases p with
    | none => simpa [skip_loop] using h
    | some a =>
      simp only [skip_loop] at h ⊢
      cases hd : deref c (some a) with
      | error err => simpa [hd] using h
      | ok o =>
        simp only [hd] at h ⊢
        by_cases hpos : o.freq > t
        · simp only [hpos, if_true] at h ⊢
          cases hq : queue_prev c (some a) with
          | error err => simpa [hq] using h
          | ok prev =>
            simp only [hq] at h ⊢
            exact ih _ _ k h hr
        · simp only [hpos, if_false] at h ⊢
          exact h

theorem to_evict_with_freq_stable {fuel : Nat} {c : cache_t} {t : Int}
    {r : Except Fault (Option Nat × cache_t)} (k : Nat)
    (h : Sieve_size_to_evict_with_freq fuel c t = r) (hr : r ≠ .error .out_of_fuel) :
    Sieve_size_to_evict_with_freq (fuel + k) c t = r := by
  unfold Sieve_size_to_evict_with_freq at h ⊢
  simp only at h ⊢
  cases h1 : skip_loop c t fuel (if c.pointer = none then q_tail c else c.pointer) with
  | error e1 =>
    simp only [h1] at h
    have he : e1 ≠ .out_of_fuel := by
      intro e; apply hr; rw [← h, e]
    rw [skip_stable c t fuel _ _ k h1 (by simpa using he)]
    exact h
  | ok p1 =>
    simp only [h1] at h
    rw [skip_stable c t fuel _ _ k h1 (by simp)]
    simp only
    by_cases hp : p1 = none
    · simp only [hp, if_true] at h ⊢
      cases h2 : skip_loop c t fuel (q_tail c) with
      | error e2 =>
        simp only [h2] at h
        have he : e2 ≠ .out_of_fuel := by
          intro e; apply hr; rw [← h, e]
        rw [skip_stable c t fuel _ _ k h2 (by simpa using he)]
        exact h
      | ok p2 =>
        simp only [h2] at h
        rw [skip_stable c t fuel _ _ k h2 (by simp)]
        exact h
    · simp only [hp, if_false] at h ⊢
      exact h

theorem escalate_stable (inner fuel : Nat) :
    ∀ (c : cache_t) (t : Int) (p : Option Nat) (r : Except Fault (Option Nat × Int × cache_t))
      (k1 k2 : Nat),
      escalate_loop inner fuel c t p = r → r ≠ .error .out_of_fuel →
      escalate_loop (inner + k1) (fuel + k2) c t p = r := by
  induction fuel with
  | zero => intro c t p r k1 k2 h hr; simp only [escalate_loop] at h; exact absurd h.symm hr
  | succ fuel ih =>
    intro c t p r k1 k2 h hr
    have e : fuel + 1 + k2 = (fuel + k2) + 1 := by omega
    rw [e]
    simp only [escalate_loop] at h ⊢
    by_cases hp : p = none
    · simp only [hp, if_true] at h ⊢
      cases h1 : Sieve_size_to_evict_with_freq inner c (t + 1) with
      | error e1 =>
        simp only [h1] at h
        have he : e1 ≠ .out_of_fuel := by
          intro e; apply hr; rw [← h, e]
        rw [to_evict_with_freq_stable k1 h1 (by simpa using he)]
        exact h
      | ok x =>
        obtain ⟨p2, c2⟩ := x
        simp only [h1] at h
        rw [to_evict_with_freq_stable k1 h1 (by simp)]
        exact ih _ _ _ _ k1 k2 h hr
    · simp only [hp, if_false] at h ⊢
      exact h

theorem to_evict_stable {fuel : Nat} {c : cache_t} {r : Except Fault (Option Nat × cache_t)}
    (k : Nat) (h : Sieve_size_to_evict fuel c = r) (hr : r ≠ .error .out_of_fuel) :
    Sieve_size_to_evict (fuel + k) c = r := by
  unfold Sieve_size_to_evict at h ⊢
  simp only at h ⊢
  cases h1 : Sieve_size_to_evict_with_freq fuel c 0 with
  | error e1 =>
    simp only [h1] at h
    have he : e1 ≠ .out_of_fuel := by
      intro e; apply hr; rw [← h, e]
    rw [to_evict_with_freq_stable k h1 (by simpa using he)]
    exact h
  | ok x =>
    obtain ⟨p2, c2⟩ := x
    simp only [h1] at h
    rw [to_evict_with_freq_stable k h1 (by simp)]
    simp only
    cases h2 : escalate_loop fuel fuel c2 0 p2 with
    | error e2 =>
      simp only [h2] at h
      have he : e2 ≠ .out_of_fuel := by
        intro e; apply hr; rw [← h, e]
      rw [escalate_stable fuel fuel _ _ _ _ k k h2 (by simpa using he)]
      exact h
    | ok y =>
      simp only [h2] at h
      rw [escalate_stable fuel fuel _ _ _ _ k k h2 (by simp)]
      exact h

theorem evict_stable {fuel : Nat} {c : cache_t} {r : Except Fault cache_t}
    (k : Nat) (h : Sieve_size_evict fuel c = r) (hr : r ≠ .error .out_of_fuel) :
    Sieve_size_evict (fuel + k) c = r := by
  unfold Sieve_size_evict at h ⊢
  simp only at h ⊢
  cases h1 : aging_loop fuel c (scan_start c) with
  | error e1 =>
    simp only [h1] at h
    have he : e1 ≠ .out_of_fuel := by
      intro e; apply hr; rw [← h, e]
    rw [aging_stable fuel _ _ _ k h1 (by simpa using he)]
    exact h
  | ok x =>
    simp only [h1] at h
    rw [aging_stable fuel _ _ _ k h1 (by simp)]
    exact h

/-- C20: with a non-empty queue and a cursor that is absent or queued, for any
window size and any amount of fuel, neither `Sieve_size_evict` nor
`Sieve_size_to_evict` reads through `NULL` or through a pointer to a record
that is not queued: the fault `bad_pointer` does not occur.  Whenever the aging
loop returns, the windowed selector returns a queued record, the unlink of that
record succeeds and the eviction returns; whatever `Sieve_size_to_evict`
returns is a queued record; and with `enough_fuel c` both calls return. -/
theorem no_bad_pointer (c : cache_t) (fuel : Nat)
    (hwf : wf c) (hne : c.q ≠ []) (hcur : cursor_ok c) :
    aging_loop fuel c (scan_start c) ≠ .error .bad_pointer ∧
    Sieve_size_evict fuel c ≠ .error .bad_pointer ∧
    Sieve_size_to_evict fuel c ≠ .error .bad_pointer ∧
    (∀ c1 stop, aging_loop fuel c (scan_start c) = .ok (c1, stop) →
      ∃ (s v : Nat) (c2 : cache_t),
        stop = some s ∧ s ∈ addrs c1 ∧
        Sieve_size_evict_largest_from_window c1 stop 0 = .ok (some v, c1) ∧ v ∈ addrs c1 ∧
        (∀ np, ∃ c4, remove_obj_from_list { c1 with pointer := np } (some v) = .ok c4) ∧
        Sieve_size_evict fuel c = .ok c2) ∧
    (∀ r c1, Sieve_size_to_evict fuel c = .ok (r, c1) → ∃ v, r = some v ∧ v ∈ addrs c) ∧
    (enough_fuel c ≤ fuel →
      (∃ c2, Sieve_size_evict fuel c = .ok c2) ∧
      ∃ v, Sieve_size_to_evict fuel c = .ok (some v, c)) := by
  obtain ⟨r, hv, hstart⟩ := view_start hne hcur
  obtain ⟨m, a, s, b, rfl, ha, hs, hall⟩ := exists_first_min r (view_ne_nil hv)
  obtain ⟨hf1, hf2, hf3⟩ := fuel_enough hv ha hall
  obtain ⟨c1, v, np, hag, hfr, hv1, -, hwin, hvq, -, hev⟩ :=
    evict_run hwf hv hstart ha hs hall
      (show m * (a.length + 1 + b.length) + a.length + 1 ≤ fuel + enough_fuel c by omega)
  obtain ⟨-, -, hpeek⟩ := peek_run hwf hv hstart ha hs hall
    (show c.q.length + 1 ≤ fuel + enough_fuel c by omega)
    (show m + 1 ≤ fuel + enough_fuel c by omega)
  have hwf1 := frame_wf hfr hwf
  have hs1 : s.addr ∈ addrs c1 := by
    have : aged m s ∈ c1.q := (view_mem hv1 _).mp (by simp)
    exact List.mem_map_of_mem (·.addr) this
  refine ⟨?_, ?_, ?_, ?_, ?_, ?_⟩
  · intro hbad
    have := aging_stable fuel _ _ _ (enough_fuel c) hbad (by simp)
    rw [hag] at this
    cases this
  · intro hbad
    have := evict_stable (enough_fuel c) hbad (by simp)
    rw [hev] at this
    cases this
  · intro hbad
    have := to_evict_stable (enough_fuel c) hbad (by simp)
    rw [hpeek] at this
    cases this
  · intro c1a stop hok
    have h2 := aging_stable fuel _ _ _ (enough_fuel c) hok (by simp)
    rw [hag] at h2
    simp only [Except.ok.injEq, Prod.mk.injEq] at h2
    obtain ⟨e1, e2⟩ := h2
    subst e1
    subst e2
    have e : Sieve_size_evict fuel c = Sieve_size_evict (fuel + enough_fuel c) c := by
      unfold Sieve_size_evict
      simp only [hok, hag]
    rw [hev] at e
    refine ⟨s.addr, v.addr, _, rfl, hs1, hwin, List.mem_map_of_mem _ hvq, ?_, e⟩
    intro np2
    have hder : deref { c1 with pointer := np2 } (some v.addr) = .ok v := deref_mem hwf1 hvq
    have hrm : remove_obj_from_list { c1 with pointer := np2 } (some v.addr)
        = .ok { c1 with pointer := np2, q := c1.q.filter (fun x => x.addr != v.addr) } := by
      simp only [remove_obj_from_list, hder]
    exact ⟨_, hrm⟩
  · intro r c1a hok
    have h2 := to_evict_stable (enough_fuel c) hok (by simp)
    rw [hpeek] at h2
    simp only [Except.ok.injEq, Prod.mk.injEq] at h2
    refine ⟨_, h2.1.symm, ?_⟩
    apply List.mem_map_of_mem
    have hvr : CycView c (s :: b ++ a) := view_rotate a (by simp) hv
    have hsub : ∀ (l : List cache_obj_t) (e : cache_obj_t), e ∈ c.q → (∀ x ∈ l, x ∈ c.q) →
        l.foldl larger_of e ∈ c.q := by
      intro l
      induction l with
      | nil => intro e he _; simpa using he
      | cons y l ih =>
        intro e he hl
        simp only [List.foldl_cons]
        apply ih
        · unfold larger_of; split
          · exact hl y (List.mem_cons_self _ _)
          · exact he
        · exact fun x hx => hl x (List.mem_cons_of_mem _ hx)
    exact hsub _ _ ((view_mem hvr s).mp (by simp))
      (fun x hx => (view_mem hvr x).mp (cyc_take_mem _ _ x hx))
  · intro hfu
    obtain ⟨-, ⟨c2, h2⟩, -, ⟨v2, h3, -⟩⟩ := progress_core c fuel hwf hne hcur hfu
    exact ⟨⟨c2, h2⟩, ⟨v2, h3⟩⟩

theorem no_bad_pointer_witness :
    (wf ex_counters ∧ ex_counters.q ≠ [] ∧ cursor_ok ex_counters) ∧
    (aging_loop 3 ex_counters (scan_start ex_counters) ≠ .error .bad_pointer ∧
    Sieve_size_evict 3 ex_counters ≠ .error .bad_pointer ∧
    Sieve_size_to_evict 3 ex_counters ≠ .error .bad_pointer ∧
    (∀ c1 stop, aging_loop 3 ex_counters (scan_start ex_counters) = .ok (c1, stop) →
      ∃ (s v : Nat) (c2 : cache_t),
        stop = some s ∧ s ∈ addrs c1 ∧
        Sieve_size_evict_largest_from_window c1 stop 0 = .ok (some v, c1) ∧ v ∈ addrs c1 ∧
        (∀ np, ∃ c4, remove_obj_from_list { c1 with pointer := np } (some v) = .ok c4) ∧
        Sieve_size_evict 3 ex_counters = .ok c2) ∧
    (∀ r c1, Sieve_size_to_evict 3 ex_counters = .ok (r, c1) →
      ∃ v, r = some v ∧ v ∈ addrs ex_counters) ∧
    (enough_fuel ex_counters ≤ 3 →
      (∃ c2, Sieve_size_evict 3 ex_counters = .ok c2) ∧
      ∃ v, Sieve_size_to_evict 3 ex_counters = .ok (some v, ex_counters))) ∧
    (Sieve_size_evict 10 ex_counters).toOption.map (fun c => c.q.map (·.addr))
      = some [0, 2] ∧
    (Sieve_size_to_evict 10 ex_counters).toOption.map (·.1) = some (some 1) :=
  ⟨⟨by decide, by decide, by decide⟩,
    no_bad_pointer ex_counters 3 (by decide) (by decide) (by decide), by decide, by decide⟩


end SieveSize
